import Mathlib

/-!
Shallow embedding of the publicious publish/subscribe dispatcher
(`src/publicious.ts`).

JavaScript values are modelled as follows: a function value is a `Fn`
(reference identity plus its `toString()` source text, since the code
hashes the source text and compares references with `===`); machine
integers in the string hash are `Int` with explicit folding to signed
32-bit range; the per-channel doubly linked lists live in an explicit
heap (`nodes : List (Nat × DLLNode)`), node ids playing the role of
object references; `setTimeout(f, 0, x)` — used by the code to defer a
re-entrant publish and the removal of the currently-invoked node — is
modelled by appending a `PendingTask` to the channel's `pending` queue
(a later turn of the event loop); handler bodies are modelled as finite
command lists (`List HCmd`) looked up by function reference in a
`HandlerEnv`, and the publish traversal is written fuel-based because a
handler may grow the list it is being traversed from.
-/

namespace Publicious

/-- A JavaScript function value: reference identity (`===`) plus the
source text returned by `fn.toString()`. -/
structure Fn where
  ref : Nat
  src : String
deriving DecidableEq, Repr

/-- Fold to a signed 32-bit integer, the effect of `| 0` in JS. -/
def toInt32 (x : Int) : Int := (x + 2 ^ 31) % 2 ^ 32 - 2 ^ 31

/-- One step of the rolling hash from `Subscription.hashStr`:
`hash = ((hash << 5) - hash) + str.charCodeAt(idx); hash |= 0`.
(`hash << 5` itself wraps to 32 bits in JS.) -/
def hashStep (h : Int) (c : Nat) : Int := toInt32 (toInt32 (h * 32) - h + c)

/-- `Subscription.hashStr`: rolling hash over the character codes,
rendered to a decimal string by `hash.toString()`. -/
def hashStr (s : String) : String :=
  toString (s.toList.foldl (fun h c => hashStep h c.toNat) 0)

/-- `Subscription.hashFn`: hash of the function source with all
whitespace removed (`fn.toString().replace(/\s/g,'')`). -/
def hashFn (fn : Fn) : String :=
  hashStr (String.mk (fn.src.toList.filter (fun c => !c.isWhitespace)))

/-- `Subscription`: the handler, the `this` context to apply
(modelled as an opaque id), and the id computed by `hashFn`. -/
structure Subscription where
  fn : Fn
  context : Nat
  id : String
deriving DecidableEq, Repr

/-- The `Subscription` constructor: `this.id = Subscription.hashFn(fn)`. -/
def Subscription.make (fn : Fn) (context : Nat) : Subscription :=
  { fn := fn, context := context, id := hashFn fn }

/-- Doubly linked list node (`DLLNode`); `prev`/`next` are node ids into
the channel's heap, `none` standing for JS `null`. -/
structure DLLNode where
  prev : Option Nat
  next : Option Nat
  subscription : Subscription
  priority : Nat
deriving DecidableEq, Repr

/-- A published argument value; `chanRef` is the channel object the
code appends as the last argument (`args.concat(this)`), `opts` is an
object literal carrying a `suppressErrors` property. -/
inductive Arg where
  | int (n : Int)
  | str (s : String)
  | boolean (b : Bool)
  | opts (suppressErrors : Bool)
  | chanRef (nspace : String)
deriving DecidableEq, Repr

/-- A task queued with `setTimeout(..., 0)`: either a deferred
re-entrant `publish` or the deferred removal of the node that was being
invoked. -/
inductive PendingTask where
  | pub (args : List Arg)
  | unsub (fn : Fn)
deriving DecidableEq, Repr

/-- `Channel.prototype.CLEAR_BITS = 0x00`. -/
def CLEAR_BITS : Nat := 0x00
/-- `Channel.prototype.SIG_INT = 0x01`. -/
def SIG_INT : Nat := 0x01
/-- `Channel.prototype.PUBLISHING = 0x02`. -/
def PUBLISHING : Nat := 0x02

/-- The `Channel` state: the namespace, the `_commandMask` bitfield, the
sparse `_priorityMatrix` of bucket heads, the `_fnHashMap` from hash id
to the array of nodes sharing it, the `_callingNode`, plus the node
heap and a fresh-id counter (standing for JS object allocation) and the
queue of `setTimeout` deferrals. -/
structure Channel where
  nspace : String
  commandMask : Nat
  priorityMatrix : List (Option Nat)
  fnHashMap : List (String × List Nat)
  callingNode : Option Nat
  nodes : List (Nat × DLLNode)
  nextId : Nat
  pending : List PendingTask
deriving DecidableEq, Repr

/-- The `Channel` constructor. -/
def Channel.new (nspace : String) : Channel :=
  { nspace := nspace, commandMask := 0, priorityMatrix := [],
    fnHashMap := [], callingNode := none, nodes := [], nextId := 0,
    pending := [] }

/-- Dereference a node id in a heap fragment. -/
def findNd (nodes : List (Nat × DLLNode)) (n : Nat) : Option DLLNode :=
  (nodes.find? (fun e => e.1 == n)).map Prod.snd

/-- Mutate the fields of the node stored at an id. -/
def updNd (nodes : List (Nat × DLLNode)) (n : Nat) (f : DLLNode → DLLNode) :
    List (Nat × DLLNode) :=
  nodes.map (fun e => if e.1 == n then (e.1, f e.2) else e)

/-- Dereference a node id in the channel's heap. -/
def lookupNode (ch : Channel) (n : Nat) : Option DLLNode :=
  findNd ch.nodes n

/-- Update the node stored at an id (mutation of a JS object's fields). -/
def updateNode (ch : Channel) (n : Nat) (f : DLLNode → DLLNode) : Channel :=
  { ch with nodes := updNd ch.nodes n f }

/-- `this._priorityMatrix[i]`, `undefined` for a hole or out of range. -/
def matrixGet (ch : Channel) (i : Nat) : Option Nat :=
  ch.priorityMatrix.getD i none

/-- JS array index assignment: extend with holes up to the index, then
set; assigning `undefined` to an existing index keeps the length. -/
def listSetPad (l : List (Option Nat)) (i : Nat) (v : Option Nat) : List (Option Nat) :=
  (l ++ List.replicate (i + 1 - l.length) none).set i v

/-- `this._priorityMatrix[i] = v`. -/
def matrixSet (ch : Channel) (i : Nat) (v : Option Nat) : Channel :=
  { ch with priorityMatrix := listSetPad ch.priorityMatrix i v }

/-- `this._fnHashMap[id]` guarded by `hasOwnProperty`. -/
def mapLookup (ch : Channel) (s : String) : Option (List Nat) :=
  (ch.fnHashMap.find? (fun e => e.1 == s)).map Prod.snd

/-- `this._fnHashMap[id] = l` (replace or insert the key). -/
def mapSet (ch : Channel) (s : String) (l : List Nat) : Channel :=
  if (ch.fnHashMap.find? (fun e => e.1 == s)).isSome then
    { ch with fnHashMap := ch.fnHashMap.map (fun e => if e.1 == s then (s, l) else e) }
  else
    { ch with fnHashMap := ch.fnHashMap ++ [(s, l)] }

/-- `delete this._fnHashMap[id]`. -/
def mapDelete (ch : Channel) (s : String) : Channel :=
  { ch with fnHashMap := ch.fnHashMap.filter (fun e => e.1 != s) }

/-- `Channel.hasSubscribers`: `Object.keys(this._fnHashMap).length > 0`. -/
def Channel.hasSubscribers (ch : Channel) : Bool :=
  !ch.fnHashMap.isEmpty

/-- `Channel.interrupt`: `this._commandMask |= this.SIG_INT`. -/
def Channel.interrupt (ch : Channel) : Channel :=
  { ch with commandMask := ch.commandMask ||| SIG_INT }

/-- `Channel.prototype.stopPropagation = Channel.prototype.interrupt`. -/
def Channel.stopPropagation (ch : Channel) : Channel := Channel.interrupt ch

/-- The `while (last.next) last = last.next;` walk of `Channel.subscribe`,
fuel-bounded (the heap size bounds any acyclic chain). -/
def findLast (ch : Channel) : Nat → Nat → Nat
  | 0, cur => cur
  | fuel + 1, cur =>
    match lookupNode ch cur with
    | none => cur
    | some nd =>
      match nd.next with
      | none => cur
      | some nxt => findLast ch fuel nxt

/-- `Channel.subscribe(fn, priority, context)`: duplicate check through
`_fnHashMap` (`===` on the stored function references), then push into
the hash bucket, then append to the tail of the priority bucket's list
(or install the new node as the bucket head). Throws (returns `.error`)
on a duplicate registration of the same function reference. -/
def Channel.subscribe (ch : Channel) (fn : Fn) (priority : Nat) (context : Nat) :
    Except String Channel :=
  let sub := Subscription.make fn context
  let nodeId := ch.nextId
  let node : DLLNode := { prev := none, next := none, subscription := sub, priority := priority }
  let dup : Bool :=
    match mapLookup ch sub.id with
    | none => false
    | some lst => lst.any (fun n =>
        match lookupNode ch n with
        | some nd => nd.subscription.fn.ref == fn.ref
        | none => false)
  if dup then
    Except.error ("Function has already been passed as a subscriber to <" ++ ch.nspace ++ ">")
  else
    let newLst :=
      match mapLookup ch sub.id with
      | none => [nodeId]
      | some lst => lst ++ [nodeId]
    let ch1 := mapSet ch sub.id newLst
    let ch2 := { ch1 with nodes := ch1.nodes ++ [(nodeId, node)], nextId := nodeId + 1 }
    match matrixGet ch2 priority with
    | none => Except.ok (matrixSet ch2 priority (some nodeId))
    | some head =>
      let lastId := findLast ch2 ch2.nodes.length head
      let ch3 := updateNode ch2 lastId (fun nd => { nd with next := some nodeId })
      let ch4 := updateNode ch3 nodeId (fun nd => { nd with prev := some lastId })
      Except.ok ch4

/-- The search loop of `Channel.unsubscribe`: first index in the hash
bucket whose node's function is `===` the argument; returns the index,
the node id and the node. -/
def findMatch (ch : Channel) (fn : Fn) : List Nat → Nat → Option (Nat × Nat × DLLNode)
  | [], _ => none
  | n :: rest, i =>
    match lookupNode ch n with
    | some nd =>
      if nd.subscription.fn.ref == fn.ref then some (i, n, nd)
      else findMatch ch fn rest (i + 1)
    | none => findMatch ch fn rest (i + 1)

/-- `Channel.unsubscribe(fn)`: hash lookup, reference search; removal of
the node currently being invoked is deferred with `setTimeout` unless
`SIG_INT` is set; otherwise the node is spliced out of its bucket
(clearing both of its links) and dropped from the hash bucket. Returns
`didEvictDLLNode`. -/
def Channel.unsubscribe (ch : Channel) (fn : Fn) : Channel × Bool :=
  let id := hashFn fn
  match mapLookup ch id with
  | none => (ch, false)
  | some fnArray =>
    match findMatch ch fn fnArray 0 with
    | none => (ch, false)
    | some (idx, nid, nd) =>
      if ch.callingNode == some nid && ch.commandMask &&& SIG_INT == 0 then
        ({ ch with pending := ch.pending ++ [PendingTask.unsub nd.subscription.fn] }, false)
      else
        let ch1 :=
          match nd.prev with
          | none =>
            let chA :=
              match nd.next with
              | some nxt => updateNode ch nxt (fun m => { m with prev := none })
              | none => ch
            let chB := matrixSet chA nd.priority nd.next
            updateNode chB nid (fun m => { m with next := none })
          | some p =>
            let chA := updateNode ch p (fun m => { m with next := nd.next })
            let chB :=
              match nd.next with
              | some nxt =>
                updateNode (updateNode chA nxt (fun m => { m with prev := nd.prev })) nid
                  (fun m => { m with next := none })
              | none => chA
            updateNode chB nid (fun m => { m with prev := none })
        let ch2 :=
          if fnArray.length ≤ 1 then mapDelete ch1 id
          else mapSet ch1 id (fnArray.eraseIdx idx)
        (ch2, true)

/-- What a handler does when invoked, as commands against its channel:
throw, call `stopPropagation`, subscribe, unsubscribe, or re-publish. Subscriptions from handlers go through the registry
API, whose `Math.max(0, Math.min(priority, 4))` clamp is applied when
the command runs. -/
inductive HCmd where
  | hthrow (e : Nat)
  | hinterrupt
  | hsubscribe (fn : Fn) (priority : Nat) (context : Nat)
  | hunsubscribe (fn : Fn)
  | hpublish (args : List Arg)
deriving DecidableEq, Repr

/-- An exception value: a handler's own throw, or the duplicate
subscription error thrown by `Channel.subscribe`. -/
inductive Err where
  | user (e : Nat)
  | dupSub
deriving DecidableEq, Repr

/-- Observable events of a run: a handler invocation together with the
argument list it received, a `console.error` log of a caught handler
error, and the boolean returned to a handler by an `unsubscribe` call
it made. -/
inductive Event where
  | invoked (fnRef : Nat) (args : List Arg)
  | errorLogged (e : Err) (fnRef : Nat)
  | unsubRet (fnRef : Nat) (result : Bool)
deriving DecidableEq, Repr

/-- Handler bodies, looked up by function reference. -/
def HandlerEnv : Type := Nat → List HCmd

mutual

/-- `Channel.publish(args)`: defer with `setTimeout` if the `PUBLISHING`
bit is set; otherwise set it and iterate the priority matrix. Fuel only
bounds the traversal (handlers may extend the structures mid-walk); all
theorems supply sufficient fuel. -/
def Channel.publish (env : HandlerEnv) (fuel : Nat) (ch : Channel) (args : List Arg) :
    Channel × List Event :=
  if ch.commandMask &&& PUBLISHING ≠ 0 then
    ({ ch with pending := ch.pending ++ [PendingTask.pub args] }, [])
  else
    match fuel with
    | 0 => (ch, [])
    | fuel + 1 =>
      pubBuckets env fuel { ch with commandMask := ch.commandMask ||| PUBLISHING } args 0

/-- The `for (; idx < this._priorityMatrix.length; idx++)` loop; the
length is re-read against the current state each iteration, and an
abort (`return` inside the inner loop) skips the remaining buckets. -/
def pubBuckets (env : HandlerEnv) (fuel : Nat) (ch : Channel) (args : List Arg) (idx : Nat) :
    Channel × List Event :=
  if idx < ch.priorityMatrix.length then
    match fuel with
    | 0 => (ch, [])
    | fuel + 1 =>
      match pubChain env fuel ch args (matrixGet ch idx) with
      | (ch1, evs, true) => (ch1, evs)
      | (ch1, evs, false) =>
        let r := pubBuckets env fuel ch1 args (idx + 1)
        (r.1, evs ++ r.2)
  else
    ({ ch with commandMask := ch.commandMask &&& CLEAR_BITS }, [])

/-- The `while (node)` loop: check `SIG_INT` before each invocation
(aborting clears the mask and returns), set `_callingNode`, invoke the
handler catching anything it throws (logging it), clear `_callingNode`,
then step to `node.next` as it stands after the handler ran. The third
component is true when the walk executed the abort `return`. -/
def pubChain (env : HandlerEnv) (fuel : Nat) (ch : Channel) (args : List Arg)
    (cur : Option Nat) : Channel × List Event × Bool :=
  match cur with
  | none => (ch, [], false)
  | some nid =>
    if ch.commandMask &&& SIG_INT ≠ 0 then
      ({ ch with commandMask := ch.commandMask &&& CLEAR_BITS }, [], true)
    else
      match fuel with
      | 0 => (ch, [], true)
      | fuel + 1 =>
        match lookupNode ch nid with
        | none => (ch, [], false)
        | some nd =>
          let ch1 := { ch with callingNode := some nid }
          let r := runCmds env fuel ch1 (env nd.subscription.fn.ref)
          let logEvs :=
            match r.2.2 with
            | some e => [Event.errorLogged e nd.subscription.fn.ref]
            | none => []
          let ch3 := { r.1 with callingNode := none }
          let nxt :=
            match lookupNode ch3 nid with
            | some nd2 => nd2.next
            | none => none
          let r2 := pubChain env fuel ch3 args nxt
          (r2.1,
           Event.invoked nd.subscription.fn.ref (args ++ [Arg.chanRef ch.nspace])
             :: (r.2.1 ++ logEvs ++ r2.2.1),
           r2.2.2)

/-- Run a handler body: commands execute in order; a `throw` (the
handler's own, or a duplicate-subscription error from a `subscribe` it
made) aborts the rest of the body and surfaces as the third component. -/
def runCmds (env : HandlerEnv) (fuel : Nat) (ch : Channel) (cmds : List HCmd) :
    Channel × List Event × Option Err :=
  match fuel with
  | 0 => (ch, [], none)
  | fuel + 1 =>
    match cmds with
    | [] => (ch, [], none)
    | HCmd.hthrow e :: _ => (ch, [], some (Err.user e))
    | HCmd.hinterrupt :: rest => runCmds env fuel (Channel.interrupt ch) rest
    | HCmd.hsubscribe fn p c :: rest =>
      match Channel.subscribe ch fn (min p 4) c with
      | Except.ok ch1 => runCmds env fuel ch1 rest
      | Except.error _ => (ch, [], some Err.dupSub)
    | HCmd.hunsubscribe fn :: rest =>
      let u := Channel.unsubscribe ch fn
      let r := runCmds env fuel u.1 rest
      (r.1, Event.unsubRet fn.ref u.2 :: r.2.1, r.2.2)
    | HCmd.hpublish pargs :: rest =>
      let p := Channel.publish env fuel ch pargs
      let r := runCmds env fuel p.1 rest
      (r.1, p.2 ++ r.2.1, r.2.2)

end

/-- The `PubSub` registry: the `_channels` map. The source constructor
takes no parameters, so any options argument passed to `new PubSub(...)`
is ignored. -/
structure PubSub where
  channels : List (String × Channel)
deriving DecidableEq, Repr

/-- `new PubSub()`. -/
def PubSub.new : PubSub := { channels := [] }

/-- `this._channels[name]` guarded by `hasOwnProperty`. -/
def chanLookup (ps : PubSub) (name : String) : Option Channel :=
  (ps.channels.find? (fun e => e.1 == name)).map Prod.snd

/-- `this._channels[name] = ch`. -/
def chanSet (ps : PubSub) (name : String) (ch : Channel) : PubSub :=
  if (ps.channels.find? (fun e => e.1 == name)).isSome then
    { channels := ps.channels.map (fun e => if e.1 == name then (name, ch) else e) }
  else
    { channels := ps.channels ++ [(name, ch)] }

/-- `PubSub.subscribe(channelName, fn, priority, context)`: lazily
create the channel, resolve the priority (`4` when the options object
carries no number) clamped by `Math.max(0, Math.min(p, 4))`, and
delegate; the duplicate error from `Channel.subscribe` propagates. -/
def PubSub.subscribe (ps : PubSub) (channelName : String) (fn : Fn)
    (priority : Option Int) (context : Nat) : Except String PubSub :=
  let ps1 :=
    match chanLookup ps channelName with
    | none => chanSet ps channelName (Channel.new channelName)
    | some _ => ps
  let suggested : Int :=
    match priority with
    | some p => p
    | none => 4
  let clamped : Nat := (max 0 (min suggested 4)).toNat
  match chanLookup ps1 channelName with
  | some ch => (Channel.subscribe ch fn clamped context).map (chanSet ps1 channelName)
  | none => Except.ok ps1

/-- `PubSub.unsubscribe(channelName, fn)`: delegate when the channel
exists; destroy the channel when the removal succeeded and it has no
subscribers left. -/
def PubSub.unsubscribe (ps : PubSub) (channelName : String) (fn : Fn) : PubSub × Bool :=
  match chanLookup ps channelName with
  | none => (ps, false)
  | some ch =>
    let u := Channel.unsubscribe ch fn
    if u.2 && !Channel.hasSubscribers u.1 then
      ({ channels := ps.channels.filter (fun e => e.1 != channelName) }, u.2)
    else
      (chanSet ps channelName u.1, u.2)

/-- `PubSub.publish(channelName, ...)`: no-op when the channel does not
exist; otherwise forward `Array.prototype.slice.call(arguments, 1)` —
every trailing argument, unchanged — to `Channel.publish`. -/
def PubSub.publish (env : HandlerEnv) (fuel : Nat) (ps : PubSub) (channelName : String)
    (args : List Arg) : PubSub × List Event :=
  match chanLookup ps channelName with
  | none => (ps, [])
  | some ch =>
    let p := Channel.publish env fuel ch args
    (chanSet ps channelName p.1, p.2)

/-! ## Basic facts about the embedding -/

/-- Unfolding `Channel.publish` once (its defining equation). -/
theorem publish_unfold (env : HandlerEnv) (fuel : Nat) (ch : Channel) (args : List Arg) :
    Channel.publish env fuel ch args =
      if ch.commandMask &&& PUBLISHING ≠ 0 then
        ({ ch with pending := ch.pending ++ [PendingTask.pub args] }, [])
      else
        match fuel with
        | 0 => (ch, [])
        | fuel + 1 =>
          pubBuckets env fuel { ch with commandMask := ch.commandMask ||| PUBLISHING } args 0 := by
  rw [Channel.publish.eq_def]

/-- Updating a node id rewrites exactly that id's stored record. -/
theorem findNd_updNd (nodes : List (Nat × DLLNode)) (n : Nat) (f : DLLNode → DLLNode) (m : Nat) :
    findNd (updNd nodes n f) m = if m = n then (findNd nodes n).map f else findNd nodes m := by
  unfold findNd updNd
  rw [List.find?_map]
  have hpred : ((fun e : Nat × DLLNode => e.1 == m) ∘
      (fun e => if e.1 == n then (e.1, f e.2) else e)) = (fun e : Nat × DLLNode => e.1 == m) := by
    funext e
    by_cases hh : e.1 = n <;> simp [hh]
  rw [hpred]
  by_cases hmn : m = n
  · subst hmn
    cases hfind : nodes.find? (fun e => e.1 == m) with
    | none => simp
    | some e =>
      have he : e.1 = m := by simpa using List.find?_some hfind
      simp [he]
  · cases hfind : nodes.find? (fun e => e.1 == m) with
    | none => simp [hmn]
    | some e =>
      have he : e.1 = m := by simpa using List.find?_some hfind
      have hne : ¬ e.1 = n := by rw [he]; exact hmn
      simp [hmn, hne]

/-- `mapSet` makes the key look up to exactly the stored list. -/
theorem mapLookup_mapSet_self (ch : Channel) (s : String) (l : List Nat) :
    mapLookup (mapSet ch s l) s = some l := by
  unfold mapLookup mapSet
  by_cases h : (ch.fnHashMap.find? (fun e => e.1 == s)).isSome
  · simp only [h, if_true]
    rw [List.find?_map]
    have hpred : ((fun e : String × List Nat => e.1 == s) ∘
        (fun e => if e.1 == s then (s, l) else e)) = (fun e : String × List Nat => e.1 == s) := by
      funext e
      by_cases hh : e.1 = s <;> simp [hh]
    rw [hpred]
    obtain ⟨e, hfind⟩ := Option.isSome_iff_exists.mp h
    have he : e.1 = s := by simpa using List.find?_some hfind
    simp [hfind, he]
  · rw [if_neg h]
    have hnone : ch.fnHashMap.find? (fun e => e.1 == s) = none := by
      cases hf : ch.fnHashMap.find? (fun e => e.1 == s) with
      | none => rfl
      | some e => rw [hf] at h; simp at h
    show Option.map Prod.snd ((ch.fnHashMap ++ [(s, l)]).find? (fun e => e.1 == s)) = some l
    rw [List.find?_append, hnone]
    simp

/-- `mapDelete` removes the key entirely. -/
theorem mapLookup_mapDelete_self (ch : Channel) (s : String) :
    mapLookup (mapDelete ch s) s = none := by
  unfold mapLookup mapDelete
  simp only
  induction ch.fnHashMap with
  | nil => simp
  | cons e rest ih =>
    cases hh : (e.1 == s) with
    | true =>
      have : (e.1 != s) = false := by simp only [bne]; rw [hh]; rfl
      simp only [List.filter_cons, this, if_false]
      exact ih
    | false =>
      have : (e.1 != s) = true := by simp only [bne]; rw [hh]; rfl
      simp only [List.filter_cons, this, if_true, List.find?_cons, hh]
      exact ih

/-- `matrixSet` rewrites exactly the assigned index. -/
theorem matrixGet_matrixSet (ch : Channel) (i : Nat) (v : Option Nat) (j : Nat) :
    matrixGet (matrixSet ch i v) j = if j = i then v else matrixGet ch j := by
  unfold matrixGet matrixSet listSetPad
  by_cases hij : j = i
  · subst hij
    rw [List.getD_eq_getElem?_getD, List.getElem?_set_self, Option.getD_some]
    · simp
    · have := List.length_append ch.priorityMatrix (List.replicate (j + 1 - ch.priorityMatrix.length) none)
      rw [this, List.length_replicate]
      omega
  · simp only [hij, if_false]
    rw [List.getD_eq_getElem?_getD, List.getElem?_set_ne (fun h => hij h.symm),
      List.getD_eq_getElem?_getD]
    by_cases hj : j < ch.priorityMatrix.length
    · rw [List.getElem?_append_left hj]
    · rw [List.getElem?_append_right (by omega)]
      rw [List.getElem?_eq_none (l := ch.priorityMatrix) (by omega)]
      simp only [Option.getD_none]
      by_cases hlen : j - ch.priorityMatrix.length < (i + 1 - ch.priorityMatrix.length)
      · rw [List.getElem?_eq_getElem (by simpa using hlen)]
        simp [List.getElem_replicate]
      · rw [List.getElem?_eq_none (by simpa using hlen)]
        rfl

/-- `mapSet` only touches the hash map. -/
@[simp] theorem mapSet_nodes (ch : Channel) (s : String) (l : List Nat) :
    (mapSet ch s l).nodes = ch.nodes := by
  unfold mapSet; split <;> rfl

@[simp] theorem mapSet_priorityMatrix (ch : Channel) (s : String) (l : List Nat) :
    (mapSet ch s l).priorityMatrix = ch.priorityMatrix := by
  unfold mapSet; split <;> rfl

@[simp] theorem mapSet_pending (ch : Channel) (s : String) (l : List Nat) :
    (mapSet ch s l).pending = ch.pending := by
  unfold mapSet; split <;> rfl

@[simp] theorem mapSet_commandMask (ch : Channel) (s : String) (l : List Nat) :
    (mapSet ch s l).commandMask = ch.commandMask := by
  unfold mapSet; split <;> rfl

@[simp] theorem mapSet_callingNode (ch : Channel) (s : String) (l : List Nat) :
    (mapSet ch s l).callingNode = ch.callingNode := by
  unfold mapSet; split <;> rfl

@[simp] theorem mapSet_nextId (ch : Channel) (s : String) (l : List Nat) :
    (mapSet ch s l).nextId = ch.nextId := by
  unfold mapSet; split <;> rfl

@[simp] theorem mapSet_nspace (ch : Channel) (s : String) (l : List Nat) :
    (mapSet ch s l).nspace = ch.nspace := by
  unfold mapSet; split <;> rfl

/-- `mapDelete` only touches the hash map. -/
@[simp] theorem mapDelete_nodes (ch : Channel) (s : String) :
    (mapDelete ch s).nodes = ch.nodes := rfl

@[simp] theorem mapDelete_priorityMatrix (ch : Channel) (s : String) :
    (mapDelete ch s).priorityMatrix = ch.priorityMatrix := rfl

@[simp] theorem mapDelete_pending (ch : Channel) (s : String) :
    (mapDelete ch s).pending = ch.pending := rfl

@[simp] theorem mapDelete_commandMask (ch : Channel) (s : String) :
    (mapDelete ch s).commandMask = ch.commandMask := rfl

@[simp] theorem mapDelete_callingNode (ch : Channel) (s : String) :
    (mapDelete ch s).callingNode = ch.callingNode := rfl

@[simp] theorem mapDelete_nextId (ch : Channel) (s : String) :
    (mapDelete ch s).nextId = ch.nextId := rfl

@[simp] theorem mapDelete_nspace (ch : Channel) (s : String) :
    (mapDelete ch s).nspace = ch.nspace := rfl

/-- `updateNode` only touches the heap. -/
@[simp] theorem updateNode_fnHashMap (ch : Channel) (n : Nat) (f : DLLNode → DLLNode) :
    (updateNode ch n f).fnHashMap = ch.fnHashMap := rfl

@[simp] theorem updateNode_priorityMatrix (ch : Channel) (n : Nat) (f : DLLNode → DLLNode) :
    (updateNode ch n f).priorityMatrix = ch.priorityMatrix := rfl

@[simp] theorem updateNode_pending (ch : Channel) (n : Nat) (f : DLLNode → DLLNode) :
    (updateNode ch n f).pending = ch.pending := rfl

@[simp] theorem updateNode_commandMask (ch : Channel) (n : Nat) (f : DLLNode → DLLNode) :
    (updateNode ch n f).commandMask = ch.commandMask := rfl

@[simp] theorem updateNode_callingNode (ch : Channel) (n : Nat) (f : DLLNode → DLLNode) :
    (updateNode ch n f).callingNode = ch.callingNode := rfl

@[simp] theorem updateNode_nextId (ch : Channel) (n : Nat) (f : DLLNode → DLLNode) :
    (updateNode ch n f).nextId = ch.nextId := rfl

@[simp] theorem updateNode_nspace (ch : Channel) (n : Nat) (f : DLLNode → DLLNode) :
    (updateNode ch n f).nspace = ch.nspace := rfl

/-- `matrixSet` only touches the priority matrix. -/
@[simp] theorem matrixSet_nodes (ch : Channel) (i : Nat) (v : Option Nat) :
    (matrixSet ch i v).nodes = ch.nodes := rfl

@[simp] theorem matrixSet_fnHashMap (ch : Channel) (i : Nat) (v : Option Nat) :
    (matrixSet ch i v).fnHashMap = ch.fnHashMap := rfl

@[simp] theorem matrixSet_pending (ch : Channel) (i : Nat) (v : Option Nat) :
    (matrixSet ch i v).pending = ch.pending := rfl

@[simp] theorem matrixSet_commandMask (ch : Channel) (i : Nat) (v : Option Nat) :
    (matrixSet ch i v).commandMask = ch.commandMask := rfl

@[simp] theorem matrixSet_callingNode (ch : Channel) (i : Nat) (v : Option Nat) :
    (matrixSet ch i v).callingNode = ch.callingNode := rfl

@[simp] theorem matrixSet_nextId (ch : Channel) (i : Nat) (v : Option Nat) :
    (matrixSet ch i v).nextId = ch.nextId := rfl

@[simp] theorem matrixSet_nspace (ch : Channel) (i : Nat) (v : Option Nat) :
    (matrixSet ch i v).nspace = ch.nspace := rfl

/-- Node lookup after a node update. -/
theorem lookupNode_updateNode (ch : Channel) (n : Nat) (f : DLLNode → DLLNode) (m : Nat) :
    lookupNode (updateNode ch n f) m =
      if m = n then (lookupNode ch n).map f else lookupNode ch m :=
  findNd_updNd ch.nodes n f m

/-- Node lookup ignores the matrix, map, mask and pending fields. -/
@[simp] theorem lookupNode_matrixSet (ch : Channel) (i : Nat) (v : Option Nat) (m : Nat) :
    lookupNode (matrixSet ch i v) m = lookupNode ch m := rfl

@[simp] theorem lookupNode_mapSet (ch : Channel) (s : String) (l : List Nat) (m : Nat) :
    lookupNode (mapSet ch s l) m = lookupNode ch m := by
  unfold lookupNode
  rw [mapSet_nodes]

@[simp] theorem lookupNode_mapDelete (ch : Channel) (s : String) (m : Nat) :
    lookupNode (mapDelete ch s) m = lookupNode ch m := rfl

/-- Map lookup ignores the heap and matrix fields. -/
@[simp] theorem mapLookup_updateNode (ch : Channel) (n : Nat) (f : DLLNode → DLLNode) (s : String) :
    mapLookup (updateNode ch n f) s = mapLookup ch s := rfl

@[simp] theorem mapLookup_matrixSet (ch : Channel) (i : Nat) (v : Option Nat) (s : String) :
    mapLookup (matrixSet ch i v) s = mapLookup ch s := rfl

/-- What a successful `findMatch` returns: a member of the array whose
node exists and whose function reference matches. -/
theorem findMatch_spec (ch : Channel) (fn : Fn) :
    ∀ (arr : List Nat) (i j n : Nat) (nd : DLLNode),
      findMatch ch fn arr i = some (j, n, nd) →
      lookupNode ch n = some nd ∧ nd.subscription.fn.ref = fn.ref ∧ n ∈ arr := by
  intro arr
  induction arr with
  | nil => intro i j n nd h; simp [findMatch] at h
  | cons a rest ih =>
    intro i j n nd h
    rw [findMatch] at h
    cases hl : lookupNode ch a with
    | none =>
      simp only [hl] at h
      obtain ⟨h1, h2, h3⟩ := ih (i + 1) j n nd h
      exact ⟨h1, h2, List.mem_cons_of_mem a h3⟩
    | some nda =>
      simp only [hl] at h
      by_cases hr : (nda.subscription.fn.ref == fn.ref) = true
      · simp only [hr, if_true, Option.some.injEq, Prod.mk.injEq] at h
        obtain ⟨h1, h2, h3⟩ := h
        subst h2
        subst h3
        exact ⟨hl, by simpa using hr, List.mem_cons_self a rest⟩
      · have hr' : (nda.subscription.fn.ref == fn.ref) = false := by simpa using hr
        simp only [hr', if_false] at h
        obtain ⟨h1, h2, h3⟩ := ih (i + 1) j n nd h
        exact ⟨h1, h2, List.mem_cons_of_mem a h3⟩

/-! ## C2: a re-entrant publish is deferred, never run inline -/

/-- C2: a publish call on a channel whose `PUBLISHING` bit is set does not
execute any handler inline (its event trace is empty); the call is
deferred — queued as a `setTimeout` task to run after the current turn —
and `publish` returns at once, leaving every other part of the channel
untouched. -/
theorem publish_reentrant_defers (env : HandlerEnv) (fuel : Nat) (ch : Channel)
    (args : List Arg) (h : ch.commandMask &&& PUBLISHING ≠ 0) :
    Channel.publish env fuel ch args =
      ({ ch with pending := ch.pending ++ [PendingTask.pub args] }, []) := by
  rw [publish_unfold, if_pos h]

/-- A channel mid-publish (as `Channel.publish` sets the mask before the
traversal). -/
def chMidPublish : Channel := { Channel.new "foo" with commandMask := PUBLISHING }

/-- The all-pure handler environment. -/
def envPure : HandlerEnv := fun _ => []

/-- Witness for C2 at a concrete mid-publish channel. -/
theorem publish_reentrant_defers_witness :
    chMidPublish.commandMask &&& PUBLISHING ≠ 0 ∧
    Channel.publish envPure 5 chMidPublish [Arg.int 7] =
      ({ chMidPublish with pending := chMidPublish.pending ++ [PendingTask.pub [Arg.int 7]] }, []) :=
  ⟨by decide, publish_reentrant_defers envPure 5 chMidPublish [Arg.int 7] (by decide)⟩

/-! ## C10: interrupt while idle poisons exactly the next publish -/

/-- With the mask at `PUBLISHING ||| SIG_INT` the bucket loop invokes
nothing: each bucket either is empty or aborts at its head's `SIG_INT`
check, and either exit clears the whole mask. -/
theorem pubBuckets_interrupted (env : HandlerEnv) (args : List Arg) :
    ∀ (fuel : Nat) (ch : Channel) (idx : Nat), ch.commandMask = 3 →
      ch.priorityMatrix.length - idx + 1 ≤ fuel →
      pubBuckets env fuel ch args idx = ({ ch with commandMask := 0 }, []) := by
  intro fuel
  induction fuel with
  | zero => intro ch idx _ hf; omega
  | succ fuel ih =>
    intro ch idx h hf
    rw [pubBuckets.eq_def]
    by_cases hidx : idx < ch.priorityMatrix.length
    · simp only [hidx, if_true]
      cases hm : matrixGet ch idx with
      | none =>
        rw [pubChain.eq_def]
        simp only [hm]
        have := ih ch (idx + 1) h (by omega)
        simp [this]
      | some nid =>
        rw [pubChain.eq_def]
        simp only [hm, h]
        rw [if_pos (by decide : (3 : Nat) &&& SIG_INT ≠ 0)]
        simp [CLEAR_BITS, Nat.and_zero]
    · simp only [hidx, if_false]
      simp [h, CLEAR_BITS, Nat.and_zero]

/-- C10: calling `interrupt` (`stopPropagation`) on an idle channel
leaves the `SIG_INT` flag set persistently; the next publish on that
channel invokes zero handlers — it aborts before invoking any node —
and resets the state to exactly the original idle channel, so
publishing behaves normally only after that aborted call. -/
theorem interrupt_while_idle (env : HandlerEnv) (fuel : Nat) (ch : Channel) (args : List Arg)
    (hidle : ch.commandMask = 0) (hfuel : ch.priorityMatrix.length + 2 ≤ fuel) :
    (Channel.interrupt ch).commandMask &&& SIG_INT ≠ 0 ∧
    Channel.publish env fuel (Channel.interrupt ch) args = (ch, []) := by
  obtain ⟨ns, cm, pm, fm, cn, nds, ni, pd⟩ := ch
  simp only at hidle hfuel
  subst hidle
  constructor
  · simp [Channel.interrupt, SIG_INT]
  · rw [publish_unfold]
    rw [if_neg (by simp [Channel.interrupt, SIG_INT, PUBLISHING])]
    match fuel, hfuel with
    | fuel + 1, _ =>
      simp only [Channel.interrupt]
      have := pubBuckets_interrupted env args fuel
        { nspace := ns, commandMask := (0 ||| SIG_INT) ||| PUBLISHING, priorityMatrix := pm,
          fnHashMap := fm, callingNode := cn, nodes := nds, nextId := ni, pending := pd }
        0 (by simp [SIG_INT, PUBLISHING]) (by simp only; omega)
      simp only at this ⊢
      rw [this]

/-! ## C6: duplicate subscription raises, and the error reaches the caller -/

/-- C6: if the exact function reference is already registered on the
channel (its node is recorded in `_fnHashMap` under the function's hash
id), a second `subscribe` of it through the registry returns the
duplicate-subscription error synchronously to the caller — the
`Except.error` is the function's return value, so nothing on the
subscribe path can suppress it. -/
theorem subscribe_duplicate_raises
    (ps : PubSub) (name : String) (fn : Fn) (p : Option Int) (c : Nat)
    (ch : Channel) (lst : List Nat) (n : Nat) (nd : DLLNode)
    (hch : chanLookup ps name = some ch)
    (hlst : mapLookup ch (hashFn fn) = some lst)
    (hn : n ∈ lst) (hnd : lookupNode ch n = some nd)
    (href : nd.subscription.fn.ref = fn.ref) :
    PubSub.subscribe ps name fn p c =
      Except.error ("Function has already been passed as a subscriber to <" ++ ch.nspace ++ ">") := by
  have hdup : (lst.any (fun m =>
      match lookupNode ch m with
      | some nd => nd.subscription.fn.ref == fn.ref
      | none => false)) = true := by
    rw [List.any_eq_true]
    refine ⟨n, hn, ?_⟩
    rw [hnd]
    simp [href]
  unfold PubSub.subscribe
  simp only [hch]
  unfold Channel.subscribe
  simp only [Subscription.make, hlst, hdup, if_true]
  rfl

/-- A function used by concrete runs throughout. -/
def fSelf : Fn := { ref := 1, src := "s" }

/-- A registry with `fSelf` registered on channel `"foo"`. -/
def psOne : PubSub :=
  match PubSub.subscribe PubSub.new "foo" fSelf none 0 with
  | Except.ok ps => ps
  | Except.error _ => PubSub.new

/-- The `"foo"` channel of `psOne`. -/
def chOne : Channel :=
  match chanLookup psOne "foo" with
  | some c => c
  | none => Channel.new "ERR"

/-- Its single node. -/
def ndOne : DLLNode :=
  match lookupNode chOne 0 with
  | some nd => nd
  | none => { prev := none, next := none, subscription := Subscription.make fSelf 0, priority := 4 }

/-- Witness for C6: re-subscribing `fSelf` on `psOne` raises the
duplicate error. -/
theorem subscribe_duplicate_raises_witness :
    chanLookup psOne "foo" = some chOne ∧
    mapLookup chOne (hashFn fSelf) = some [0] ∧
    0 ∈ [0] ∧
    lookupNode chOne 0 = some ndOne ∧
    ndOne.subscription.fn.ref = fSelf.ref ∧
    PubSub.subscribe psOne "foo" fSelf none 0 =
      Except.error ("Function has already been passed as a subscriber to <" ++ chOne.nspace ++ ">") :=
  ⟨by decide, by decide, by decide, by decide, by decide,
    subscribe_duplicate_raises psOne "foo" fSelf none 0 chOne [0] 0 ndOne
      (by decide) (by decide) (by decide) (by decide) (by decide)⟩

/-! ## C1 (code bug): handler errors are never re-raised by publish -/

/-- A handler that throws. -/
def fThrow : Fn := { ref := 1, src := "t" }

/-- Environment in which handler 1 throws error 9 and every other
handler is pure. -/
def envThrow : HandlerEnv := fun r => if r = 1 then [HCmd.hthrow 9] else []

/-- A registry with the throwing handler registered on `"foo"` (the
source `PubSub` constructor takes no parameter, so a
`{ suppressErrors: false }` argument at construction is ignored). -/
def psThrow : PubSub :=
  match PubSub.subscribe PubSub.new "foo" fThrow none 0 with
  | Except.ok ps => ps
  | Except.error _ => PubSub.new

/-- C1 evaluated at the failing input: with a throwing handler on
`"foo"`, `publish` catches the error, logs it, and returns normally
with the registry unchanged. The embedding's `publish` has no throwing
outcome at all — the source wraps every handler call in
`try/catch` and retains nothing to re-raise — so no resolution of a
suppression flag can make the error reach the caller, contrary to the
claim (and to the repository's own README and tests, which promise a
re-raise when `suppressErrors` is false). -/
theorem publish_swallows_error_concrete :
    PubSub.publish envThrow 10 psThrow "foo" [] =
      (psThrow, [Event.invoked 1 [Arg.chanRef "foo"], Event.errorLogged (Err.user 9) 1]) := by
  decide

/-! ## C7 (code bug): the trailing options object reaches the handlers -/

/-- C7 evaluated at the failing input: publishing
`pubsub.publish("foo", { suppressErrors: false })` forwards the
options object to the handler as a payload argument —
`PubSub.publish` passes `Array.prototype.slice.call(arguments, 1)` on
unchanged, stripping nothing — contrary to the claim (and to the
repository's own test `should not receive publish arg in subscriber`). -/
theorem publish_options_not_stripped_concrete :
    (PubSub.publish envPure 10 psThrow "foo" [Arg.opts false]).2 =
      [Event.invoked 1 [Arg.opts false, Arg.chanRef "foo"]] := by
  decide

/-! ## C3: unsubscribing the currently-invoked node -/

/-- Handler 1 calls `stopPropagation()` and then unsubscribes itself,
as in the repository's test
`should allow immediate unsubscribing/resubscribing from an interrupted channel`. -/
def envIntrUnsub : HandlerEnv :=
  fun r => if r = 1 then [HCmd.hinterrupt, HCmd.hunsubscribe fSelf] else []

/-- A channel with only `fSelf` subscribed. -/
def chSelf : Channel :=
  match Channel.subscribe (Channel.new "foo") fSelf 4 0 with
  | Except.ok c => c
  | Except.error _ => Channel.new "ERR"

/-- Counterexample to C3 as stated: during a publish on `chSelf`, the
handler being invoked calls `interrupt` and then unsubscribes itself.
That unsubscribe call targets the currently-invoked node, yet it
returns `true` and the node is structurally removed during the call
(the hash bucket and the priority bucket are empty immediately
afterwards) — because the deferral guard in `Channel.unsubscribe` also
requires the `SIG_INT` bit to be clear. -/
theorem unsubscribe_calling_node_counterexample :
    (Channel.publish envIntrUnsub 10 chSelf []).2 =
      [Event.invoked 1 [Arg.chanRef "foo"], Event.unsubRet 1 true] ∧
    mapLookup (Channel.publish envIntrUnsub 10 chSelf []).1 (hashFn fSelf) = none ∧
    matrixGet (Channel.publish envIntrUnsub 10 chSelf []).1 4 = none := by
  decide

/-- Deferral branch of `Channel.unsubscribe`: when the found node is
the one being invoked and `SIG_INT` is clear, the removal is queued
with `setTimeout` (passing that node's own function) and the call
returns false with the structure untouched. -/
theorem unsub_defer (ch : Channel) (fn : Fn) (fnArray : List Nat) (idx nid : Nat) (nd : DLLNode)
    (hmap : mapLookup ch (hashFn fn) = some fnArray)
    (hfm : findMatch ch fn fnArray 0 = some (idx, nid, nd))
    (hcall : ch.callingNode = some nid)
    (hsig : ch.commandMask &&& SIG_INT = 0) :
    Channel.unsubscribe ch fn =
      ({ ch with pending := ch.pending ++ [PendingTask.unsub nd.subscription.fn] }, false) := by
  unfold Channel.unsubscribe
  have hcond : (ch.callingNode == some nid && (ch.commandMask &&& SIG_INT == 0)) = true := by
    simp [hcall, hsig]
  simp only [hmap, hfm, hcond, if_true]

/-- When `Channel.unsubscribe` returns false it removed nothing: the
heap, the priority matrix and the hash map are exactly as before. -/
theorem unsub_false_frame (ch : Channel) (fn : Fn)
    (h : (Channel.unsubscribe ch fn).2 = false) :
    (Channel.unsubscribe ch fn).1.nodes = ch.nodes ∧
    (Channel.unsubscribe ch fn).1.priorityMatrix = ch.priorityMatrix ∧
    (Channel.unsubscribe ch fn).1.fnHashMap = ch.fnHashMap := by
  unfold Channel.unsubscribe at h ⊢
  cases hmap : mapLookup ch (hashFn fn) with
  | none => simp [hmap]
  | some arr =>
    simp only [hmap] at h ⊢
    cases hfm : findMatch ch fn arr 0 with
    | none => simp [hfm]
    | some t =>
      obtain ⟨idx, nid, nd⟩ := t
      simp only [hfm] at h ⊢
      cases hcond : (ch.callingNode == some nid && (ch.commandMask &&& SIG_INT == 0)) with
      | true => simp [hcond]
      | false =>
        rw [if_neg (by rw [hcond]; exact Bool.false_ne_true)] at h
        simp at h

/-- Eviction branch of `Channel.unsubscribe`: the found node is spliced
out with both links cleared, dropped from its hash bucket, and the call
returns true. -/
theorem unsub_evict_spec (ch : Channel) (fn : Fn) (fnArray : List Nat) (idx nid : Nat)
    (nd : DLLNode)
    (hmap : mapLookup ch (hashFn fn) = some fnArray)
    (hfm : findMatch ch fn fnArray 0 = some (idx, nid, nd))
    (hcond : (ch.callingNode == some nid && (ch.commandMask &&& SIG_INT == 0)) = false) :
    (Channel.unsubscribe ch fn).2 = true ∧
    lookupNode (Channel.unsubscribe ch fn).1 nid = some { nd with prev := none, next := none } ∧
    mapLookup (Channel.unsubscribe ch fn).1 (hashFn fn) =
      (if fnArray.length ≤ 1 then none else some (fnArray.eraseIdx idx)) := by
  obtain ⟨hnd, href, hmem⟩ := findMatch_spec ch fn fnArray 0 idx nid nd hfm
  obtain ⟨ndprev, ndnext, ndsub, ndprio⟩ := nd
  unfold Channel.unsubscribe
  simp only [hmap, hfm]
  rw [if_neg (by rw [hcond]; exact Bool.false_ne_true)]
  cases ndprev with
  | none =>
    cases ndnext with
    | none =>
      refine ⟨by simp, ?_, ?_⟩
      · split <;> simp [lookupNode_updateNode, hnd]
      · split
        · exact mapLookup_mapDelete_self _ _
        · exact mapLookup_mapSet_self _ _ _
    | some nxt =>
      refine ⟨by simp, ?_, ?_⟩
      · by_cases hq : nid = nxt
        · subst hq
          split <;> simp [lookupNode_updateNode, hnd]
        · split <;> simp [lookupNode_updateNode, hnd, hq]
      · split
        · exact mapLookup_mapDelete_self _ _
        · exact mapLookup_mapSet_self _ _ _
  | some p =>
    cases ndnext with
    | none =>
      refine ⟨by simp, ?_, ?_⟩
      · by_cases hq : nid = p
        · subst hq
          split <;> simp [lookupNode_updateNode, hnd]
        · split <;> simp [lookupNode_updateNode, hnd, hq]
      · split
        · exact mapLookup_mapDelete_self _ _
        · exact mapLookup_mapSet_self _ _ _
    | some nxt =>
      refine ⟨by simp, ?_, ?_⟩
      · by_cases hq : nid = p
        · subst hq
          by_cases hr2 : nid = nxt
          · subst hr2
            split <;> simp [lookupNode_updateNode, hnd]
          · split <;> simp [lookupNode_updateNode, hnd, hr2]
        · by_cases hr2 : nid = nxt
          · subst hr2
            split <;> simp [lookupNode_updateNode, hnd, hq]
          · split <;> simp [lookupNode_updateNode, hnd, hq, hr2]
      · split
        · exact mapLookup_mapDelete_self _ _
        · exact mapLookup_mapSet_self _ _ _

/-- C3 (amended): an unsubscribe call that targets the handler whose
node is currently being invoked defers the removal and returns false
only when the channel's interrupted flag is clear; if the handler has
already called `interrupt`/`stopPropagation` in this publish, the node
is spliced out inline and the call returns true. In general,
`unsubscribe` returns true iff a node was structurally removed during
that same call: a false return leaves heap, matrix and hash map
untouched, and a true return means the matched node ended the call
detached with both links cleared and dropped from its hash bucket. -/
theorem unsubscribe_calling_node_amended (ch : Channel) (fn : Fn) :
    (∀ (fnArray : List Nat) (idx nid : Nat) (nd : DLLNode),
        mapLookup ch (hashFn fn) = some fnArray →
        findMatch ch fn fnArray 0 = some (idx, nid, nd) →
        ch.callingNode = some nid →
        ch.commandMask &&& SIG_INT = 0 →
        Channel.unsubscribe ch fn =
          ({ ch with pending := ch.pending ++ [PendingTask.unsub nd.subscription.fn] }, false)) ∧
    ((Channel.unsubscribe ch fn).2 = false →
        (Channel.unsubscribe ch fn).1.nodes = ch.nodes ∧
        (Channel.unsubscribe ch fn).1.priorityMatrix = ch.priorityMatrix ∧
        (Channel.unsubscribe ch fn).1.fnHashMap = ch.fnHashMap) ∧
    ((Channel.unsubscribe ch fn).2 = true →
        ∃ (fnArray : List Nat) (idx nid : Nat) (nd : DLLNode),
          mapLookup ch (hashFn fn) = some fnArray ∧
          findMatch ch fn fnArray 0 = some (idx, nid, nd) ∧
          ¬(ch.callingNode = some nid ∧ ch.commandMask &&& SIG_INT = 0) ∧
          lookupNode (Channel.unsubscribe ch fn).1 nid =
            some { nd with prev := none, next := none } ∧
          mapLookup (Channel.unsubscribe ch fn).1 (hashFn fn) =
            (if fnArray.length ≤ 1 then none else some (fnArray.eraseIdx idx))) := by
  refine ⟨?_, unsub_false_frame ch fn, ?_⟩
  · intro arr idx nid nd h1 h2 h3 h4
    exact unsub_defer ch fn arr idx nid nd h1 h2 h3 h4
  · intro h
    cases hmap : mapLookup ch (hashFn fn) with
    | none =>
      exfalso
      unfold Channel.unsubscribe at h
      simp only [hmap] at h
      simp at h
    | some arr =>
      cases hfm : findMatch ch fn arr 0 with
      | none =>
        exfalso
        unfold Channel.unsubscribe at h
        simp only [hmap, hfm] at h
        simp at h
      | some t =>
        obtain ⟨idx, nid, nd⟩ := t
        cases hcond : (ch.callingNode == some nid && (ch.commandMask &&& SIG_INT == 0)) with
        | true =>
          exfalso
          obtain ⟨ha, hb⟩ := Bool.and_eq_true_iff.mp hcond
          have hcall : ch.callingNode = some nid := by simpa using ha
          have hsig : ch.commandMask &&& SIG_INT = 0 := by simpa using hb
          rw [unsub_defer ch fn arr idx nid nd hmap hfm hcall hsig] at h
          simp at h
        | false =>
          obtain ⟨h1, h2, h3⟩ := unsub_evict_spec ch fn arr idx nid nd hmap hfm hcond
          refine ⟨arr, idx, nid, nd, rfl, hfm, ?_, h2, h3⟩
          rintro ⟨hx, hy⟩
          rw [hx] at hcond
          simp [hy] at hcond

/-- The node holding `fSelf` in `chSelf`. -/
def ndSelf : DLLNode :=
  { prev := none, next := none, subscription := Subscription.make fSelf 0, priority := 4 }

/-- The state `Channel.publish` puts `chSelf` in while invoking node 0
(`PUBLISHING` set, `_callingNode` set, no interrupt). -/
def chDuring : Channel :=
  { chSelf with commandMask := PUBLISHING, callingNode := some 0 }

/-- Witness for C3 (amended), deferral conjunct, at the concrete
mid-publish state: the self-unsubscribe is queued and returns false. -/
theorem unsubscribe_calling_node_amended_witness :
    Channel.unsubscribe chDuring fSelf =
      ({ chDuring with
          pending := chDuring.pending ++ [PendingTask.unsub ndSelf.subscription.fn] }, false) :=
  (unsubscribe_calling_node_amended chDuring fSelf).1 [0] 0 0 ndSelf
    (by decide) (by decide) (by decide) (by decide)

/-- Witness for C10 at the concrete one-subscriber channel. -/
theorem interrupt_while_idle_witness :
    chSelf.commandMask = 0 ∧ chSelf.priorityMatrix.length + 2 ≤ 10 ∧
    (Channel.interrupt chSelf).commandMask &&& SIG_INT ≠ 0 ∧
    Channel.publish envPure 10 (Channel.interrupt chSelf) [] = (chSelf, []) :=
  ⟨by decide, by decide,
    (interrupt_while_idle envPure 10 chSelf [] (by decide) (by decide)).1,
    (interrupt_while_idle envPure 10 chSelf [] (by decide) (by decide)).2⟩

/-! ## The bucket-chain representation

`chainOKb nodes pr cur L` states that following `next` pointers from
`cur` through the heap enumerates exactly the ids `L`, with each
node's `prev` pointing back at its predecessor (the first element's
`prev` being `pr`) and the last node's `next` being null. This is the
shape `Channel.subscribe` builds and `Channel.publish` traverses. -/
def chainOKb (nodes : List (Nat × DLLNode)) : Option Nat → Option Nat → List Nat → Bool
  | _, cur, [] => cur == none
  | pr, cur, x :: xs =>
    cur == some x &&
      (match findNd nodes x with
       | none => false
       | some nd => nd.prev == pr && chainOKb nodes (some x) nd.next xs)

/-- A chain hanging from a null pointer is empty. -/
theorem chain_nil (nodes : List (Nat × DLLNode)) (pr : Option Nat) (L : List Nat)
    (h : chainOKb nodes pr none L = true) : L = [] := by
  cases L with
  | nil => rfl
  | cons x xs => simp [chainOKb] at h

/-- Chain members dereference to nodes. -/
theorem chain_mem_find (nodes : List (Nat × DLLNode)) :
    ∀ (L : List Nat) (pr cur : Option Nat), chainOKb nodes pr cur L = true →
      ∀ n ∈ L, ∃ nd, findNd nodes n = some nd := by
  intro L
  induction L with
  | nil => intro pr cur _ n hn; simp at hn
  | cons x xs ih =>
    intro pr cur h n hn
    rw [chainOKb, Bool.and_eq_true_iff] at h
    obtain ⟨hcur, h2⟩ := h
    cases hf : findNd nodes x with
    | none => rw [hf] at h2; simp at h2
    | some nd =>
      rw [hf] at h2
      rw [Bool.and_eq_true_iff] at h2
      rcases List.mem_cons.mp hn with hx | hxs
      · exact ⟨nd, by rw [hx]; exact hf⟩
      · exact ih (some x) nd.next h2.2 n hxs

/-- A chain is untouched by heap changes that leave its members'
records alone. -/
theorem chain_congr (nodes nodes2 : List (Nat × DLLNode)) :
    ∀ (L : List Nat) (pr cur : Option Nat),
      (∀ y ∈ L, findNd nodes2 y = findNd nodes y) →
      chainOKb nodes2 pr cur L = chainOKb nodes pr cur L := by
  intro L
  induction L with
  | nil => intro pr cur _; rfl
  | cons x xs ih =>
    intro pr cur hsame
    rw [chainOKb, chainOKb]
    rw [hsame x (List.mem_cons_self x xs)]
    cases findNd nodes x with
    | none => rfl
    | some nd =>
      simp only
      rw [ih (some x) nd.next (fun y hy => hsame y (List.mem_cons_of_mem x hy))]

/-- The last node of a chain has a null `next`. -/
theorem chain_last (nodes : List (Nat × DLLNode)) :
    ∀ (L : List Nat) (pr cur : Option Nat) (hne : L ≠ []),
      chainOKb nodes pr cur L = true →
      ∃ lnd, findNd nodes (L.getLast hne) = some lnd ∧ lnd.next = none := by
  intro L
  induction L with
  | nil => intro pr cur hne; exact absurd rfl hne
  | cons x xs ih =>
    intro pr cur hne h
    rw [chainOKb, Bool.and_eq_true_iff] at h
    obtain ⟨hcur, h2⟩ := h
    cases hf : findNd nodes x with
    | none => rw [hf] at h2; simp at h2
    | some nd =>
      rw [hf, Bool.and_eq_true_iff] at h2
      cases xs with
      | nil =>
        have hnx : nd.next = none := by
          have := h2.2
          rw [chainOKb] at this
          simpa using this
        exact ⟨nd, by simpa using hf, hnx⟩
      | cons y ys =>
        obtain ⟨lnd, hl1, hl2⟩ := ih (some x) nd.next (by simp) h2.2
        refine ⟨lnd, ?_, hl2⟩
        rwa [List.getLast_cons (by simp)]

/-- `findLast` walks a chain to its last element. -/
theorem findLast_chain (ch : Channel) :
    ∀ (L : List Nat) (pr : Option Nat) (h0 : Nat) (hne : (h0 :: L) ≠ []) (fuel : Nat),
      chainOKb ch.nodes pr (some h0) (h0 :: L) = true →
      L.length + 1 ≤ fuel →
      findLast ch fuel h0 = (h0 :: L).getLast hne := by
  intro L
  induction L with
  | nil =>
    intro pr h0 hne fuel h hf
    rw [chainOKb, Bool.and_eq_true_iff] at h
    obtain ⟨-, h2⟩ := h
    cases hfind : findNd ch.nodes h0 with
    | none => rw [hfind] at h2; simp at h2
    | some nd =>
      rw [hfind, Bool.and_eq_true_iff] at h2
      have hnx : nd.next = none := by
        have := h2.2
        rw [chainOKb] at this
        simpa using this
      match fuel, hf with
      | fuel + 1, _ =>
        rw [findLast]
        simp only [lookupNode, hfind, hnx]
        simp
  | cons y ys ih =>
    intro pr h0 hne fuel h hf
    rw [chainOKb, Bool.and_eq_true_iff] at h
    obtain ⟨-, h2⟩ := h
    cases hfind : findNd ch.nodes h0 with
    | none => rw [hfind] at h2; simp at h2
    | some nd =>
      rw [hfind, Bool.and_eq_true_iff] at h2
      have hnx : nd.next = some y := by
        have := h2.2
        rw [chainOKb, Bool.and_eq_true_iff] at this
        simpa using this.1
      match fuel, hf with
      | fuel + 1, hf =>
        rw [findLast]
        simp only [lookupNode, hfind, hnx]
        have := ih (some h0) y (by simp) fuel (by rw [← hnx]; exact h2.2) (by simpa using hf)
        rw [this]
        exact (List.getLast_cons (by simp)).symm

/-- Appending a fresh entry leaves other lookups unchanged. -/
theorem findNd_append_ne (nodes : List (Nat × DLLNode)) (k : Nat) (v : DLLNode) (y : Nat)
    (h : y ≠ k) : findNd (nodes ++ [(k, v)]) y = findNd nodes y := by
  unfold findNd
  rw [List.find?_append]
  cases hf : nodes.find? (fun e => e.1 == y) with
  | some e => rfl
  | none =>
    have : ((k, v).1 == y) = false := by simp [Ne.symm h]
    simp [List.find?_cons, this]

/-- Appending an absent key makes it look up to the new record. -/
theorem findNd_append_self (nodes : List (Nat × DLLNode)) (k : Nat) (v : DLLNode)
    (h : findNd nodes k = none) : findNd (nodes ++ [(k, v)]) k = some v := by
  unfold findNd at h ⊢
  rw [List.find?_append]
  cases hf : nodes.find? (fun e => e.1 == k) with
  | some e => rw [hf] at h; simp at h
  | none => simp [List.find?_cons]

/-- Membership in an updated heap comes from the original heap. -/
theorem mem_updNd (nodes : List (Nat × DLLNode)) (n : Nat) (f : DLLNode → DLLNode)
    (e : Nat × DLLNode) (he : e ∈ updNd nodes n f) :
    (e ∈ nodes ∧ e.1 ≠ n) ∨ (∃ v, (n, v) ∈ nodes ∧ e = (n, f v)) := by
  unfold updNd at he
  obtain ⟨a, ha, hae⟩ := List.mem_map.mp he
  by_cases hk : a.1 = n
  · right
    refine ⟨a.2, ?_, ?_⟩
    · rw [← hk]; exact ha
    · rw [← hae]; simp [hk]
  · left
    have : (a.1 == n) = false := by simp [hk]
    rw [← hae]
    simp only [this, if_false]
    exact ⟨ha, hk⟩

/-- A successful lookup pins an actual heap entry. -/
theorem findNd_some_mem (nodes : List (Nat × DLLNode)) (n : Nat) (nd : DLLNode)
    (h : findNd nodes n = some nd) : (n, nd) ∈ nodes := by
  unfold findNd at h
  cases hf : nodes.find? (fun e => e.1 == n) with
  | none => rw [hf] at h; simp at h
  | some e =>
    rw [hf] at h
    have h1 : e.1 = n := by simpa using List.find?_some hf
    have h2 : e.2 = nd := by simpa using h
    have := List.mem_of_find?_eq_some hf
    rwa [← h1, ← h2, Prod.mk.eta]

/-- Flattening after shrinking one bucket is a sublist of the original
flattening. -/
theorem flatten_set_sublist (L2 : List Nat) :
    ∀ (B : List (List Nat)) (q : Nat), L2.Sublist (B.getD q []) →
      ((B.set q L2).flatten).Sublist B.flatten := by
  intro B
  induction B with
  | nil => intro q _; simp
  | cons L rest ih =>
    intro q hsub
    cases q with
    | zero =>
      simp only [List.set_cons_zero, List.flatten_cons]
      exact (hsub.append_right _).trans (by simp [List.Sublist.refl])
    | succ q =>
      simp only [List.set_cons_succ, List.flatten_cons]
      exact (ih q (by simpa using hsub)).append_left L

/-- Membership after rewriting one bucket. -/
theorem mem_flatten_set (y : Nat) (L2 : List Nat) :
    ∀ (B : List (List Nat)) (q : Nat), y ∈ (B.set q L2).flatten →
      y ∈ L2 ∨ y ∈ B.flatten := by
  intro B
  induction B with
  | nil => intro q h; simp at h
  | cons L rest ih =>
    intro q h
    cases q with
    | zero =>
      simp only [List.set_cons_zero, List.flatten_cons, List.mem_append] at h
      rcases h with h | h
      · exact Or.inl h
      · exact Or.inr (by simp [h])
    | succ q =>
      simp only [List.set_cons_succ, List.flatten_cons, List.mem_append] at h
      rcases h with h | h
      · exact Or.inr (by simp [h])
      · rcases ih q h with h2 | h2
        · exact Or.inl h2
        · exact Or.inr (by simp [h2])

/-- Reading a bucket after rewriting one. -/
theorem getD_set_bucket (L2 : List Nat) :
    ∀ (B : List (List Nat)) (q p : Nat), q < B.length →
      (B.set q L2).getD p [] = if p = q then L2 else B.getD p [] := by
  intro B
  induction B with
  | nil => intro q p h; simp at h
  | cons L rest ih =>
    intro q p hq
    cases q with
    | zero =>
      cases p with
      | zero => simp
      | succ p => simp
    | succ q =>
      cases p with
      | zero => simp
      | succ p =>
        simp only [List.set_cons_succ, List.getD_cons_succ]
        rw [ih q p (by simpa using hq)]
        simp

/-- A bucket's members are in the flattening. -/
theorem mem_getD_flatten (a : Nat) :
    ∀ (B : List (List Nat)) (q : Nat), a ∈ B.getD q [] → a ∈ B.flatten := by
  intro B
  induction B with
  | nil => intro q h; simp at h
  | cons L rest ih =>
    intro q h
    cases q with
    | zero => simp only [List.getD_cons_zero] at h; simp [h]
    | succ q =>
      simp only [List.getD_cons_succ] at h
      have := ih q h
      simp [this]

/-- Appending a fresh id to one bucket keeps the flattening nodup. -/
theorem nodup_set_append (B : List (List Nat)) (q : Nat) (fr : Nat)
    (hnd : B.flatten.Nodup) (hfr : fr ∉ B.flatten) (hq : q < B.length) :
    ((B.set q (B.getD q [] ++ [fr])).flatten).Nodup := by
  induction B generalizing q with
  | nil => simp at hq
  | cons L rest ih =>
    cases q with
    | zero =>
      simp only [List.getD_cons_zero, List.set_cons_zero, List.flatten_cons]
      simp only [List.flatten_cons, List.nodup_append] at hnd
      obtain ⟨h1, h2, h3⟩ := hnd
      simp only [List.flatten_cons, List.mem_append] at hfr
      push_neg at hfr
      have hEq : L ++ [fr] ++ rest.flatten = L ++ fr :: rest.flatten := by simp
      rw [hEq]
      refine (List.perm_middle.nodup_iff).mpr ?_
      refine List.nodup_cons.mpr ⟨?_, List.nodup_append.mpr ⟨h1, h2, h3⟩⟩
      simp only [List.mem_append]
      push_neg
      exact ⟨hfr.1, hfr.2⟩
    | succ q =>
      simp only [List.set_cons_succ, List.flatten_cons]
      simp only [List.flatten_cons, List.nodup_append] at hnd
      obtain ⟨h1, h2, h3⟩ := hnd
      simp only [List.flatten_cons, List.mem_append] at hfr
      push_neg at hfr
      refine List.nodup_append.mpr ⟨h1, ?_, ?_⟩
      · exact ih q h2 hfr.2 (by simpa using hq)
      · intro a ha hb
        rcases mem_flatten_set a _ _ _ hb with h | h
        · rcases List.mem_append.mp h with h | h
          · exact h3 ha (mem_getD_flatten a rest q (by simpa using h))
          · simp only [List.mem_singleton] at h
            subst h
            exact hfr.1 ha
        · exact h3 ha h

/-! ## Heap surgery performed by subscribe and unsubscribe -/

/-- The heap after `Channel.subscribe` appends a fresh node behind the
bucket tail: allocate, point the old tail's `next` at it, point its
`prev` back. -/
def subscribeSurgery (nodes : List (Nat × DLLNode)) (fresh lastId : Nat) (nn : DLLNode) :
    List (Nat × DLLNode) :=
  updNd (updNd (nodes ++ [(fresh, nn)]) lastId
      (fun m => { m with next := some fresh })) fresh
    (fun m => { m with prev := some lastId })

theorem findNd_subSurgery_other (nodes : List (Nat × DLLNode)) (fresh lastId : Nat)
    (nn : DLLNode) (y : Nat) (h1 : y ≠ fresh) (h2 : y ≠ lastId) :
    findNd (subscribeSurgery nodes fresh lastId nn) y = findNd nodes y := by
  unfold subscribeSurgery
  rw [findNd_updNd]
  simp only [h1, if_false]
  rw [findNd_updNd]
  simp only [h2, if_false]
  exact findNd_append_ne nodes fresh nn y h1

theorem findNd_subSurgery_last (nodes : List (Nat × DLLNode)) (fresh lastId : Nat)
    (nn : DLLNode) (h0 : lastId ≠ fresh) :
    findNd (subscribeSurgery nodes fresh lastId nn) lastId =
      (findNd nodes lastId).map (fun m => { m with next := some fresh }) := by
  unfold subscribeSurgery
  rw [findNd_updNd]
  simp only [h0, if_false]
  rw [findNd_updNd]
  simp only [if_pos rfl]
  rw [findNd_append_ne nodes fresh nn lastId h0]
  simp

theorem findNd_subSurgery_fresh (nodes : List (Nat × DLLNode)) (fresh lastId : Nat)
    (nn : DLLNode) (hnone : findNd nodes fresh = none) (h0 : fresh ≠ lastId) :
    findNd (subscribeSurgery nodes fresh lastId nn) fresh =
      some { nn with prev := some lastId } := by
  unfold subscribeSurgery
  rw [findNd_updNd]
  simp only [if_pos rfl]
  rw [findNd_updNd]
  simp only [h0, if_false]
  rw [findNd_append_self nodes fresh nn hnone]
  rfl

/-- Appending the fresh node to a bucket tail yields the extended chain. -/
theorem chain_append_surgery (nodes : List (Nat × DLLNode)) (fresh : Nat) (nn : DLLNode)
    (hnone : findNd nodes fresh = none) (hnn : nn.next = none) :
    ∀ (L : List Nat) (lastId : Nat) (pr cur : Option Nat),
      chainOKb nodes pr cur (L ++ [lastId]) = true →
      (L ++ [lastId]).Nodup →
      fresh ∉ (L ++ [lastId]) →
      chainOKb (subscribeSurgery nodes fresh lastId nn) pr cur (L ++ [lastId] ++ [fresh]) = true := by
  intro L
  induction L with
  | nil =>
    intro lastId pr cur hch hnd hfr
    simp only [List.nil_append, List.cons_append] at hch hnd hfr ⊢
    rw [chainOKb, Bool.and_eq_true_iff] at hch
    obtain ⟨hcur, h2⟩ := hch
    cases hfind : findNd nodes lastId with
    | none => rw [hfind] at h2; simp at h2
    | some ld =>
      rw [hfind, Bool.and_eq_true_iff] at h2
      have hln : ld.next = none := by
        have := h2.2
        rw [chainOKb] at this
        simpa using this
      have hne : fresh ≠ lastId := by simpa using hfr
      rw [chainOKb, Bool.and_eq_true_iff]
      refine ⟨hcur, ?_⟩
      rw [findNd_subSurgery_last nodes fresh lastId nn (Ne.symm hne), hfind]
      simp only [Option.map_some']
      rw [Bool.and_eq_true_iff]
      refine ⟨h2.1, ?_⟩
      rw [chainOKb, Bool.and_eq_true_iff]
      refine ⟨by simp, ?_⟩
      rw [findNd_subSurgery_fresh nodes fresh lastId nn hnone hne]
      simp only
      rw [Bool.and_eq_true_iff]
      refine ⟨by simp, ?_⟩
      rw [chainOKb]
      simp [hnn]
  | cons x L ih =>
    intro lastId pr cur hch hnd hfr
    simp only [List.cons_append] at hch hnd hfr ⊢
    rw [chainOKb, Bool.and_eq_true_iff] at hch
    obtain ⟨hcur, h2⟩ := hch
    cases hfind : findNd nodes x with
    | none => rw [hfind] at h2; simp at h2
    | some xd =>
      rw [hfind, Bool.and_eq_true_iff] at h2
      have hxfr : x ≠ fresh := by
        intro h
        rw [← h] at hfr
        exact hfr (List.mem_cons_self x _)
      have hxlast : x ≠ lastId := by
        intro h
        have : lastId ∈ L ++ [lastId] := by simp
        rw [List.nodup_cons] at hnd
        exact hnd.1 (by rw [h]; exact this)
      rw [chainOKb, Bool.and_eq_true_iff]
      refine ⟨hcur, ?_⟩
      rw [findNd_subSurgery_other nodes fresh lastId nn x hxfr hxlast, hfind]
      rw [Bool.and_eq_true_iff]
      refine ⟨h2.1, ?_⟩
      have hnd2 : (L ++ [lastId]).Nodup := (List.nodup_cons.mp hnd).2
      have hfr2 : fresh ∉ L ++ [lastId] := fun h => hfr (List.mem_cons_of_mem x h)
      exact ih lastId (some x) xd.next h2.2 hnd2 hfr2

/-- The heap after `Channel.unsubscribe` removes a bucket head: clear
the successor's `prev` and the node's own `next`. -/
def spliceHead (nodes : List (Nat × DLLNode)) (nid : Nat) (nd : DLLNode) :
    List (Nat × DLLNode) :=
  updNd (match nd.next with
         | some nxt => updNd nodes nxt (fun m => { m with prev := none })
         | none => nodes) nid
    (fun m => { m with next := none })

theorem findNd_spliceHead_other (nodes : List (Nat × DLLNode)) (nid : Nat) (nd : DLLNode)
    (y : Nat) (h1 : y ≠ nid) (h2 : ∀ nxt, nd.next = some nxt → y ≠ nxt) :
    findNd (spliceHead nodes nid nd) y = findNd nodes y := by
  unfold spliceHead
  rw [findNd_updNd]
  simp only [h1, if_false]
  cases hn : nd.next with
  | none => rfl
  | some nxt =>
    rw [findNd_updNd]
    simp only [h2 nxt hn, if_false]

/-- Removing the chain head leaves the tail hanging correctly from the
head's old `next`. -/
theorem chain_splice_head (nodes : List (Nat × DLLNode)) (nid : Nat) (nd : DLLNode)
    (hnd : findNd nodes nid = some nd) (t : List Nat) (pr : Option Nat)
    (hch : chainOKb nodes pr (some nid) (nid :: t) = true)
    (hdup : (nid :: t).Nodup) :
    chainOKb (spliceHead nodes nid nd) none nd.next t = true := by
  rw [chainOKb, Bool.and_eq_true_iff] at hch
  obtain ⟨-, h2⟩ := hch
  rw [hnd, Bool.and_eq_true_iff] at h2
  cases t with
  | nil =>
    have hn : nd.next = none := by
      have := h2.2
      rw [chainOKb] at this
      simpa using this
    rw [hn, chainOKb]
    simp
  | cons y t2 =>
    have hyn : nd.next = some y := by
      have := h2.2
      rw [chainOKb, Bool.and_eq_true_iff] at this
      simpa using this.1
    rw [hyn]
    have hyne : y ≠ nid := by
      rw [List.nodup_cons] at hdup
      intro h
      exact hdup.1 (by rw [← h]; exact List.mem_cons_self y t2)
    cases hyd : findNd nodes y with
    | none =>
      exfalso
      have := h2.2
      rw [hyn, chainOKb, Bool.and_eq_true_iff] at this
      rw [hyd] at this
      simpa using this.2
    | some yd =>
      have hchain2 : chainOKb nodes (some nid) (some y) (y :: t2) = true := by
        rw [← hyn]; exact h2.2
      rw [chainOKb, Bool.and_eq_true_iff] at hchain2
      obtain ⟨-, h3⟩ := hchain2
      rw [hyd, Bool.and_eq_true_iff] at h3
      rw [chainOKb, Bool.and_eq_true_iff]
      refine ⟨by simp, ?_⟩
      have hy1 : findNd (spliceHead nodes nid nd) y = some { yd with prev := none } := by
        unfold spliceHead
        rw [findNd_updNd]
        simp only [hyne, if_false]
        rw [hyn]
        rw [findNd_updNd]
        simp only [if_pos rfl, hyd]
        rfl
      rw [hy1]
      rw [Bool.and_eq_true_iff]
      refine ⟨by simp, ?_⟩
      simp only
      rw [chain_congr nodes (spliceHead nodes nid nd) t2 (some y) yd.next]
      · exact h3.2
      · intro z hz
        rw [List.nodup_cons, List.nodup_cons] at hdup
        refine findNd_spliceHead_other nodes nid nd z ?_ ?_
        · intro h
          exact hdup.1 (by rw [← h]; exact List.mem_cons_of_mem y hz)
        · intro nxt hnxt h
          rw [hyn] at hnxt
          obtain rfl : nxt = y := by simpa using hnxt.symm
          rw [h] at hz
          exact hdup.2.1 hz

/-- The `prev` link of a chain element: `pr` for the head, otherwise
the preceding element. -/
theorem chain_prev_at (nodes : List (Nat × DLLNode)) (nid : Nat) (nd : DLLNode)
    (hnd : findNd nodes nid = some nd) :
    ∀ (front back : List Nat) (pr cur : Option Nat),
      chainOKb nodes pr cur (front ++ nid :: back) = true →
      ((front = [] → cur = some nid ∧ nd.prev = pr) ∧
       (∀ hf : front ≠ [], nd.prev = some (front.getLast hf))) := by
  intro front
  induction front with
  | nil =>
    intro back pr cur hch
    refine ⟨?_, ?_⟩
    · intro _
      simp only [List.nil_append] at hch
      rw [chainOKb, Bool.and_eq_true_iff] at hch
      obtain ⟨h1, h2⟩ := hch
      rw [hnd, Bool.and_eq_true_iff] at h2
      exact ⟨by simpa using h1, by simpa using h2.1⟩
    · intro hf; exact absurd rfl hf
  | cons x front ih =>
    intro back pr cur hch
    simp only [List.cons_append] at hch
    rw [chainOKb, Bool.and_eq_true_iff] at hch
    obtain ⟨h1, h2⟩ := hch
    cases hfind : findNd nodes x with
    | none => rw [hfind] at h2; simp at h2
    | some xd =>
      rw [hfind, Bool.and_eq_true_iff] at h2
      refine ⟨fun h => by simp at h, ?_⟩
      intro hf
      cases front with
      | nil =>
        have := (ih back (some x) xd.next h2.2).1 rfl
        simpa using this.2
      | cons y front2 =>
        have := (ih back (some x) xd.next h2.2).2 (by simp)
        rw [this]
        exact congrArg some (List.getLast_cons (by simp)).symm

/-- The `next` link of a chain element: null for the last, otherwise
the following element. -/
theorem chain_next_at (nodes : List (Nat × DLLNode)) (nid : Nat) (nd : DLLNode)
    (hnd : findNd nodes nid = some nd) :
    ∀ (front back : List Nat) (pr cur : Option Nat),
      chainOKb nodes pr cur (front ++ nid :: back) = true →
      (match back with
       | [] => nd.next = none
       | b :: _ => nd.next = some b) := by
  intro front
  induction front with
  | nil =>
    intro back pr cur hch
    simp only [List.nil_append] at hch
    rw [chainOKb, Bool.and_eq_true_iff] at hch
    obtain ⟨-, h2⟩ := hch
    rw [hnd, Bool.and_eq_true_iff] at h2
    cases back with
    | nil =>
      have := h2.2
      rw [chainOKb] at this
      simpa using this
    | cons b back2 =>
      have := h2.2
      rw [chainOKb, Bool.and_eq_true_iff] at this
      simpa using this.1
  | cons x front ih =>
    intro back pr cur hch
    simp only [List.cons_append] at hch
    rw [chainOKb, Bool.and_eq_true_iff] at hch
    obtain ⟨-, h2⟩ := hch
    cases hfind : findNd nodes x with
    | none => rw [hfind] at h2; simp at h2
    | some xd =>
      rw [hfind, Bool.and_eq_true_iff] at h2
      exact ih back (some x) xd.next h2.2

/-- The heap after `Channel.unsubscribe` removes a mid-chain node:
bridge the predecessor's `next`, the successor's `prev`, clear both of
the node's links. -/
def spliceMid (nodes : List (Nat × DLLNode)) (nid : Nat) (nd : DLLNode) (P : Nat) :
    List (Nat × DLLNode) :=
  let nodesA := updNd nodes P (fun m => { m with next := nd.next })
  let nodesB :=
    match nd.next with
    | some nxt =>
      updNd (updNd nodesA nxt (fun m => { m with prev := nd.prev })) nid
        (fun m => { m with next := none })
    | none => nodesA
  updNd nodesB nid (fun m => { m with prev := none })

theorem findNd_spliceMid_other (nodes : List (Nat × DLLNode)) (nid : Nat) (nd : DLLNode)
    (P y : Nat) (h1 : y ≠ nid) (h2 : y ≠ P) (h3 : ∀ nxt, nd.next = some nxt → y ≠ nxt) :
    findNd (spliceMid nodes nid nd P) y = findNd nodes y := by
  unfold spliceMid
  rw [findNd_updNd]
  simp only [h1, if_false]
  cases hn : nd.next with
  | none =>
    simp only
    rw [findNd_updNd]
    simp only [h2, if_false]
  | some nxt =>
    simp only
    rw [findNd_updNd]
    simp only [h1, if_false]
    rw [findNd_updNd]
    simp only [h3 nxt hn, if_false]
    rw [findNd_updNd]
    simp only [h2, if_false]

theorem findNd_spliceMid_P (nodes : List (Nat × DLLNode)) (nid : Nat) (nd : DLLNode)
    (P : Nat) (h1 : P ≠ nid) (h3 : ∀ nxt, nd.next = some nxt → P ≠ nxt) :
    findNd (spliceMid nodes nid nd P) P =
      (findNd nodes P).map (fun m => { m with next := nd.next }) := by
  unfold spliceMid
  rw [findNd_updNd]
  simp only [h1, if_false]
  cases hn : nd.next with
  | none =>
    simp only
    rw [findNd_updNd]
    simp [hn]
  | some nxt =>
    simp only
    rw [findNd_updNd]
    simp only [h1, if_false]
    rw [findNd_updNd]
    simp only [h3 nxt hn, if_false]
    rw [findNd_updNd]
    simp [hn]

theorem findNd_spliceMid_nxt (nodes : List (Nat × DLLNode)) (nid : Nat) (nd : DLLNode)
    (P nxt : Nat) (hn : nd.next = some nxt) (h1 : nxt ≠ nid) (h2 : nxt ≠ P) :
    findNd (spliceMid nodes nid nd P) nxt =
      (findNd nodes nxt).map (fun m => { m with prev := nd.prev }) := by
  unfold spliceMid
  rw [findNd_updNd]
  simp only [h1, if_false]
  rw [hn]
  simp only
  rw [findNd_updNd]
  simp only [h1, if_false]
  rw [findNd_updNd]
  simp only [if_pos rfl]
  rw [findNd_updNd]
  simp only [h2, if_false]
  simp

theorem findNd_spliceMid_self (nodes : List (Nat × DLLNode)) (nid : Nat) (nd : DLLNode)
    (P : Nat) (hnd : findNd nodes nid = some nd) (h1 : nid ≠ P)
    (h3 : ∀ nxt, nd.next = some nxt → nid ≠ nxt) :
    findNd (spliceMid nodes nid nd P) nid = some { nd with prev := none, next := none } := by
  unfold spliceMid
  rw [findNd_updNd]
  simp only [if_pos rfl]
  cases hn : nd.next with
  | none =>
    simp only
    rw [findNd_updNd]
    simp only [h1, if_false, hnd]
    have : nd.next = none := hn
    simp [this]
  | some nxt =>
    simp only
    rw [findNd_updNd]
    simp only [if_pos rfl]
    rw [findNd_updNd]
    simp only [h3 nxt hn, if_false]
    rw [findNd_updNd]
    simp only [h1, if_false, hnd]
    rfl

/-- Removing a mid-chain node leaves the shortened chain intact. -/
theorem chain_splice_mid (nodes : List (Nat × DLLNode)) (nid : Nat) (nd : DLLNode) (P : Nat)
    (hnd : findNd nodes nid = some nd) (hP : nd.prev = some P) :
    ∀ (front back : List Nat) (pr cur : Option Nat), front ≠ [] →
      chainOKb nodes pr cur (front ++ nid :: back) = true →
      (front ++ nid :: back).Nodup →
      chainOKb (spliceMid nodes nid nd P) pr cur (front ++ back) = true := by
  intro front
  induction front with
  | nil => intro back pr cur hfne; exact absurd rfl hfne
  | cons x front ih =>
    intro back pr cur _ hch hdup
    have hprevs := chain_prev_at nodes nid nd hnd (x :: front) back pr cur hch
    have hnext := chain_next_at nodes nid nd hnd (x :: front) back pr cur hch
    simp only [List.cons_append] at hch hdup ⊢
    rw [List.nodup_cons] at hdup
    rw [chainOKb, Bool.and_eq_true_iff] at hch
    obtain ⟨hcur, h2⟩ := hch
    cases hfind : findNd nodes x with
    | none => rw [hfind] at h2; simp at h2
    | some xd =>
      rw [hfind, Bool.and_eq_true_iff] at h2
      have hxnid : x ≠ nid := by
        intro h
        exact hdup.1 (by rw [h]; simp)
      cases front with
      | nil =>
        have hPx : P = x := by
          have := hprevs.2 (by simp)
          rw [hP] at this
          simpa using this
        subst hPx
        rw [List.nil_append] at hdup
        have h22 : chainOKb nodes (some P) xd.next (nid :: back) = true := by
          have := h2.2
          rwa [List.nil_append] at this
        have hchain_nid : chainOKb nodes (some nid) nd.next back = true := by
          rw [chainOKb, Bool.and_eq_true_iff] at h22
          have := h22.2
          rw [hnd, Bool.and_eq_true_iff] at this
          exact this.2
        have hPneq_nxt : ∀ nxt, nd.next = some nxt → P ≠ nxt := by
          intro nxt hnx h
          cases back with
          | nil =>
            have hnn : nd.next = none := hnext
            rw [hnn] at hnx
            simp at hnx
          | cons b back2 =>
            have hnb : nd.next = some b := hnext
            rw [hnb] at hnx
            obtain rfl : b = nxt := by simpa using hnx
            rw [h] at hdup
            exact hdup.1 (by simp)
        rw [List.nil_append, chainOKb, Bool.and_eq_true_iff]
        refine ⟨hcur, ?_⟩
        rw [findNd_spliceMid_P nodes nid nd P hxnid hPneq_nxt, hfind]
        simp only [Option.map_some']
        rw [Bool.and_eq_true_iff]
        refine ⟨h2.1, ?_⟩
        cases back with
        | nil =>
          have hnn : nd.next = none := hnext
          rw [hnn, chainOKb]
          simp
        | cons b back2 =>
          have hnb : nd.next = some b := hnext
          rw [hnb]
          rw [hnb] at hchain_nid
          rw [chainOKb, Bool.and_eq_true_iff] at hchain_nid
          obtain ⟨-, h3⟩ := hchain_nid
          have h5 : nid ∉ b :: back2 := (List.nodup_cons.mp hdup.2).1
          have h6 : b ∉ back2 := (List.nodup_cons.mp (List.nodup_cons.mp hdup.2).2).1
          have hbnid : b ≠ nid := by
            intro h
            exact h5 (by rw [← h]; simp)
          have hbx : b ≠ P := by
            intro h
            exact hdup.1 (by rw [← h]; simp)
          cases hbd : findNd nodes b with
          | none => rw [hbd] at h3; simp at h3
          | some bd =>
            rw [hbd, Bool.and_eq_true_iff] at h3
            rw [chainOKb, Bool.and_eq_true_iff]
            refine ⟨by simp, ?_⟩
            rw [findNd_spliceMid_nxt nodes nid nd P b hnb hbnid hbx, hbd]
            simp only [Option.map_some']
            rw [Bool.and_eq_true_iff]
            constructor
            · show (nd.prev == some P) = true
              rw [hP]
              simp
            · show chainOKb (spliceMid nodes nid nd P) (some b) bd.next back2 = true
              have hsame : ∀ z ∈ back2, findNd (spliceMid nodes nid nd P) z = findNd nodes z := by
                intro z hz
                refine findNd_spliceMid_other nodes nid nd P z ?_ ?_ ?_
                · intro h
                  exact h5 (by rw [← h]; exact List.mem_cons_of_mem b hz)
                · intro h
                  rw [h] at hz
                  exact hdup.1 (by simp [hz])
                · intro nxt hnx h
                  rw [hnb] at hnx
                  obtain rfl : b = nxt := by simpa using hnx
                  rw [h] at hz
                  exact h6 hz
              rw [chain_congr nodes (spliceMid nodes nid nd P) back2 (some b) bd.next hsame]
              exact h3.2
      | cons y front2 =>
        have hPmem : P ∈ y :: front2 := by
          have := (chain_prev_at nodes nid nd hnd (y :: front2) back (some x) xd.next h2.2).2
            (by simp)
          rw [hP] at this
          have hPg : P = (y :: front2).getLast (by simp) := by simpa using this
          rw [hPg]
          exact List.getLast_mem (by simp)
        have hxP : x ≠ P := by
          intro h
          rw [← h] at hPmem
          exact hdup.1 (List.mem_append_left _ hPmem)
        have hxnxt : ∀ nxt, nd.next = some nxt → x ≠ nxt := by
          intro nxt hnx h
          cases back with
          | nil =>
            have hnn : nd.next = none := hnext
            rw [hnn] at hnx
            simp at hnx
          | cons b back2 =>
            have hnb : nd.next = some b := hnext
            rw [hnb] at hnx
            obtain rfl : b = nxt := by simpa using hnx
            rw [h] at hdup
            exact hdup.1 (by simp)
        rw [chainOKb, Bool.and_eq_true_iff]
        refine ⟨hcur, ?_⟩
        rw [findNd_spliceMid_other nodes nid nd P x hxnid hxP hxnxt, hfind]
        rw [Bool.and_eq_true_iff]
        refine ⟨h2.1, ?_⟩
        exact ih back (some x) xd.next (by simp) h2.2 hdup.2

/-- A nonempty chain pointer heads its list. -/
theorem chain_cons (nodes : List (Nat × DLLNode)) (h0 : Nat) (pr : Option Nat) (L : List Nat)
    (h : chainOKb nodes pr (some h0) L = true) : ∃ t, L = h0 :: t := by
  cases L with
  | nil => rw [chainOKb] at h; simp at h
  | cons x xs =>
    rw [chainOKb, Bool.and_eq_true_iff] at h
    obtain rfl : h0 = x := by simpa using h.1
    exact ⟨xs, rfl⟩

/-- JS array assignment length: `max(old length, index + 1)`. -/
theorem listSetPad_length (l : List (Option Nat)) (i : Nat) (v : Option Nat) :
    (listSetPad l i v).length = max l.length (i + 1) := by
  unfold listSetPad
  rw [List.length_set, List.length_append, List.length_replicate]
  omega

/-- Entries of `mapSet` are old entries or carry the new list. -/
theorem mem_mapSet (ch : Channel) (s : String) (l : List Nat) (e : String × List Nat)
    (he : e ∈ (mapSet ch s l).fnHashMap) : e ∈ ch.fnHashMap ∨ e.2 = l := by
  unfold mapSet at he
  by_cases h : (ch.fnHashMap.find? (fun e => e.1 == s)).isSome
  · rw [if_pos h] at he
    simp only at he
    obtain ⟨a, ha, hae⟩ := List.mem_map.mp he
    by_cases hk : a.1 = s
    · right
      rw [← hae]
      simp [hk]
    · left
      have : (a.1 == s) = false := by simp [hk]
      rw [← hae]
      simp only [this, if_false]
      exact ha
  · rw [if_neg h] at he
    simp only at he
    rcases List.mem_append.mp he with h2 | h2
    · exact Or.inl h2
    · right
      simp only [List.mem_singleton] at h2
      rw [h2]

/-- A `mapLookup` hit is an actual entry. -/
theorem mapLookup_mem (ch : Channel) (s : String) (l : List Nat)
    (h : mapLookup ch s = some l) : (s, l) ∈ ch.fnHashMap := by
  unfold mapLookup at h
  cases hf : ch.fnHashMap.find? (fun e => e.1 == s) with
  | none => rw [hf] at h; simp at h
  | some e =>
    rw [hf] at h
    have h1 : e.1 = s := by simpa using List.find?_some hf
    have h2 : e.2 = l := by simpa using h
    have := List.mem_of_find?_eq_some hf
    rwa [← h1, ← h2, Prod.mk.eta]

/-- Old flattening members survive appending a fresh id to one bucket. -/
theorem mem_flatten_set_append (y fr : Nat) :
    ∀ (B : List (List Nat)) (q : Nat), q < B.length → y ∈ B.flatten →
      y ∈ (B.set q (B.getD q [] ++ [fr])).flatten := by
  intro B
  induction B with
  | nil => intro q h; simp at h
  | cons L rest ih =>
    intro q hq hy
    cases q with
    | zero =>
      simp only [List.getD_cons_zero, List.set_cons_zero, List.flatten_cons, List.mem_append]
      simp only [List.flatten_cons, List.mem_append] at hy
      rcases hy with hy | hy
      · exact Or.inl (Or.inl hy)
      · exact Or.inr hy
    | succ q =>
      simp only [List.getD_cons_succ, List.set_cons_succ, List.flatten_cons, List.mem_append]
      simp only [List.flatten_cons, List.mem_append] at hy
      rcases hy with hy | hy
      · exact Or.inl hy
      · exact Or.inr (ih q (by simpa using hq) hy)

/-- The fresh id lands in the flattening. -/
theorem fr_mem_flatten_set_append (fr : Nat) :
    ∀ (B : List (List Nat)) (q : Nat), q < B.length →
      fr ∈ (B.set q (B.getD q [] ++ [fr])).flatten := by
  intro B
  induction B with
  | nil => intro q h; simp at h
  | cons L rest ih =>
    intro q hq
    cases q with
    | zero => simp
    | succ q =>
      simp only [List.set_cons_succ, List.flatten_cons, List.mem_append]
      exact Or.inr (ih q (by simpa using hq))

/-! ## The full representation invariant -/

/-- `updNd` rewrites values in place: the key sequence is unchanged. -/
theorem keys_updNd (nodes : List (Nat × DLLNode)) (n : Nat) (f : DLLNode → DLLNode) :
    (updNd nodes n f).map Prod.fst = nodes.map Prod.fst := by
  unfold updNd
  rw [List.map_map]
  apply List.map_congr_left
  intro a _
  by_cases h : (a.1 == n) = true
  · simp [Function.comp, h]
  · simp [Function.comp, h]

/-- With unique heap keys, membership determines the dereference. -/
theorem mem_findNd_of_keys (nodes : List (Nat × DLLNode))
    (hk : (nodes.map Prod.fst).Nodup) (e : Nat × DLLNode) (he : e ∈ nodes) :
    findNd nodes e.1 = some e.2 := by
  induction nodes with
  | nil => simp at he
  | cons a rest ih =>
    rw [List.map_cons, List.nodup_cons] at hk
    rcases List.mem_cons.mp he with h | h
    · subst h
      unfold findNd
      rw [List.find?_cons_of_pos _ (by simp)]
      rfl
    · have hne : a.1 ≠ e.1 := by
        intro hq
        exact hk.1 (hq ▸ List.mem_map.mpr ⟨e, h, rfl⟩)
      unfold findNd at ih ⊢
      rw [List.find?_cons_of_neg _ (by simp [hne])]
      exact ih hk.2 h

/-- A projection untouched by the update function is untouched by `updNd`. -/
theorem findNd_updNd_map {γ : Type} (nodes : List (Nat × DLLNode)) (n : Nat)
    (f : DLLNode → DLLNode) (y : Nat) (g : DLLNode → γ) (hg : ∀ v, g (f v) = g v) :
    (findNd (updNd nodes n f) y).map g = (findNd nodes y).map g := by
  rw [findNd_updNd]
  by_cases h : y = n
  · rw [if_pos h, h]
    cases findNd nodes n with
    | none => rfl
    | some v => simp [hg]
  · rw [if_neg h]

/-- A key bound transfers along an equal key sequence. -/
theorem fresh_of_keys (nodes nodes2 : List (Nat × DLLNode)) (k : Nat)
    (hkeys : nodes2.map Prod.fst = nodes.map Prod.fst)
    (h : ∀ e ∈ nodes, e.1 < k) : ∀ e ∈ nodes2, e.1 < k := by
  intro e he
  have h2 : e.1 ∈ nodes.map Prod.fst := by
    rw [← hkeys]
    exact List.mem_map.mpr ⟨e, he, rfl⟩
  obtain ⟨e0, he0, hfe⟩ := List.mem_map.mp h2
  rw [← hfe]
  exact h e0 he0

/-- Erasing the position where a duplicate-free list holds `a` removes
`a` entirely. -/
theorem not_mem_eraseIdx_of_nodup :
    ∀ (l : List Nat) (i : Nat) (a : Nat), l.Nodup → l.get? i = some a →
      a ∉ l.eraseIdx i := by
  intro l
  induction l with
  | nil => intro i a _ h; simp at h
  | cons b rest ih =>
    intro i a hnd hg
    cases i with
    | zero =>
      simp only [List.get?_cons_zero, Option.some.injEq] at hg
      subst hg
      rw [List.nodup_cons] at hnd
      simpa [List.eraseIdx] using hnd.1
    | succ i =>
      simp only [List.get?_cons_succ] at hg
      rw [List.nodup_cons] at hnd
      intro hmem
      rcases List.mem_cons.mp (by simpa [List.eraseIdx] using hmem) with h | h
      · subst h
        exact hnd.1 (List.get?_mem hg)
      · exact ih i a hnd.2 hg h

/-- The index returned by the `Channel.unsubscribe` search points at the
returned node id. -/
theorem findMatch_get (ch : Channel) (fn : Fn) :
    ∀ (arr : List Nat) (i j n : Nat) (nd : DLLNode),
      findMatch ch fn arr i = some (j, n, nd) →
      i ≤ j ∧ arr.get? (j - i) = some n := by
  intro arr
  induction arr with
  | nil => intro i j n nd h; simp [findMatch] at h
  | cons a rest ih =>
    intro i j n nd h
    rw [findMatch] at h
    cases hl : lookupNode ch a with
    | some nda =>
      rw [hl] at h
      simp only at h
      by_cases hr : (nda.subscription.fn.ref == fn.ref) = true
      · rw [if_pos hr] at h
        simp only [Option.some.injEq, Prod.mk.injEq] at h
        obtain ⟨rfl, rfl, rfl⟩ := h
        exact ⟨le_refl i, by simp⟩
      · rw [if_neg hr] at h
        obtain ⟨hij, hg⟩ := ih (i + 1) j n nd h
        refine ⟨by omega, ?_⟩
        have hji : j - i = (j - (i + 1)) + 1 := by omega
        rw [hji]
        simpa using hg
    | none =>
      rw [hl] at h
      simp only at h
      obtain ⟨hij, hg⟩ := ih (i + 1) j n nd h
      refine ⟨by omega, ?_⟩
      have hji : j - i = (j - (i + 1)) + 1 := by omega
      rw [hji]
      simpa using hg

/-- Entries of `mapSet` are old entries with a different key, or the
assigned binding. -/
theorem mem_mapSet2 (ch : Channel) (s : String) (l : List Nat) (e : String × List Nat)
    (he : e ∈ (mapSet ch s l).fnHashMap) :
    (e ∈ ch.fnHashMap ∧ e.1 ≠ s) ∨ e = (s, l) := by
  unfold mapSet at he
  by_cases h : (ch.fnHashMap.find? (fun e => e.1 == s)).isSome
  · rw [if_pos h] at he
    simp only at he
    obtain ⟨a, ha, hae⟩ := List.mem_map.mp he
    by_cases hk : (a.1 == s) = true
    · right
      rw [if_pos hk] at hae
      exact hae.symm
    · left
      rw [if_neg hk] at hae
      rw [← hae]
      exact ⟨ha, by simpa using hk⟩
  · rw [if_neg h] at he
    simp only at he
    rcases List.mem_append.mp he with h2 | h2
    · left
      refine ⟨h2, ?_⟩
      intro hq
      rw [List.find?_isSome] at h
      exact h ⟨e, h2, by simp [hq]⟩
    · right
      simpa using h2

/-- Entries of `mapDelete` are old entries with a different key. -/
theorem mem_mapDelete (ch : Channel) (s : String) (e : String × List Nat)
    (he : e ∈ (mapDelete ch s).fnHashMap) : e ∈ ch.fnHashMap ∧ e.1 ≠ s := by
  unfold mapDelete at he
  simp only at he
  have h2 := List.mem_filter.mp he
  refine ⟨h2.1, ?_⟩
  simpa using h2.2

/-- A flattening member survives a bucket overwrite that keeps it. -/
theorem mem_flatten_set_keep (y : Nat) (L2 : List Nat) :
    ∀ (B : List (List Nat)) (q : Nat), y ∈ B.flatten →
      (y ∈ B.getD q [] → y ∈ L2) → y ∈ (B.set q L2).flatten := by
  intro B
  induction B with
  | nil => intro q h; simp at h
  | cons b rest ih =>
    intro q hy himp
    cases q with
    | zero =>
      simp only [List.set_cons_zero, List.flatten_cons, List.mem_append] at hy ⊢
      rcases hy with h | h
      · exact Or.inl (himp (by simpa using h))
      · exact Or.inr h
    | succ q =>
      simp only [List.set_cons_succ, List.flatten_cons, List.mem_append] at hy ⊢
      rcases hy with h | h
      · exact Or.inl h
      · exact Or.inr (ih q h (fun h2 => himp (by simpa using h2)))

/-- A bucket-erasing overwrite keeps the flattening duplicate-free. -/
theorem nodup_flatten_set_sub (B : List (List Nat)) (q : Nat) (L2 : List Nat)
    (hnd : B.flatten.Nodup) (hsub : L2.Sublist (B.getD q [])) :
    ((B.set q L2).flatten).Nodup :=
  (flatten_set_sublist L2 B q hsub).nodup hnd

/-- `spliceHead` changes only links: subscriptions and priorities read
back unchanged. -/
theorem findNd_spliceHead_sp (nodes : List (Nat × DLLNode)) (nid : Nat) (nd : DLLNode)
    (y : Nat) :
    (findNd (spliceHead nodes nid nd) y).map (fun v => (v.subscription, v.priority)) =
    (findNd nodes y).map (fun v => (v.subscription, v.priority)) := by
  unfold spliceHead
  rw [findNd_updNd_map _ nid (fun m => { m with next := none }) y (fun v => (v.subscription, v.priority)) (fun v => rfl)]
  cases hn : nd.next with
  | none => rfl
  | some nxt =>
    simp only
    rw [findNd_updNd_map _ nxt (fun m => { m with prev := none }) y (fun v => (v.subscription, v.priority)) (fun v => rfl)]

/-- `spliceMid` changes only links: subscriptions and priorities read
back unchanged. -/
theorem findNd_spliceMid_sp (nodes : List (Nat × DLLNode)) (nid : Nat) (nd : DLLNode)
    (P y : Nat) :
    (findNd (spliceMid nodes nid nd P) y).map (fun v => (v.subscription, v.priority)) =
    (findNd nodes y).map (fun v => (v.subscription, v.priority)) := by
  unfold spliceMid
  rw [findNd_updNd_map _ nid (fun m => { m with prev := none }) y (fun v => (v.subscription, v.priority)) (fun v => rfl)]
  cases hn : nd.next with
  | none =>
    simp only
    rw [findNd_updNd_map _ P (fun m => { m with next := none }) y (fun v => (v.subscription, v.priority)) (fun v => rfl)]
  | some nxt =>
    simp only
    rw [findNd_updNd_map _ nid (fun m => { m with next := none }) y (fun v => (v.subscription, v.priority)) (fun v => rfl),
      findNd_updNd_map _ nxt (fun m => { m with prev := nd.prev }) y (fun v => (v.subscription, v.priority)) (fun v => rfl),
      findNd_updNd_map _ P (fun m => { m with next := some nxt }) y (fun v => (v.subscription, v.priority)) (fun v => rfl)]

/-- `subscribeSurgery` changes only links relative to the appended heap. -/
theorem findNd_subSurgery_sp (nodes : List (Nat × DLLNode)) (fresh lastId : Nat)
    (nn : DLLNode) (y : Nat) :
    (findNd (subscribeSurgery nodes fresh lastId nn) y).map
        (fun v => (v.subscription, v.priority)) =
    (findNd (nodes ++ [(fresh, nn)]) y).map (fun v => (v.subscription, v.priority)) := by
  unfold subscribeSurgery
  rw [findNd_updNd_map _ fresh (fun m => { m with prev := some lastId }) y (fun v => (v.subscription, v.priority)) (fun v => rfl),
    findNd_updNd_map _ lastId (fun m => { m with next := some fresh }) y (fun v => (v.subscription, v.priority)) (fun v => rfl)]

/-- The bucket-priority agreement transfers along read-back-equal heaps. -/
theorem prio_transfer (nodes nodes2 : List (Nat × DLLNode)) (y p : Nat)
    (h : (findNd nodes2 y).map (fun v => (v.subscription, v.priority)) =
         (findNd nodes y).map (fun v => (v.subscription, v.priority)))
    (hold : (match findNd nodes y with
             | some nd => nd.priority == p
             | none => true) = true) :
    (match findNd nodes2 y with
     | some nd => nd.priority == p
     | none => true) = true := by
  cases h1 : findNd nodes2 y with
  | none => rfl
  | some v =>
    cases h2 : findNd nodes y with
    | none =>
      rw [h1, h2] at h
      simp at h
    | some w =>
      rw [h1, h2] at h
      simp only [Option.map_some', Option.some.injEq, Prod.mk.injEq] at h
      rw [h2] at hold
      simp only at hold
      simp only [h.2]
      exact hold

/-- The hash-id agreement transfers along read-back-equal heaps. -/
theorem subid_transfer (nodes nodes2 : List (Nat × DLLNode)) (y : Nat) (s : String)
    (h : (findNd nodes2 y).map (fun v => (v.subscription, v.priority)) =
         (findNd nodes y).map (fun v => (v.subscription, v.priority)))
    (hold : ∀ nd, findNd nodes y = some nd → nd.subscription.id = s) :
    ∀ nd, findNd nodes2 y = some nd → nd.subscription.id = s := by
  intro nd h1
  cases h2 : findNd nodes y with
  | none =>
    rw [h1, h2] at h
    simp at h
  | some w =>
    rw [h1, h2] at h
    simp only [Option.map_some', Option.some.injEq, Prod.mk.injEq] at h
    rw [show nd.subscription = w.subscription from h.1]
    exact hold w h2

/-- The representation invariant tying a channel to its abstract bucket
lists `B` (always five buckets, priorities being clamped to 0..4): each
bucket is a well-formed chain from its matrix head; the buckets are
disjoint; every node id is below the allocation counter; every heap
node is either on a bucket chain or fully detached with cleared links;
chain nodes carry their bucket's priority; every id recorded in the
hash map is on a chain; heap keys are unique; each hash bucket is
duplicate-free; and nodes listed under a hash key carry that key as
their subscription id. -/
structure Rep (ch : Channel) (B : List (List Nat)) : Prop where
  lenB : B.length = 5
  lenM : ch.priorityMatrix.length ≤ 5
  chains : ∀ p, p < 5 → chainOKb ch.nodes none (matrixGet ch p) (B.getD p []) = true
  nodup : B.flatten.Nodup
  fresh : ∀ e ∈ ch.nodes, e.1 < ch.nextId
  cover : ∀ e ∈ ch.nodes, e.1 ∈ B.flatten ∨ (e.2.prev = none ∧ e.2.next = none)
  prio : ∀ p, p < 5 → ∀ n ∈ B.getD p [],
    (match findNd ch.nodes n with
     | some nd => nd.priority == p
     | none => true) = true
  mapOK : ∀ e ∈ ch.fnHashMap, ∀ n ∈ e.2, n ∈ B.flatten
  keys : (ch.nodes.map Prod.fst).Nodup
  mapNodup : ∀ e ∈ ch.fnHashMap, e.2.Nodup
  mapId : ∀ e ∈ ch.fnHashMap, ∀ n ∈ e.2, ∀ nd, findNd ch.nodes n = some nd →
    nd.subscription.id = e.1

/-- `Rep` only reads the matrix, heap, allocation counter and hash map. -/
theorem rep_frame (ch ch2 : Channel) (B : List (List Nat)) (hrep : Rep ch B)
    (h1 : ch2.priorityMatrix = ch.priorityMatrix) (h2 : ch2.nodes = ch.nodes)
    (h3 : ch2.nextId = ch.nextId) (h4 : ch2.fnHashMap = ch.fnHashMap) : Rep ch2 B := by
  obtain ⟨r1, r2, r3, r4, r5, r6, r7, r8, r9, r10, r11⟩ := hrep
  refine ⟨r1, by rw [h1]; exact r2, ?_, r4, by rw [h2, h3]; exact r5, by rw [h2]; exact r6,
    by rw [h2]; exact r7, by rw [h4]; exact r8, by rw [h2]; exact r9,
    by rw [h4]; exact r10, by rw [h2, h4]; exact r11⟩
  intro p hp
  have : matrixGet ch2 p = matrixGet ch p := by unfold matrixGet; rw [h1]
  rw [h2, this]
  exact r3 p hp

/-- Every flattening member is on some bucket. -/
theorem rep_flatten_bucket (B : List (List Nat)) (hlen : B.length = 5) (n : Nat)
    (h : n ∈ B.flatten) : ∃ p, p < 5 ∧ n ∈ B.getD p [] := by
  rw [List.mem_flatten] at h
  obtain ⟨l, hl, hnl⟩ := h
  obtain ⟨i, hi⟩ := List.mem_iff_get.mp hl
  refine ⟨i.1, by rw [← hlen]; exact i.2, ?_⟩
  rw [List.getD_eq_getElem?_getD, List.getElem?_eq_getElem i.2]
  simp only [Option.getD_some]
  rw [← hi] at hnl
  simpa using hnl

/-- Ids on chains dereference into the heap. -/
theorem rep_flatten_find (ch : Channel) (B : List (List Nat)) (hrep : Rep ch B) (n : Nat)
    (h : n ∈ B.flatten) : ∃ nd, findNd ch.nodes n = some nd := by
  obtain ⟨p, hp, hmem⟩ := rep_flatten_bucket B hrep.lenB n h
  exact chain_mem_find ch.nodes (B.getD p []) none (matrixGet ch p) (hrep.chains p hp) n hmem

/-- Ids on chains are below the allocation counter. -/
theorem rep_flatten_lt (ch : Channel) (B : List (List Nat)) (hrep : Rep ch B) (n : Nat)
    (h : n ∈ B.flatten) : n < ch.nextId := by
  obtain ⟨nd, hnd⟩ := rep_flatten_find ch B hrep n h
  exact hrep.fresh (n, nd) (findNd_some_mem ch.nodes n nd hnd)

/-- The allocation counter is a fresh id. -/
theorem rep_fresh_none (ch : Channel) (B : List (List Nat)) (hrep : Rep ch B) :
    findNd ch.nodes ch.nextId = none := by
  cases hf : findNd ch.nodes ch.nextId with
  | none => rfl
  | some nd =>
    have := hrep.fresh (ch.nextId, nd) (findNd_some_mem ch.nodes ch.nextId nd hf)
    omega

/-- Each bucket is a sublist of the flattening. -/
theorem getD_sublist_flatten :
    ∀ (B : List (List Nat)) (q : Nat), (B.getD q []).Sublist B.flatten := by
  intro B
  induction B with
  | nil => intro q; simp
  | cons L rest ih =>
    intro q
    cases q with
    | zero =>
      simp only [List.getD_cons_zero, List.flatten_cons]
      exact List.sublist_append_left L rest.flatten
    | succ q =>
      simp only [List.getD_cons_succ, List.flatten_cons]
      exact (ih q).trans (List.sublist_append_right L rest.flatten)

/-- Chain ids sit among the heap keys. -/
theorem rep_flatten_subset_keys (ch : Channel) (B : List (List Nat)) (hrep : Rep ch B) :
    B.flatten ⊆ ch.nodes.map Prod.fst := by
  intro n h
  obtain ⟨nd, hnd⟩ := rep_flatten_find ch B hrep n h
  exact List.mem_map.mpr ⟨(n, nd), findNd_some_mem ch.nodes n nd hnd, rfl⟩

/-- The flattening is no longer than the heap. -/
theorem rep_flatten_length (ch : Channel) (B : List (List Nat)) (hrep : Rep ch B) :
    B.flatten.length ≤ ch.nodes.length := by
  have := (List.subperm_of_subset hrep.nodup (rep_flatten_subset_keys ch B hrep)).length_le
  simpa using this

/-- The doubly-linked-list invariant from the specification: whenever a
node's neighbor links exist they point back at the node. -/
def linkInv (ch : Channel) : Prop :=
  ∀ n nd, findNd ch.nodes n = some nd →
    (∀ p, nd.prev = some p → ∃ pd, findNd ch.nodes p = some pd ∧ pd.next = some n) ∧
    (∀ m, nd.next = some m → ∃ md, findNd ch.nodes m = some md ∧ md.prev = some n)

/-- Chains satisfy the link invariant pointwise. -/
theorem chain_linkInv (nodes : List (Nat × DLLNode)) :
    ∀ (L : List Nat) (pr cur : Option Nat),
      chainOKb nodes pr cur L = true →
      (∀ q, pr = some q → ∃ qd, findNd nodes q = some qd ∧ qd.next = cur) →
      ∀ n ∈ L, ∀ nd, findNd nodes n = some nd →
        (∀ p2, nd.prev = some p2 → ∃ pd, findNd nodes p2 = some pd ∧ pd.next = some n) ∧
        (∀ m, nd.next = some m → ∃ md, findNd nodes m = some md ∧ md.prev = some n) := by
  intro L
  induction L with
  | nil => intro pr cur _ _ n hn; simp at hn
  | cons x xs ih =>
    intro pr cur hch hpr n hn nd hnd
    rw [chainOKb, Bool.and_eq_true_iff] at hch
    obtain ⟨hcur, h2⟩ := hch
    cases hfind : findNd nodes x with
    | none => rw [hfind] at h2; simp at h2
    | some xd =>
      rw [hfind, Bool.and_eq_true_iff] at h2
      have hcur2 : cur = some x := by simpa using hcur
      rcases List.mem_cons.mp hn with rfl | hxs
      · have hx : nd = xd := by rw [hnd] at hfind; simpa using hfind
        constructor
        · intro p2 hp2
          have hpr2 : pr = some p2 := by
            have h1 : xd.prev = pr := by simpa using h2.1
            rw [← h1, ← hx, hp2]
          obtain ⟨qd, hqd, hqn⟩ := hpr p2 hpr2
          exact ⟨qd, hqd, by rw [hqn, hcur2]⟩
        · intro m hm
          have hch2 := h2.2
          rw [← hx, hm] at hch2
          obtain ⟨t, ht⟩ := chain_cons nodes m (some n) xs hch2
          subst ht
          rw [chainOKb, Bool.and_eq_true_iff] at hch2
          obtain ⟨-, h3⟩ := hch2
          cases hmd : findNd nodes m with
          | none => rw [hmd] at h3; simp at h3
          | some md =>
            rw [hmd, Bool.and_eq_true_iff] at h3
            exact ⟨md, rfl, by simpa using h3.1⟩
      · refine ih (some x) xd.next h2.2 ?_ n hxs nd hnd
        intro q hq
        obtain rfl : x = q := by simpa using hq
        exact ⟨xd, hfind, rfl⟩

/-- The representation invariant yields the doubly-linked-list link
invariant on every heap node. -/
theorem linkInv_of_rep (ch : Channel) (B : List (List Nat)) (hrep : Rep ch B) : linkInv ch := by
  intro n nd hnd
  have hcov := hrep.cover (n, nd) (findNd_some_mem ch.nodes n nd hnd)
  rcases hcov with hmem | ⟨hp0, hn0⟩
  · obtain ⟨p, hp, hb⟩ := rep_flatten_bucket B hrep.lenB n hmem
    exact chain_linkInv ch.nodes (B.getD p []) none (matrixGet ch p) (hrep.chains p hp)
      (fun q hq => by simp at hq) n hb nd hnd
  · constructor
    · intro p2 hp2
      rw [hp0] at hp2
      simp at hp2
    · intro m hm
      rw [hn0] at hm
      simp at hm

/-- Buckets of a nodup flattening are pairwise disjoint. -/
theorem nodup_flatten_disjoint :
    ∀ (B : List (List Nat)), B.flatten.Nodup → ∀ p q, p ≠ q →
      ∀ y, y ∈ B.getD p [] → y ∈ B.getD q [] → False := by
  intro B
  induction B with
  | nil => intro _ p q _ y hy; simp at hy
  | cons L rest ih =>
    intro hnd p q hpq y hyp hyq
    rw [List.flatten_cons, List.nodup_append] at hnd
    obtain ⟨h1, h2, h3⟩ := hnd
    cases p with
    | zero =>
      cases q with
      | zero => exact hpq rfl
      | succ q =>
        simp only [List.getD_cons_zero] at hyp
        simp only [List.getD_cons_succ] at hyq
        exact h3 hyp (mem_getD_flatten y rest q hyq)
    | succ p =>
      cases q with
      | zero =>
        simp only [List.getD_cons_succ] at hyp
        simp only [List.getD_cons_zero] at hyq
        exact h3 hyq (mem_getD_flatten y rest p hyp)
      | succ q =>
        simp only [List.getD_cons_succ] at hyp hyq
        exact ih h2 p q (by omega) y hyp hyq

/-- The duplicate check of `Channel.subscribe`, in isolation. -/
def subscribeDup (ch : Channel) (fn : Fn) : Bool :=
  match mapLookup ch (hashFn fn) with
  | none => false
  | some lst => lst.any (fun n =>
      match lookupNode ch n with
      | some nd => nd.subscription.fn.ref == fn.ref
      | none => false)

/-- The channel produced by a successful `Channel.subscribe`, in
isolation. -/
def subscribeResult (ch : Channel) (fn : Fn) (priority c : Nat) : Channel :=
  let sub := Subscription.make fn c
  let nodeId := ch.nextId
  let node : DLLNode := { prev := none, next := none, subscription := sub, priority := priority }
  let newLst :=
    match mapLookup ch sub.id with
    | none => [nodeId]
    | some lst => lst ++ [nodeId]
  let ch1 := mapSet ch sub.id newLst
  let ch2 := { ch1 with nodes := ch1.nodes ++ [(nodeId, node)], nextId := nodeId + 1 }
  match matrixGet ch priority with
  | none => matrixSet ch2 priority (some nodeId)
  | some head =>
    { ch2 with
        nodes := subscribeSurgery ch.nodes nodeId (findLast ch2 ch2.nodes.length head) node }

/-- `Channel.subscribe` characterized through `subscribeDup` and
`subscribeResult`. -/
theorem subscribe_char (ch : Channel) (fn : Fn) (p c : Nat) :
    Channel.subscribe ch fn p c =
      (if subscribeDup ch fn then
         Except.error ("Function has already been passed as a subscriber to <" ++ ch.nspace ++ ">")
       else Except.ok (subscribeResult ch fn p c)) := by
  unfold Channel.subscribe subscribeDup subscribeResult
  simp only [Subscription.make, lookupNode]
  cases hdup : (match mapLookup ch (hashFn fn) with
    | none => false
    | some lst => lst.any (fun n =>
        match findNd ch.nodes n with
        | some nd => nd.subscription.fn.ref == fn.ref
        | none => false)) with
  | true => simp [hdup]
  | false =>
    simp only [hdup, if_false, Bool.false_eq_true]
    have hmg : matrixGet { mapSet ch (hashFn fn)
        (match mapLookup ch (hashFn fn) with
         | none => [ch.nextId]
         | some lst => lst ++ [ch.nextId]) with
        nodes := (mapSet ch (hashFn fn)
          (match mapLookup ch (hashFn fn) with
           | none => [ch.nextId]
           | some lst => lst ++ [ch.nextId])).nodes ++
          [(ch.nextId,
            { prev := none, next := none, subscription := { fn := fn, context := c, id := hashFn fn },
              priority := p })],
        nextId := ch.nextId + 1 } p = matrixGet ch p := by
      unfold matrixGet
      simp [mapSet_priorityMatrix]
    rw [hmg]
    cases hm : matrixGet ch p with
    | none => simp
    | some head =>
      simp only
      congr 1
      unfold updateNode subscribeSurgery
      simp [mapSet_nodes]

/-- Fields of `subscribeResult` other than the list structures. -/
theorem subscribeResult_frame (ch : Channel) (fn : Fn) (p c : Nat) :
    (subscribeResult ch fn p c).commandMask = ch.commandMask ∧
    (subscribeResult ch fn p c).callingNode = ch.callingNode ∧
    (subscribeResult ch fn p c).pending = ch.pending ∧
    (subscribeResult ch fn p c).nspace = ch.nspace ∧
    (subscribeResult ch fn p c).nextId = ch.nextId + 1 := by
  unfold subscribeResult
  cases matrixGet ch p <;> simp

/-- The heap of `subscribeResult`, by branch. -/
theorem subscribeResult_nodes (ch : Channel) (fn : Fn) (p c : Nat) :
    (subscribeResult ch fn p c).nodes =
      (match matrixGet ch p with
       | none => ch.nodes ++ [(ch.nextId,
           { prev := none, next := none, subscription := Subscription.make fn c,
             priority := p })]
       | some head =>
         subscribeSurgery ch.nodes ch.nextId
           (findLast { mapSet ch (hashFn fn)
              (match mapLookup ch (hashFn fn) with
               | none => [ch.nextId]
               | some lst => lst ++ [ch.nextId]) with
              nodes := (mapSet ch (hashFn fn)
                (match mapLookup ch (hashFn fn) with
                 | none => [ch.nextId]
                 | some lst => lst ++ [ch.nextId])).nodes ++
                [(ch.nextId,
                  { prev := none, next := none, subscription := Subscription.make fn c,
                    priority := p })],
              nextId := ch.nextId + 1 } (ch.nodes.length + 1) head)
           { prev := none, next := none, subscription := Subscription.make fn c,
             priority := p }) := by
  unfold subscribeResult
  cases hm : matrixGet ch p with
  | none => simp [mapSet_nodes]
  | some head =>
    simp only
    congr 2
    simp [mapSet_nodes]

/-- `findLast` only reads the heap. -/
theorem findLast_congr (ch ch2 : Channel) (h : ch2.nodes = ch.nodes) :
    ∀ (fuel cur : Nat), findLast ch2 fuel cur = findLast ch fuel cur := by
  intro fuel
  induction fuel with
  | zero => intro cur; rfl
  | succ fuel ih =>
    intro cur
    rw [findLast, findLast]
    unfold lookupNode
    rw [h]
    cases findNd ch.nodes cur with
    | none => rfl
    | some nd =>
      simp only
      cases nd.next with
      | none => rfl
      | some nxt => exact ih nxt

/-- Entries of an update that don't carry the updated key are original. -/
theorem mem_updNd_ne (nodes : List (Nat × DLLNode)) (n : Nat) (f : DLLNode → DLLNode)
    (e : Nat × DLLNode) (he : e ∈ updNd nodes n f) (hk : e.1 ≠ n) : e ∈ nodes := by
  rcases mem_updNd nodes n f e he with ⟨h1, -⟩ | ⟨v, -, h2⟩
  · exact h1
  · exfalso
    apply hk
    rw [h2]

/-- `Rep` is preserved by a successful subscribe: the fresh node id is
appended to the bucket of its (clamped) priority. -/
theorem rep_subscribeResult (ch : Channel) (B : List (List Nat)) (fn : Fn) (p c : Nat)
    (hrep : Rep ch B) (hp : p ≤ 4) :
    Rep (subscribeResult ch fn p c) (B.set p (B.getD p [] ++ [ch.nextId])) := by
  have hpB : p < B.length := by rw [hrep.lenB]; omega
  have hfrnot : ch.nextId ∉ B.flatten := by
    intro h
    exact absurd (rep_flatten_lt ch B hrep ch.nextId h) (lt_irrefl _)
  have hnone := rep_fresh_none ch B hrep
  have hgetD : ∀ q, (B.set p (B.getD p [] ++ [ch.nextId])).getD q [] =
      if q = p then B.getD p [] ++ [ch.nextId] else B.getD q [] :=
    fun q => getD_set_bucket (B.getD p [] ++ [ch.nextId]) B p q hpB
  have hfr2 : ∀ y ∈ B.flatten, y ≠ ch.nextId := by
    intro y hy h
    rw [h] at hy
    exact hfrnot hy
  cases hm : matrixGet ch p with
  | none =>
    have hBpnil : B.getD p [] = [] := by
      have hch := hrep.chains p (by omega)
      rw [hm] at hch
      exact chain_nil ch.nodes none (B.getD p []) hch
    have hnodes : (subscribeResult ch fn p c).nodes = ch.nodes ++ [(ch.nextId,
        { prev := none, next := none, subscription := Subscription.make fn c,
          priority := p })] := by
      rw [subscribeResult_nodes, hm]
    have hmat : ∀ q, matrixGet (subscribeResult ch fn p c) q =
        if q = p then some ch.nextId else matrixGet ch q := by
      intro q
      unfold subscribeResult
      rw [hm]
      simp only
      rw [matrixGet_matrixSet]
      unfold matrixGet
      simp [mapSet_priorityMatrix]
    have hnextId : (subscribeResult ch fn p c).nextId = ch.nextId + 1 :=
      (subscribeResult_frame ch fn p c).2.2.2.2
    have hfind2 : ∀ y, y ≠ ch.nextId →
        findNd (subscribeResult ch fn p c).nodes y = findNd ch.nodes y := by
      intro y hy
      rw [hnodes]
      exact findNd_append_ne ch.nodes ch.nextId _ y hy
    have hfindNew : findNd (subscribeResult ch fn p c).nodes ch.nextId = some
        { prev := none, next := none, subscription := Subscription.make fn c,
          priority := p } := by
      rw [hnodes]
      exact findNd_append_self ch.nodes ch.nextId _ hnone
    refine ⟨?_, ?_, ?_, ?_, ?_, ?_, ?_, ?_, ?_, ?_, ?_⟩
    · rw [List.length_set]; exact hrep.lenB
    · unfold subscribeResult
      rw [hm]
      simp only [matrixSet]
      rw [listSetPad_length]
      have h2 : (mapSet ch (hashFn fn)
          (match mapLookup ch (hashFn fn) with
           | none => [ch.nextId]
           | some lst => lst ++ [ch.nextId])).priorityMatrix.length =
          ch.priorityMatrix.length := by rw [mapSet_priorityMatrix]
      simp only [Subscription.make]
      rw [h2]
      have := hrep.lenM
      omega
    · intro q hq
      rw [hmat q, hgetD q]
      by_cases hqp : q = p
      · subst hqp
        rw [if_pos rfl, if_pos rfl, hBpnil]
        simp only [List.nil_append]
        rw [chainOKb, Bool.and_eq_true_iff]
        refine ⟨by simp, ?_⟩
        rw [hfindNew, Bool.and_eq_true_iff]
        refine ⟨by simp, ?_⟩
        rw [chainOKb]
        simp
      · rw [if_neg hqp, if_neg hqp]
        rw [chain_congr ch.nodes (subscribeResult ch fn p c).nodes (B.getD q []) none
          (matrixGet ch q)]
        · exact hrep.chains q hq
        · intro y hy
          exact hfind2 y (hfr2 y (mem_getD_flatten y B q hy))
    · exact nodup_set_append B p ch.nextId hrep.nodup hfrnot hpB
    · intro e he
      rw [hnodes] at he
      rw [hnextId]
      rcases List.mem_append.mp he with h | h
      · have := hrep.fresh e h
        omega
      · simp only [List.mem_singleton] at h
        rw [h]
        simp
    · intro e he
      rw [hnodes] at he
      rcases List.mem_append.mp he with h | h
      · rcases hrep.cover e h with h2 | h2
        · exact Or.inl (mem_flatten_set_append e.1 ch.nextId B p hpB h2)
        · exact Or.inr h2
      · simp only [List.mem_singleton] at h
        rw [h]
        exact Or.inl (fr_mem_flatten_set_append ch.nextId B p hpB)
    · intro q hq n hn
      rw [hgetD q] at hn
      by_cases hqp : q = p
      · subst hqp
        rw [if_pos rfl, hBpnil] at hn
        simp only [List.nil_append, List.mem_singleton] at hn
        subst hn
        rw [hfindNew]
        simp
      · rw [if_neg hqp] at hn
        rw [hfind2 n (hfr2 n (mem_getD_flatten n B q hn))]
        exact hrep.prio q hq n hn
    · intro e he n hn
      have hmap : (subscribeResult ch fn p c).fnHashMap =
          (mapSet ch (hashFn fn)
            (match mapLookup ch (hashFn fn) with
             | none => [ch.nextId]
             | some lst => lst ++ [ch.nextId])).fnHashMap := by
        unfold subscribeResult
        rw [hm]
        simp [Subscription.make]
      rw [hmap] at he
      rcases mem_mapSet ch _ _ e he with h | h
      · exact mem_flatten_set_append n ch.nextId B p hpB (hrep.mapOK e h n hn)
      · rw [h] at hn
        cases hml : mapLookup ch (hashFn fn) with
        | none =>
          rw [hml] at hn
          simp only [List.mem_singleton] at hn
          rw [hn]
          exact fr_mem_flatten_set_append ch.nextId B p hpB
        | some lst =>
          rw [hml] at hn
          rcases List.mem_append.mp hn with h2 | h2
          · exact mem_flatten_set_append n ch.nextId B p hpB
              (hrep.mapOK (hashFn fn, lst) (mapLookup_mem ch _ lst hml) n h2)
          · simp only [List.mem_singleton] at h2
            rw [h2]
            exact fr_mem_flatten_set_append ch.nextId B p hpB
    · rw [hnodes]
      rw [List.map_append]
      refine List.Nodup.append hrep.keys (by simp) ?_
      intro a ha hb
      simp only [List.map_cons, List.map_nil, List.mem_singleton] at hb
      subst hb
      obtain ⟨e0, he0, hfe⟩ := List.mem_map.mp ha
      have := hrep.fresh e0 he0
      omega
    · intro e he
      have hmap : (subscribeResult ch fn p c).fnHashMap =
          (mapSet ch (hashFn fn)
            (match mapLookup ch (hashFn fn) with
             | none => [ch.nextId]
             | some lst => lst ++ [ch.nextId])).fnHashMap := by
        unfold subscribeResult
        rw [hm]
        simp [Subscription.make]
      rw [hmap] at he
      rcases mem_mapSet2 ch _ _ e he with ⟨hold, -⟩ | heq
      · exact hrep.mapNodup e hold
      · rw [heq]
        simp only
        cases hml : mapLookup ch (hashFn fn) with
        | none => simp
        | some lst =>
          have hentry := mapLookup_mem ch _ lst hml
          refine List.Nodup.append (hrep.mapNodup _ hentry) (by simp) ?_
          intro a ha hb
          simp only [List.mem_singleton] at hb
          subst hb
          exact hfrnot (hrep.mapOK _ hentry _ ha)
    · intro e he n hn nd hnd
      have hmap : (subscribeResult ch fn p c).fnHashMap =
          (mapSet ch (hashFn fn)
            (match mapLookup ch (hashFn fn) with
             | none => [ch.nextId]
             | some lst => lst ++ [ch.nextId])).fnHashMap := by
        unfold subscribeResult
        rw [hm]
        simp [Subscription.make]
      rw [hmap] at he
      rcases mem_mapSet2 ch _ _ e he with ⟨hold, -⟩ | heq
      · have hnfl : n ∈ B.flatten := hrep.mapOK e hold n hn
        rw [hfind2 n (hfr2 n hnfl)] at hnd
        exact hrep.mapId e hold n hn nd hnd
      · subst heq
        simp only at hn ⊢
        cases hml : mapLookup ch (hashFn fn) with
        | none =>
          rw [hml] at hn
          simp only [List.mem_singleton] at hn
          subst hn
          rw [hfindNew] at hnd
          obtain rfl := Option.some.inj hnd
          rfl
        | some lst =>
          rw [hml] at hn
          rcases List.mem_append.mp hn with h2 | h2
          · have hentry := mapLookup_mem ch _ lst hml
            have hnfl : n ∈ B.flatten := hrep.mapOK _ hentry n h2
            rw [hfind2 n (hfr2 n hnfl)] at hnd
            exact hrep.mapId _ hentry n h2 nd hnd
          · simp only [List.mem_singleton] at h2
            subst h2
            rw [hfindNew] at hnd
            obtain rfl := Option.some.inj hnd
            rfl
  | some head =>
    have hch := hrep.chains p (by omega)
    rw [hm] at hch
    obtain ⟨t, ht⟩ := chain_cons ch.nodes head none (B.getD p []) hch
    have hBpne : B.getD p [] ≠ [] := by rw [ht]; simp
    have hBpnodup : (B.getD p []).Nodup := (getD_sublist_flatten B p).nodup hrep.nodup
    have hBplen : (B.getD p []).length ≤ ch.nodes.length :=
      le_trans (getD_sublist_flatten B p).length_le (rep_flatten_length ch B hrep)
    have hlastBp : (B.getD p []).getLast hBpne ∈ B.getD p [] := List.getLast_mem hBpne
    have hlastFl : (B.getD p []).getLast hBpne ∈ B.flatten := mem_getD_flatten _ B p hlastBp
    have hlastlt : (B.getD p []).getLast hBpne < ch.nextId := rep_flatten_lt ch B hrep _ hlastFl
    have hchain2 : chainOKb (ch.nodes ++ [(ch.nextId,
        { prev := none, next := none, subscription := Subscription.make fn c,
          priority := p })]) none (some head) (B.getD p []) = true := by
      rw [chain_congr ch.nodes _ (B.getD p []) none (some head)]
      · exact hch
      · intro y hy
        exact findNd_append_ne ch.nodes ch.nextId _ y
          (hfr2 y (mem_getD_flatten y B p hy))
    have hlast : findLast { mapSet ch (hashFn fn)
        (match mapLookup ch (hashFn fn) with
         | none => [ch.nextId]
         | some lst => lst ++ [ch.nextId]) with
        nodes := (mapSet ch (hashFn fn)
          (match mapLookup ch (hashFn fn) with
           | none => [ch.nextId]
           | some lst => lst ++ [ch.nextId])).nodes ++
          [(ch.nextId,
            { prev := none, next := none, subscription := Subscription.make fn c,
              priority := p })],
        nextId := ch.nextId + 1 } (ch.nodes.length + 1) head =
        (B.getD p []).getLast hBpne := by
      have hW : ({ mapSet ch (hashFn fn)
          (match mapLookup ch (hashFn fn) with
           | none => [ch.nextId]
           | some lst => lst ++ [ch.nextId]) with
          nodes := (mapSet ch (hashFn fn)
            (match mapLookup ch (hashFn fn) with
             | none => [ch.nextId]
             | some lst => lst ++ [ch.nextId])).nodes ++
            [(ch.nextId,
              { prev := none, next := none, subscription := Subscription.make fn c,
                priority := p })],
          nextId := ch.nextId + 1 } : Channel).nodes = ch.nodes ++ [(ch.nextId,
            { prev := none, next := none, subscription := Subscription.make fn c,
              priority := p })] := by
        simp [mapSet_nodes]
      rw [ht] at hchain2
      have hgl : (head :: t).getLast (by simp) = (B.getD p []).getLast hBpne := by
        have h1 := List.getLast?_eq_getLast (B.getD p []) hBpne
        have h2 : (B.getD p []).getLast? = some ((head :: t).getLast (by simp)) := by
          rw [ht]
          exact List.getLast?_eq_getLast _ _
        exact Option.some.inj (h2.symm.trans h1)
      rw [← hgl]
      have := findLast_chain { mapSet ch (hashFn fn)
          (match mapLookup ch (hashFn fn) with
           | none => [ch.nextId]
           | some lst => lst ++ [ch.nextId]) with
          nodes := (mapSet ch (hashFn fn)
            (match mapLookup ch (hashFn fn) with
             | none => [ch.nextId]
             | some lst => lst ++ [ch.nextId])).nodes ++
            [(ch.nextId,
              { prev := none, next := none, subscription := Subscription.make fn c,
                priority := p })],
          nextId := ch.nextId + 1 } t none head (by simp) (ch.nodes.length + 1)
        (by rw [hW]; exact hchain2)
        (by rw [ht] at hBplen; simp only [List.length_cons] at hBplen; omega)
      rw [this]
    have hnodes : (subscribeResult ch fn p c).nodes =
        subscribeSurgery ch.nodes ch.nextId ((B.getD p []).getLast hBpne)
          { prev := none, next := none, subscription := Subscription.make fn c,
            priority := p } := by
      rw [subscribeResult_nodes, hm]
      simp only
      rw [hlast]
    have hmat : ∀ q, matrixGet (subscribeResult ch fn p c) q = matrixGet ch q := by
      intro q
      unfold subscribeResult
      rw [hm]
      simp only
      unfold matrixGet
      simp [mapSet_priorityMatrix]
    have hnextId : (subscribeResult ch fn p c).nextId = ch.nextId + 1 :=
      (subscribeResult_frame ch fn p c).2.2.2.2
    have hlastne : (B.getD p []).getLast hBpne ≠ ch.nextId := by omega
    have hfindOther : ∀ y, y ≠ ch.nextId → y ≠ (B.getD p []).getLast hBpne →
        findNd (subscribeResult ch fn p c).nodes y = findNd ch.nodes y := by
      intro y h1 h2
      rw [hnodes]
      exact findNd_subSurgery_other ch.nodes ch.nextId _ _ y h1 h2
    have hfindLastId : findNd (subscribeResult ch fn p c).nodes
        ((B.getD p []).getLast hBpne) =
        (findNd ch.nodes ((B.getD p []).getLast hBpne)).map
          (fun m => { m with next := some ch.nextId }) := by
      rw [hnodes]
      exact findNd_subSurgery_last ch.nodes ch.nextId _ _ hlastne
    have hfindNew : findNd (subscribeResult ch fn p c).nodes ch.nextId =
        some { prev := some ((B.getD p []).getLast hBpne), next := none,
               subscription := Subscription.make fn c, priority := p } := by
      rw [hnodes]
      have := findNd_subSurgery_fresh ch.nodes ch.nextId ((B.getD p []).getLast hBpne)
        { prev := none, next := none, subscription := Subscription.make fn c, priority := p }
        hnone (fun h => hlastne h.symm)
      rw [this]
    refine ⟨?_, ?_, ?_, ?_, ?_, ?_, ?_, ?_, ?_, ?_, ?_⟩
    · rw [List.length_set]; exact hrep.lenB
    · unfold subscribeResult
      rw [hm]
      simp only
      have h2 : ∀ (X : Channel), X.priorityMatrix = ch.priorityMatrix →
          X.priorityMatrix.length ≤ 5 := fun X hX => by rw [hX]; exact hrep.lenM
      simp [mapSet_priorityMatrix, hrep.lenM]
    · intro q hq
      rw [hmat q, hgetD q]
      by_cases hqp : q = p
      · subst hqp
        rw [if_pos rfl, hm]
        have hds := List.dropLast_append_getLast hBpne
        have hsurg := chain_append_surgery ch.nodes ch.nextId
          { prev := none, next := none, subscription := Subscription.make fn c, priority := q }
          hnone rfl ((B.getD q []).dropLast) ((B.getD q []).getLast hBpne) none (some head)
          (by rw [hds]; exact hch)
          (by rw [hds]; exact hBpnodup)
          (by rw [hds]; intro hmem; exact hfrnot (mem_getD_flatten _ B q hmem))
        rw [hds, ← hnodes] at hsurg
        exact hsurg
      · rw [if_neg hqp]
        rw [chain_congr ch.nodes (subscribeResult ch fn p c).nodes (B.getD q []) none
          (matrixGet ch q)]
        · exact hrep.chains q hq
        · intro y hy
          refine hfindOther y (hfr2 y (mem_getD_flatten y B q hy)) ?_
          intro h
          exact nodup_flatten_disjoint B hrep.nodup q p hqp y hy (by rw [h]; exact hlastBp)
    · exact nodup_set_append B p ch.nextId hrep.nodup hfrnot hpB
    · intro e he
      rw [hnodes] at he
      rw [hnextId]
      unfold subscribeSurgery at he
      by_cases hk1 : e.1 = ch.nextId
      · omega
      · have he2 := mem_updNd_ne _ _ _ e he hk1
        by_cases hk2 : e.1 = (B.getD p []).getLast hBpne
        · omega
        · have he3 := mem_updNd_ne _ _ _ e he2 hk2
          rcases List.mem_append.mp he3 with h | h
          · have := hrep.fresh e h
            omega
          · simp only [List.mem_singleton] at h
            rw [h] at hk1
            simp at hk1
    · intro e he
      rw [hnodes] at he
      unfold subscribeSurgery at he
      by_cases hk1 : e.1 = ch.nextId
      · rw [hk1]
        exact Or.inl (fr_mem_flatten_set_append ch.nextId B p hpB)
      · have he2 := mem_updNd_ne _ _ _ e he hk1
        by_cases hk2 : e.1 = (B.getD p []).getLast hBpne
        · rw [hk2]
          exact Or.inl (mem_flatten_set_append _ ch.nextId B p hpB hlastFl)
        · have he3 := mem_updNd_ne _ _ _ e he2 hk2
          rcases List.mem_append.mp he3 with h | h
          · rcases hrep.cover e h with h2 | h2
            · exact Or.inl (mem_flatten_set_append e.1 ch.nextId B p hpB h2)
            · exact Or.inr h2
          · simp only [List.mem_singleton] at h
            rw [h] at hk1
            simp at hk1
    · intro q hq n hn
      rw [hgetD q] at hn
      by_cases hqp : q = p
      · subst hqp
        rw [if_pos rfl] at hn
        rcases List.mem_append.mp hn with h | h
        · by_cases hl : n = (B.getD q []).getLast hBpne
          · rw [hl, hfindLastId]
            have := hrep.prio q hq n h
            rw [hl] at this
            cases hfo : findNd ch.nodes ((B.getD q []).getLast hBpne) with
            | none => simp
            | some nd0 =>
              rw [hfo] at this
              simpa using this
          · rw [hfindOther n (hfr2 n (mem_getD_flatten n B q h)) hl]
            exact hrep.prio q hq n h
        · simp only [List.mem_singleton] at h
          subst h
          rw [hfindNew]
          simp
      · rw [if_neg hqp] at hn
        have hl : n ≠ (B.getD p []).getLast hBpne := by
          intro h
          exact nodup_flatten_disjoint B hrep.nodup q p hqp n hn (by rw [h]; exact hlastBp)
        rw [hfindOther n (hfr2 n (mem_getD_flatten n B q hn)) hl]
        exact hrep.prio q hq n hn
    · intro e he n hn
      have hmap : (subscribeResult ch fn p c).fnHashMap =
          (mapSet ch (hashFn fn)
            (match mapLookup ch (hashFn fn) with
             | none => [ch.nextId]
             | some lst => lst ++ [ch.nextId])).fnHashMap := by
        unfold subscribeResult
        rw [hm]
        simp [Subscription.make]
      rw [hmap] at he
      rcases mem_mapSet ch _ _ e he with h | h
      · exact mem_flatten_set_append n ch.nextId B p hpB (hrep.mapOK e h n hn)
      · rw [h] at hn
        cases hml : mapLookup ch (hashFn fn) with
        | none =>
          rw [hml] at hn
          simp only [List.mem_singleton] at hn
          rw [hn]
          exact fr_mem_flatten_set_append ch.nextId B p hpB
        | some lst =>
          rw [hml] at hn
          rcases List.mem_append.mp hn with h2 | h2
          · exact mem_flatten_set_append n ch.nextId B p hpB
              (hrep.mapOK (hashFn fn, lst) (mapLookup_mem ch _ lst hml) n h2)
          · simp only [List.mem_singleton] at h2
            rw [h2]
            exact fr_mem_flatten_set_append ch.nextId B p hpB
    · have hkeys : (subscribeResult ch fn p c).nodes.map Prod.fst =
          (ch.nodes ++ [(ch.nextId,
            ({ prev := none, next := none, subscription := Subscription.make fn c,
               priority := p } : DLLNode))]).map Prod.fst := by
        rw [hnodes]
        unfold subscribeSurgery
        rw [keys_updNd, keys_updNd]
      rw [hkeys]
      rw [List.map_append]
      refine List.Nodup.append hrep.keys (by simp) ?_
      intro a ha hb
      simp only [List.map_cons, List.map_nil, List.mem_singleton] at hb
      subst hb
      obtain ⟨e0, he0, hfe⟩ := List.mem_map.mp ha
      have := hrep.fresh e0 he0
      omega
    · intro e he
      have hmap : (subscribeResult ch fn p c).fnHashMap =
          (mapSet ch (hashFn fn)
            (match mapLookup ch (hashFn fn) with
             | none => [ch.nextId]
             | some lst => lst ++ [ch.nextId])).fnHashMap := by
        unfold subscribeResult
        rw [hm]
        simp [Subscription.make]
      rw [hmap] at he
      rcases mem_mapSet2 ch _ _ e he with ⟨hold, -⟩ | heq
      · exact hrep.mapNodup e hold
      · rw [heq]
        simp only
        cases hml : mapLookup ch (hashFn fn) with
        | none => simp
        | some lst =>
          have hentry := mapLookup_mem ch _ lst hml
          refine List.Nodup.append (hrep.mapNodup _ hentry) (by simp) ?_
          intro a ha hb
          simp only [List.mem_singleton] at hb
          subst hb
          exact hfrnot (hrep.mapOK _ hentry _ ha)
    · have hsp : ∀ y, y ≠ ch.nextId →
          (findNd (subscribeResult ch fn p c).nodes y).map
              (fun v => (v.subscription, v.priority)) =
          (findNd ch.nodes y).map (fun v => (v.subscription, v.priority)) := by
        intro y hy
        rw [hnodes, findNd_subSurgery_sp, findNd_append_ne ch.nodes ch.nextId _ y hy]
      intro e he n hn nd hnd
      have hmap : (subscribeResult ch fn p c).fnHashMap =
          (mapSet ch (hashFn fn)
            (match mapLookup ch (hashFn fn) with
             | none => [ch.nextId]
             | some lst => lst ++ [ch.nextId])).fnHashMap := by
        unfold subscribeResult
        rw [hm]
        simp [Subscription.make]
      rw [hmap] at he
      rcases mem_mapSet2 ch _ _ e he with ⟨hold, -⟩ | heq
      · have hnfl : n ∈ B.flatten := hrep.mapOK e hold n hn
        exact subid_transfer ch.nodes (subscribeResult ch fn p c).nodes n e.1
          (hsp n (hfr2 n hnfl)) (fun nd0 h0 => hrep.mapId e hold n hn nd0 h0) nd hnd
      · subst heq
        simp only at hn ⊢
        cases hml : mapLookup ch (hashFn fn) with
        | none =>
          rw [hml] at hn
          simp only [List.mem_singleton] at hn
          subst hn
          rw [hfindNew] at hnd
          obtain rfl := Option.some.inj hnd
          rfl
        | some lst =>
          rw [hml] at hn
          rcases List.mem_append.mp hn with h2 | h2
          · have hentry := mapLookup_mem ch _ lst hml
            have hnfl : n ∈ B.flatten := hrep.mapOK _ hentry n h2
            exact subid_transfer ch.nodes (subscribeResult ch fn p c).nodes n _
              (hsp n (hfr2 n hnfl)) (fun nd0 h0 => hrep.mapId _ hentry n h2 nd0 h0) nd hnd
          · simp only [List.mem_singleton] at h2
            subst h2
            rw [hfindNew] at hnd
            obtain rfl := Option.some.inj hnd
            rfl

/-- The content read back at the fresh id after a subscribe: the new
subscription at the requested priority. -/
theorem subscribeResult_new (ch : Channel) (fn : Fn) (p c : Nat)
    (hnone : findNd ch.nodes ch.nextId = none) :
    (findNd (subscribeResult ch fn p c).nodes ch.nextId).map
      (fun v => (v.subscription, v.priority)) = some (Subscription.make fn c, p) := by
  rw [subscribeResult_nodes]
  cases hm : matrixGet ch p with
  | none =>
    simp only
    rw [findNd_append_self ch.nodes ch.nextId _ hnone]
    rfl
  | some head =>
    simp only
    rw [findNd_subSurgery_sp, findNd_append_self ch.nodes ch.nextId _ hnone]
    rfl

/-- Subscribing changes no existing node's subscription or priority. -/
theorem subscribeResult_old (ch : Channel) (fn : Fn) (p c : Nat) (y : Nat)
    (hy : y ≠ ch.nextId) :
    (findNd (subscribeResult ch fn p c).nodes y).map
      (fun v => (v.subscription, v.priority)) =
    (findNd ch.nodes y).map (fun v => (v.subscription, v.priority)) := by
  rw [subscribeResult_nodes]
  cases hm : matrixGet ch p with
  | none =>
    simp only
    rw [findNd_append_ne ch.nodes ch.nextId _ y hy]
  | some head =>
    simp only
    rw [findNd_subSurgery_sp, findNd_append_ne ch.nodes ch.nextId _ y hy]

/-- `spliceHead` keeps the key sequence. -/
theorem keys_spliceHead (nodes : List (Nat × DLLNode)) (nid : Nat) (nd : DLLNode) :
    (spliceHead nodes nid nd).map Prod.fst = nodes.map Prod.fst := by
  unfold spliceHead
  rw [keys_updNd]
  cases nd.next with
  | none => rfl
  | some nxt =>
    simp only
    rw [keys_updNd]

/-- `spliceMid` keeps the key sequence. -/
theorem keys_spliceMid (nodes : List (Nat × DLLNode)) (nid : Nat) (nd : DLLNode) (P : Nat) :
    (spliceMid nodes nid nd P).map Prod.fst = nodes.map Prod.fst := by
  unfold spliceMid
  rw [keys_updNd]
  cases nd.next with
  | none =>
    simp only
    rw [keys_updNd]
  | some nxt =>
    simp only
    rw [keys_updNd, keys_updNd, keys_updNd]

/-- Removing a chain head clears that node's forward link. -/
theorem findNd_spliceHead_self (nodes : List (Nat × DLLNode)) (nid : Nat) (nd : DLLNode)
    (hnd : findNd nodes nid = some nd)
    (hnxt : ∀ nxt, nd.next = some nxt → nid ≠ nxt) :
    findNd (spliceHead nodes nid nd) nid = some { nd with next := none } := by
  unfold spliceHead
  rw [findNd_updNd, if_pos rfl]
  cases hn : nd.next with
  | none =>
    rw [hnd]
    rfl
  | some nxt =>
    simp only
    rw [findNd_updNd, if_neg (hnxt nxt hn), hnd]
    rfl

/-- The eviction branch of `Channel.unsubscribe` componentwise: the heap
splice, the matrix head update for a head removal, the hash bucket
erasure, and an untouched allocation counter. -/
theorem unsub_evict_parts (ch : Channel) (fn : Fn) (fnArray : List Nat) (idx nid : Nat)
    (nd : DLLNode)
    (hmap : mapLookup ch (hashFn fn) = some fnArray)
    (hfm : findMatch ch fn fnArray 0 = some (idx, nid, nd))
    (hcond : (ch.callingNode == some nid && (ch.commandMask &&& SIG_INT == 0)) = false) :
    (Channel.unsubscribe ch fn).1.nodes = (match nd.prev with
       | none => spliceHead ch.nodes nid nd
       | some P => spliceMid ch.nodes nid nd P) ∧
    (Channel.unsubscribe ch fn).1.priorityMatrix = (match nd.prev with
       | none => listSetPad ch.priorityMatrix nd.priority nd.next
       | some _ => ch.priorityMatrix) ∧
    (Channel.unsubscribe ch fn).1.fnHashMap =
      (if fnArray.length ≤ 1 then (mapDelete ch (hashFn fn)).fnHashMap
       else (mapSet ch (hashFn fn) (fnArray.eraseIdx idx)).fnHashMap) ∧
    (Channel.unsubscribe ch fn).1.nextId = ch.nextId := by
  obtain ⟨ndprev, ndnext, ndsub, ndprio⟩ := nd
  unfold Channel.unsubscribe
  simp only [hmap, hfm]
  rw [if_neg (by rw [hcond]; exact Bool.false_ne_true)]
  cases ndprev with
  | none =>
    cases ndnext with
    | none =>
      refine ⟨?_, ?_, ?_, ?_⟩ <;>
        split <;>
          simp [updateNode, matrixSet, mapDelete, mapSet, spliceHead, spliceMid] <;>
            (try (split <;> simp))
    | some nxt =>
      refine ⟨?_, ?_, ?_, ?_⟩ <;>
        split <;>
          simp [updateNode, matrixSet, mapDelete, mapSet, spliceHead, spliceMid] <;>
            (try (split <;> simp))
  | some P =>
    cases ndnext with
    | none =>
      refine ⟨?_, ?_, ?_, ?_⟩ <;>
        split <;>
          simp [updateNode, matrixSet, mapDelete, mapSet, spliceHead, spliceMid] <;>
            (try (split <;> simp))
    | some nxt =>
      refine ⟨?_, ?_, ?_, ?_⟩ <;>
        split <;>
          simp [updateNode, matrixSet, mapDelete, mapSet, spliceHead, spliceMid] <;>
            (try (split <;> simp))

/-- `Channel.unsubscribe` preserves the representation invariant: the
no-op and deferring paths change no list structure, and the eviction
path removes the matched node from its bucket and hash entry. -/
theorem rep_unsubscribe (ch : Channel) (B : List (List Nat)) (fn : Fn) (hrep : Rep ch B) :
    ∃ B2, Rep (Channel.unsubscribe ch fn).1 B2 := by
  cases hmap : mapLookup ch (hashFn fn) with
  | none =>
    refine ⟨B, ?_⟩
    unfold Channel.unsubscribe
    simp only [hmap]
    exact hrep
  | some fnArray =>
    cases hfm : findMatch ch fn fnArray 0 with
    | none =>
      refine ⟨B, ?_⟩
      unfold Channel.unsubscribe
      simp only [hmap, hfm]
      exact hrep
    | some trip =>
      obtain ⟨idx, nid, nd⟩ := trip
      cases hcond : (ch.callingNode == some nid && (ch.commandMask &&& SIG_INT == 0)) with
      | true =>
        have hconj := hcond
        rw [Bool.and_eq_true_iff] at hconj
        have hcall : ch.callingNode = some nid := by simpa using hconj.1
        have hsig : ch.commandMask &&& SIG_INT = 0 := by simpa using hconj.2
        refine ⟨B, ?_⟩
        rw [unsub_defer ch fn fnArray idx nid nd hmap hfm hcall hsig]
        exact rep_frame ch _ B hrep rfl rfl rfl rfl
      | false =>
        obtain ⟨hnodesP, hmatP, hhash, hnextId2⟩ :=
          unsub_evict_parts ch fn fnArray idx nid nd hmap hfm hcond
        obtain ⟨hnd0, href, hmem⟩ := findMatch_spec ch fn fnArray 0 idx nid nd hfm
        have hnd : findNd ch.nodes nid = some nd := hnd0
        obtain ⟨-, hget⟩ := findMatch_get ch fn fnArray 0 idx nid nd hfm
        simp only [Nat.sub_zero] at hget
        have hentry : (hashFn fn, fnArray) ∈ ch.fnHashMap := mapLookup_mem ch _ fnArray hmap
        have hnidfl : nid ∈ B.flatten := hrep.mapOK _ hentry nid hmem
        obtain ⟨p0, hp0, hbk⟩ := rep_flatten_bucket B hrep.lenB nid hnidfl
        have hprio : nd.priority = p0 := by
          have h2 := hrep.prio p0 hp0 nid hbk
          rw [hnd] at h2
          simpa using h2
        obtain ⟨front, back, hsplit⟩ := List.append_of_mem hbk
        have hch0 := hrep.chains p0 hp0
        rw [hsplit] at hch0
        have hbknd : (front ++ nid :: back).Nodup := by
          rw [← hsplit]
          exact (getD_sublist_flatten B p0).nodup hrep.nodup
        have hnidfr : nid ∉ front := by
          rw [List.nodup_append] at hbknd
          intro h
          exact hbknd.2.2 h (List.mem_cons_self nid back)
        have hnidbk : nid ∉ back := by
          have h2 := hbknd
          rw [List.nodup_append, List.nodup_cons] at h2
          exact h2.2.1.1
        have hpBl : p0 < B.length := by rw [hrep.lenB]; exact hp0
        have hgetD2 : ∀ q, (B.set p0 (front ++ back)).getD q [] =
            if q = p0 then front ++ back else B.getD q [] :=
          fun q => getD_set_bucket (front ++ back) B p0 q hpBl
        have hsub2 : (front ++ back).Sublist (B.getD p0 []) := by
          rw [hsplit]
          exact List.Sublist.append_left (List.sublist_cons_self nid back) front
        have hfl2 : ∀ y ∈ front ++ back, y ∈ (B.set p0 (front ++ back)).flatten := by
          intro y hy
          refine mem_getD_flatten y _ p0 ?_
          rw [hgetD2 p0, if_pos rfl]
          exact hy
        have hkeep : ∀ y, y ∈ B.flatten → y ≠ nid →
            y ∈ (B.set p0 (front ++ back)).flatten := by
          intro y hy hne
          refine mem_flatten_set_keep y (front ++ back) B p0 hy ?_
          intro h2
          rw [hsplit] at h2
          rcases List.mem_append.mp h2 with h3 | h3
          · exact List.mem_append.mpr (Or.inl h3)
          · rcases List.mem_cons.mp h3 with h4 | h4
            · exact absurd h4 hne
            · exact List.mem_append.mpr (Or.inr h4)
        have hbmem : ∀ y, y ∈ front ++ back → y ∈ B.getD p0 [] := by
          intro y hy
          rw [hsplit]
          rcases List.mem_append.mp hy with h3 | h3
          · exact List.mem_append.mpr (Or.inl h3)
          · exact List.mem_append.mpr (Or.inr (List.mem_cons_of_mem nid h3))
        have hqne : ∀ q, q ≠ p0 → ∀ y ∈ B.getD q [], y ∉ B.getD p0 [] :=
          fun q hq y hy hmem2 => nodup_flatten_disjoint B hrep.nodup q p0 hq y hy hmem2
        have hnidnot : ∀ q, q ≠ p0 → ∀ y ∈ B.getD q [], y ≠ nid := by
          intro q hq y hy h
          rw [h] at hy
          exact hqne q hq nid hy hbk
        have hnidid : nd.subscription.id = hashFn fn := hrep.mapId _ hentry nid hmem nd hnd
        have hnodupArr : fnArray.Nodup := hrep.mapNodup _ hentry
        have hnidnotidx : nid ∉ fnArray.eraseIdx idx :=
          not_mem_eraseIdx_of_nodup fnArray idx nid hnodupArr hget
        have hnodup2 : ((B.set p0 (front ++ back)).flatten).Nodup :=
          nodup_flatten_set_sub B p0 (front ++ back) hrep.nodup hsub2
        cases hprev : nd.prev with
        | none =>
          have hfront : front = [] := by
            cases hf : front with
            | nil => rfl
            | cons f fr =>
              exfalso
              rw [hf] at hch0
              have h2 := (chain_prev_at ch.nodes nid nd hnd (f :: fr) back none
                (matrixGet ch p0) hch0).2 (by simp)
              rw [hprev] at h2
              simp at h2
          subst hfront
          have hcur : matrixGet ch p0 = some nid := by
            have h2 := (chain_prev_at ch.nodes nid nd hnd [] back none
              (matrixGet ch p0) hch0).1 rfl
            exact h2.1
          rw [hcur] at hch0
          have hnxtb : ∀ nxt, nd.next = some nxt → nxt ∈ back := by
            intro nxt hx
            have h2 := chain_next_at ch.nodes nid nd hnd [] back none (some nid) hch0
            cases back with
            | nil =>
              rw [hx] at h2
              simp at h2
            | cons b back2 =>
              rw [hx] at h2
              simp only at h2
              have h3 : nxt = b := by simpa using h2
              rw [h3]
              exact List.mem_cons_self b back2
          rw [hprev] at hnodesP hmatP
          simp only at hnodesP hmatP
          have hmatQ : ∀ q, matrixGet (Channel.unsubscribe ch fn).1 q =
              if q = p0 then nd.next else matrixGet ch q := by
            intro q
            have h2 : matrixGet (Channel.unsubscribe ch fn).1 q =
                matrixGet (matrixSet ch nd.priority nd.next) q := by
              unfold matrixGet matrixSet
              rw [hmatP]
            rw [h2, matrixGet_matrixSet, hprio]
          have hkeyseq : (Channel.unsubscribe ch fn).1.nodes.map Prod.fst =
              ch.nodes.map Prod.fst := by
            rw [hnodesP]
            exact keys_spliceHead ch.nodes nid nd
          have hspP : ∀ y, (findNd (Channel.unsubscribe ch fn).1.nodes y).map
                (fun v => (v.subscription, v.priority)) =
              (findNd ch.nodes y).map (fun v => (v.subscription, v.priority)) := by
            intro y
            rw [hnodesP]
            exact findNd_spliceHead_sp ch.nodes nid nd y
          have hothers : ∀ y, y ≠ nid → y ∉ back →
              findNd (Channel.unsubscribe ch fn).1.nodes y = findNd ch.nodes y := by
            intro y h1 h2
            rw [hnodesP]
            refine findNd_spliceHead_other ch.nodes nid nd y h1 ?_
            intro nxt hx h3
            rw [h3] at h2
            exact h2 (hnxtb nxt hx)
          refine ⟨B.set p0 ([] ++ back), ?_, ?_, ?_, ?_, ?_, ?_, ?_, ?_, ?_, ?_, ?_⟩
          · rw [List.length_set]
            exact hrep.lenB
          · rw [hmatP, listSetPad_length, hprio]
            have := hrep.lenM
            omega
          · intro q hq
            rw [hmatQ q, hgetD2 q]
            by_cases hqp : q = p0
            · subst hqp
              rw [if_pos rfl, if_pos rfl, hnodesP]
              simp only [List.nil_append]
              exact chain_splice_head ch.nodes nid nd hnd back none hch0 hbknd
            · rw [if_neg hqp, if_neg hqp]
              rw [chain_congr ch.nodes (Channel.unsubscribe ch fn).1.nodes (B.getD q [])
                none (matrixGet ch q)]
              · exact hrep.chains q hq
              · intro y hy
                refine hothers y (hnidnot q hqp y hy) ?_
                intro h3
                exact hqne q hqp y hy (hbmem y (List.mem_append.mpr (Or.inr h3)))
          · exact hnodup2
          · intro e he
            rw [hnextId2]
            exact fresh_of_keys ch.nodes _ ch.nextId hkeyseq hrep.fresh e he
          · intro e he
            have hkeys2 : ((Channel.unsubscribe ch fn).1.nodes.map Prod.fst).Nodup := by
              rw [hkeyseq]
              exact hrep.keys
            have hfe : findNd (Channel.unsubscribe ch fn).1.nodes e.1 = some e.2 :=
              mem_findNd_of_keys _ hkeys2 e he
            by_cases h1 : e.1 = nid
            · right
              have hself : findNd (Channel.unsubscribe ch fn).1.nodes nid =
                  some { nd with next := none } := by
                rw [hnodesP]
                refine findNd_spliceHead_self ch.nodes nid nd hnd ?_
                intro nxt hx h3
                exact hnidbk (h3 ▸ hnxtb nxt hx)
              rw [h1, hself] at hfe
              have he2 : e.2 = { nd with next := none } := (Option.some.inj hfe).symm
              exact ⟨by rw [he2]; exact hprev, by rw [he2]⟩
            · by_cases h2 : e.1 ∈ back
              · left
                exact hfl2 e.1 (List.mem_append.mpr (Or.inr h2))
              · have hfe2 : findNd ch.nodes e.1 = some e.2 := by
                  rw [← hothers e.1 h1 h2]
                  exact hfe
                have hmem2 : (e.1, e.2) ∈ ch.nodes := findNd_some_mem _ _ _ hfe2
                rcases hrep.cover (e.1, e.2) hmem2 with h3 | h3
                · left
                  exact hkeep e.1 h3 h1
                · right
                  exact h3
          · intro q hq n hn
            rw [hgetD2 q] at hn
            have hnold : n ∈ B.getD q [] := by
              by_cases hqp : q = p0
              · rw [if_pos hqp] at hn
                rw [hqp]
                exact hbmem n hn
              · rw [if_neg hqp] at hn
                exact hn
            exact prio_transfer ch.nodes (Channel.unsubscribe ch fn).1.nodes n q (hspP n)
              (hrep.prio q hq n hnold)
          · intro e he n hn
            rw [hhash] at he
            by_cases hlen : fnArray.length ≤ 1
            · rw [if_pos hlen] at he
              obtain ⟨hold, hkey⟩ := mem_mapDelete ch _ e he
              have hfl : n ∈ B.flatten := hrep.mapOK e hold n hn
              have hne : n ≠ nid := by
                intro h3
                rw [h3] at hn
                have h4 := hrep.mapId e hold nid hn nd hnd
                rw [hnidid] at h4
                exact hkey h4.symm
              exact hkeep n hfl hne
            · rw [if_neg hlen] at he
              rcases mem_mapSet2 ch _ _ e he with ⟨hold, hkey⟩ | heq
              · have hfl : n ∈ B.flatten := hrep.mapOK e hold n hn
                have hne : n ≠ nid := by
                  intro h3
                  rw [h3] at hn
                  have h4 := hrep.mapId e hold nid hn nd hnd
                  rw [hnidid] at h4
                  exact hkey h4.symm
                exact hkeep n hfl hne
              · subst heq
                simp only at hn
                have hinArr : n ∈ fnArray := (List.eraseIdx_sublist fnArray idx).subset hn
                have hfl : n ∈ B.flatten := hrep.mapOK _ hentry n hinArr
                have hne : n ≠ nid := fun h3 => hnidnotidx (h3 ▸ hn)
                exact hkeep n hfl hne
          · rw [hkeyseq]
            exact hrep.keys
          · intro e he
            rw [hhash] at he
            by_cases hlen : fnArray.length ≤ 1
            · rw [if_pos hlen] at he
              exact hrep.mapNodup e (mem_mapDelete ch _ e he).1
            · rw [if_neg hlen] at he
              rcases mem_mapSet2 ch _ _ e he with ⟨hold, -⟩ | heq
              · exact hrep.mapNodup e hold
              · rw [heq]
                exact (List.eraseIdx_sublist fnArray idx).nodup hnodupArr
          · intro e he n hn nd2 hnd2
            rw [hhash] at he
            by_cases hlen : fnArray.length ≤ 1
            · rw [if_pos hlen] at he
              obtain ⟨hold, -⟩ := mem_mapDelete ch _ e he
              exact subid_transfer ch.nodes (Channel.unsubscribe ch fn).1.nodes n e.1
                (hspP n) (fun nd0 h0 => hrep.mapId e hold n hn nd0 h0) nd2 hnd2
            · rw [if_neg hlen] at he
              rcases mem_mapSet2 ch _ _ e he with ⟨hold, -⟩ | heq
              · exact subid_transfer ch.nodes (Channel.unsubscribe ch fn).1.nodes n e.1
                  (hspP n) (fun nd0 h0 => hrep.mapId e hold n hn nd0 h0) nd2 hnd2
              · subst heq
                simp only at hn ⊢
                have hinArr : n ∈ fnArray := (List.eraseIdx_sublist fnArray idx).subset hn
                exact subid_transfer ch.nodes (Channel.unsubscribe ch fn).1.nodes n _
                  (hspP n) (fun nd0 h0 => hrep.mapId _ hentry n hinArr nd0 h0) nd2 hnd2
        | some P =>
          have hfne : front ≠ [] := by
            intro h
            rw [h] at hch0
            have h2 := (chain_prev_at ch.nodes nid nd hnd [] back none
              (matrixGet ch p0) hch0).1 rfl
            rw [hprev] at h2
            simp at h2
          have hP2 : P = front.getLast hfne := by
            have h2 := (chain_prev_at ch.nodes nid nd hnd front back none
              (matrixGet ch p0) hch0).2 hfne
            rw [hprev] at h2
            simpa using h2
          have hPfront : P ∈ front := by
            rw [hP2]
            exact List.getLast_mem hfne
          have hnxtb : ∀ nxt, nd.next = some nxt → nxt ∈ back := by
            intro nxt hx
            have h2 := chain_next_at ch.nodes nid nd hnd front back none
              (matrixGet ch p0) hch0
            cases back with
            | nil =>
              rw [hx] at h2
              simp at h2
            | cons b back2 =>
              rw [hx] at h2
              simp only at h2
              have h3 : nxt = b := by simpa using h2
              rw [h3]
              exact List.mem_cons_self b back2
          rw [hprev] at hnodesP hmatP
          simp only at hnodesP hmatP
          have hmatQ : ∀ q, matrixGet (Channel.unsubscribe ch fn).1 q = matrixGet ch q := by
            intro q
            unfold matrixGet
            rw [hmatP]
          have hkeyseq : (Channel.unsubscribe ch fn).1.nodes.map Prod.fst =
              ch.nodes.map Prod.fst := by
            rw [hnodesP]
            exact keys_spliceMid ch.nodes nid nd P
          have hspP : ∀ y, (findNd (Channel.unsubscribe ch fn).1.nodes y).map
                (fun v => (v.subscription, v.priority)) =
              (findNd ch.nodes y).map (fun v => (v.subscription, v.priority)) := by
            intro y
            rw [hnodesP]
            exact findNd_spliceMid_sp ch.nodes nid nd P y
          have hothers : ∀ y, y ≠ nid → y ≠ P → y ∉ back →
              findNd (Channel.unsubscribe ch fn).1.nodes y = findNd ch.nodes y := by
            intro y h1 hp2 h2
            rw [hnodesP]
            refine findNd_spliceMid_other ch.nodes nid nd P y h1 hp2 ?_
            intro nxt hx h3
            rw [h3] at h2
            exact h2 (hnxtb nxt hx)
          refine ⟨B.set p0 (front ++ back), ?_, ?_, ?_, ?_, ?_, ?_, ?_, ?_, ?_, ?_, ?_⟩
          · rw [List.length_set]
            exact hrep.lenB
          · rw [hmatP]
            exact hrep.lenM
          · intro q hq
            rw [hmatQ q, hgetD2 q]
            by_cases hqp : q = p0
            · subst hqp
              rw [if_pos rfl, hnodesP]
              exact chain_splice_mid ch.nodes nid nd P hnd hprev front back none
                (matrixGet ch q) hfne hch0 hbknd
            · rw [if_neg hqp]
              rw [chain_congr ch.nodes (Channel.unsubscribe ch fn).1.nodes (B.getD q [])
                none (matrixGet ch q)]
              · exact hrep.chains q hq
              · intro y hy
                refine hothers y (hnidnot q hqp y hy) ?_ ?_
                · intro h3
                  exact hqne q hqp y hy (hbmem y (List.mem_append.mpr (Or.inl (h3 ▸ hPfront))))
                · intro h3
                  exact hqne q hqp y hy (hbmem y (List.mem_append.mpr (Or.inr h3)))
          · exact hnodup2
          · intro e he
            rw [hnextId2]
            exact fresh_of_keys ch.nodes _ ch.nextId hkeyseq hrep.fresh e he
          · intro e he
            have hkeys2 : ((Channel.unsubscribe ch fn).1.nodes.map Prod.fst).Nodup := by
              rw [hkeyseq]
              exact hrep.keys
            have hfe : findNd (Channel.unsubscribe ch fn).1.nodes e.1 = some e.2 :=
              mem_findNd_of_keys _ hkeys2 e he
            by_cases h1 : e.1 = nid
            · right
              have hself : findNd (Channel.unsubscribe ch fn).1.nodes nid =
                  some { nd with prev := none, next := none } := by
                rw [hnodesP]
                refine findNd_spliceMid_self ch.nodes nid nd P hnd ?_ ?_
                · intro h3
                  exact hnidfr (h3 ▸ hPfront)
                · intro nxt hx h3
                  exact hnidbk (h3 ▸ hnxtb nxt hx)
              rw [h1, hself] at hfe
              have he2 : e.2 = { nd with prev := none, next := none } :=
                (Option.some.inj hfe).symm
              exact ⟨by rw [he2], by rw [he2]⟩
            · by_cases h2 : e.1 ∈ front ++ back
              · left
                exact hfl2 e.1 h2
              · have hfe2 : findNd ch.nodes e.1 = some e.2 := by
                  rw [← hothers e.1 h1 (fun h3 => h2 (List.mem_append.mpr
                    (Or.inl (h3 ▸ hPfront)))) (fun h3 => h2 (List.mem_append.mpr (Or.inr h3)))]
                  exact hfe
                have hmem2 : (e.1, e.2) ∈ ch.nodes := findNd_some_mem _ _ _ hfe2
                rcases hrep.cover (e.1, e.2) hmem2 with h3 | h3
                · left
                  exact hkeep e.1 h3 h1
                · right
                  exact h3
          · intro q hq n hn
            rw [hgetD2 q] at hn
            have hnold : n ∈ B.getD q [] := by
              by_cases hqp : q = p0
              · rw [if_pos hqp] at hn
                rw [hqp]
                exact hbmem n hn
              · rw [if_neg hqp] at hn
                exact hn
            exact prio_transfer ch.nodes (Channel.unsubscribe ch fn).1.nodes n q (hspP n)
              (hrep.prio q hq n hnold)
          · intro e he n hn
            rw [hhash] at he
            by_cases hlen : fnArray.length ≤ 1
            · rw [if_pos hlen] at he
              obtain ⟨hold, hkey⟩ := mem_mapDelete ch _ e he
              have hfl : n ∈ B.flatten := hrep.mapOK e hold n hn
              have hne : n ≠ nid := by
                intro h3
                rw [h3] at hn
                have h4 := hrep.mapId e hold nid hn nd hnd
                rw [hnidid] at h4
                exact hkey h4.symm
              exact hkeep n hfl hne
            · rw [if_neg hlen] at he
              rcases mem_mapSet2 ch _ _ e he with ⟨hold, hkey⟩ | heq
              · have hfl : n ∈ B.flatten := hrep.mapOK e hold n hn
                have hne : n ≠ nid := by
                  intro h3
                  rw [h3] at hn
                  have h4 := hrep.mapId e hold nid hn nd hnd
                  rw [hnidid] at h4
                  exact hkey h4.symm
                exact hkeep n hfl hne
              · subst heq
                simp only at hn
                have hinArr : n ∈ fnArray := (List.eraseIdx_sublist fnArray idx).subset hn
                have hfl : n ∈ B.flatten := hrep.mapOK _ hentry n hinArr
                have hne : n ≠ nid := fun h3 => hnidnotidx (h3 ▸ hn)
                exact hkeep n hfl hne
          · rw [hkeyseq]
            exact hrep.keys
          · intro e he
            rw [hhash] at he
            by_cases hlen : fnArray.length ≤ 1
            · rw [if_pos hlen] at he
              exact hrep.mapNodup e (mem_mapDelete ch _ e he).1
            · rw [if_neg hlen] at he
              rcases mem_mapSet2 ch _ _ e he with ⟨hold, -⟩ | heq
              · exact hrep.mapNodup e hold
              · rw [heq]
                exact (List.eraseIdx_sublist fnArray idx).nodup hnodupArr
          · intro e he n hn nd2 hnd2
            rw [hhash] at he
            by_cases hlen : fnArray.length ≤ 1
            · rw [if_pos hlen] at he
              obtain ⟨hold, -⟩ := mem_mapDelete ch _ e he
              exact subid_transfer ch.nodes (Channel.unsubscribe ch fn).1.nodes n e.1
                (hspP n) (fun nd0 h0 => hrep.mapId e hold n hn nd0 h0) nd2 hnd2
            · rw [if_neg hlen] at he
              rcases mem_mapSet2 ch _ _ e he with ⟨hold, -⟩ | heq
              · exact subid_transfer ch.nodes (Channel.unsubscribe ch fn).1.nodes n e.1
                  (hspP n) (fun nd0 h0 => hrep.mapId e hold n hn nd0 h0) nd2 hnd2
              · subst heq
                simp only at hn ⊢
                have hinArr : n ∈ fnArray := (List.eraseIdx_sublist fnArray idx).subset hn
                exact subid_transfer ch.nodes (Channel.unsubscribe ch fn).1.nodes n _
                  (hspP n) (fun nd0 h0 => hrep.mapId _ hentry n hinArr nd0 h0) nd2 hnd2

/-- All four mutually recursive runtime functions preserve the
representation invariant, whatever the handlers do. -/
theorem rep_exec (env : HandlerEnv) : ∀ fuel : Nat,
    (∀ ch args B, Rep ch B → ∃ B2, Rep (Channel.publish env fuel ch args).1 B2) ∧
    (∀ ch args idx B, Rep ch B → ∃ B2, Rep (pubBuckets env fuel ch args idx).1 B2) ∧
    (∀ ch args cur B, Rep ch B → ∃ B2, Rep (pubChain env fuel ch args cur).1 B2) ∧
    (∀ ch cmds B, Rep ch B → ∃ B2, Rep (runCmds env fuel ch cmds).1 B2) := by
  intro fuel
  induction fuel with
  | zero =>
    refine ⟨?_, ?_, ?_, ?_⟩
    · intro ch args B hrep
      rw [Channel.publish.eq_def]
      split
      · exact ⟨B, rep_frame ch _ B hrep rfl rfl rfl rfl⟩
      · exact ⟨B, hrep⟩
    · intro ch args idx B hrep
      rw [pubBuckets.eq_def]
      split
      · exact ⟨B, hrep⟩
      · exact ⟨B, rep_frame ch _ B hrep rfl rfl rfl rfl⟩
    · intro ch args cur B hrep
      rw [pubChain.eq_def]
      cases cur with
      | none => exact ⟨B, hrep⟩
      | some nid =>
        simp only
        split
        · exact ⟨B, rep_frame ch _ B hrep rfl rfl rfl rfl⟩
        · exact ⟨B, hrep⟩
    · intro ch cmds B hrep
      rw [runCmds.eq_def]
      exact ⟨B, hrep⟩
  | succ fuel ih =>
    obtain ⟨ihp, ihb, ihc, ihr⟩ := ih
    refine ⟨?_, ?_, ?_, ?_⟩
    · intro ch args B hrep
      rw [Channel.publish.eq_def]
      split
      · exact ⟨B, rep_frame ch _ B hrep rfl rfl rfl rfl⟩
      · exact ihb _ args 0 B (rep_frame ch _ B hrep rfl rfl rfl rfl)
    · intro ch args idx B hrep
      rw [pubBuckets.eq_def]
      split
      · simp only []
        obtain ⟨B1, h1⟩ := ihc ch args (matrixGet ch idx) B hrep
        cases hpc : pubChain env fuel ch args (matrixGet ch idx) with
        | mk ch1 r2 =>
          obtain ⟨evs, ab⟩ := r2
          rw [hpc] at h1
          cases ab with
          | true => exact ⟨B1, h1⟩
          | false => exact ihb ch1 args (idx + 1) B1 h1
      · exact ⟨B, rep_frame ch _ B hrep rfl rfl rfl rfl⟩
    · intro ch args cur B hrep
      rw [pubChain.eq_def]
      cases cur with
      | none => exact ⟨B, hrep⟩
      | some nid =>
        simp only
        split
        · exact ⟨B, rep_frame ch _ B hrep rfl rfl rfl rfl⟩
        · cases hlk : lookupNode ch nid with
          | none => exact ⟨B, hrep⟩
          | some nd =>
            simp only
            obtain ⟨B1, h1⟩ := ihr { ch with callingNode := some nid }
              (env nd.subscription.fn.ref) B (rep_frame ch _ B hrep rfl rfl rfl rfl)
            obtain ⟨B2, h2⟩ := ihc
              { (runCmds env fuel { ch with callingNode := some nid }
                  (env nd.subscription.fn.ref)).1 with callingNode := none } args
              (match lookupNode { (runCmds env fuel { ch with callingNode := some nid }
                  (env nd.subscription.fn.ref)).1 with callingNode := none } nid with
               | some nd2 => nd2.next
               | none => none) B1 (rep_frame _ _ B1 h1 rfl rfl rfl rfl)
            exact ⟨B2, h2⟩
    · intro ch cmds B hrep
      rw [runCmds.eq_def]
      cases cmds with
      | nil => exact ⟨B, hrep⟩
      | cons c rest =>
        cases c with
        | hthrow e => exact ⟨B, hrep⟩
        | hinterrupt =>
          exact ihr (Channel.interrupt ch) rest B (rep_frame ch _ B hrep rfl rfl rfl rfl)
        | hsubscribe f p cx =>
          simp only
          rw [subscribe_char]
          by_cases hdup : subscribeDup ch f = true
          · rw [if_pos hdup]
            exact ⟨B, hrep⟩
          · rw [if_neg hdup]
            exact ihr _ rest _ (rep_subscribeResult ch B f (min p 4) cx hrep (by omega))
        | hunsubscribe f =>
          simp only
          obtain ⟨B1, h1⟩ := rep_unsubscribe ch B f hrep
          exact ihr _ rest B1 h1
        | hpublish pargs =>
          simp only
          obtain ⟨B1, h1⟩ := ihp ch pargs B hrep
          exact ihr _ rest B1 h1

/-- A decidable reformulation suffices for the hash-id field of `Rep`. -/
theorem mapId_of_decide (ch : Channel)
    (h : ∀ e ∈ ch.fnHashMap, ∀ n ∈ e.2,
      (match findNd ch.nodes n with
       | some nd => nd.subscription.id == e.1
       | none => true) = true) :
    ∀ e ∈ ch.fnHashMap, ∀ n ∈ e.2, ∀ nd, findNd ch.nodes n = some nd →
      nd.subscription.id = e.1 := by
  intro e he n hn nd hnd
  have h2 := h e he n hn
  rw [hnd] at h2
  simpa using h2

/-- C9: every `Channel.subscribe`, `Channel.unsubscribe` and
`Channel.publish` preserves the doubly-linked-list invariant on every
node of every priority bucket — `node.prev.next == node` and
`node.next.prev == node` whenever those neighbors exist — and every
heap node detached from its bucket has both links cleared to null.
(Stated over any channel satisfying the representation invariant, which
each operation re-establishes; `p ≤ 4` reflects the registry's priority
clamp.) -/
theorem dll_invariant_preserved (ch : Channel) (B : List (List Nat)) (fn : Fn)
    (p c : Nat) (env : HandlerEnv) (fuel : Nat) (args : List Arg)
    (hrep : Rep ch B) (hp : p ≤ 4) :
    (∀ ch1, Channel.subscribe ch fn p c = Except.ok ch1 →
      ∃ B1, Rep ch1 B1 ∧ linkInv ch1 ∧
        ∀ e ∈ ch1.nodes, e.1 ∈ B1.flatten ∨ (e.2.prev = none ∧ e.2.next = none)) ∧
    (∃ B2, Rep (Channel.unsubscribe ch fn).1 B2 ∧
      linkInv (Channel.unsubscribe ch fn).1 ∧
      ∀ e ∈ (Channel.unsubscribe ch fn).1.nodes,
        e.1 ∈ B2.flatten ∨ (e.2.prev = none ∧ e.2.next = none)) ∧
    (∃ B3, Rep (Channel.publish env fuel ch args).1 B3 ∧
      linkInv (Channel.publish env fuel ch args).1 ∧
      ∀ e ∈ (Channel.publish env fuel ch args).1.nodes,
        e.1 ∈ B3.flatten ∨ (e.2.prev = none ∧ e.2.next = none)) := by
  refine ⟨?_, ?_, ?_⟩
  · intro ch1 h1
    rw [subscribe_char] at h1
    by_cases hdup : subscribeDup ch fn = true
    · rw [if_pos hdup] at h1
      simp at h1
    · rw [if_neg hdup] at h1
      simp only [Except.ok.injEq] at h1
      subst h1
      have h3 := rep_subscribeResult ch B fn p c hrep hp
      exact ⟨_, h3, linkInv_of_rep _ _ h3, h3.cover⟩
  · obtain ⟨B2, h2⟩ := rep_unsubscribe ch B fn hrep
    exact ⟨B2, h2, linkInv_of_rep _ _ h2, h2.cover⟩
  · obtain ⟨B3, h3⟩ := (rep_exec env fuel).1 ch args B hrep
    exact ⟨B3, h3, linkInv_of_rep _ _ h3, h3.cover⟩

/-- Two distinct handler functions for the C9 witness channel. -/
def fA9 : Fn := { ref := 11, src := "a" }

def fB9 : Fn := { ref := 12, src := "b" }

/-- A channel holding two priority-2 subscriptions. -/
def chC9 : Channel := subscribeResult (subscribeResult (Channel.new "c9") fA9 2 0) fB9 2 5

def BC9 : List (List Nat) := [[], [], [0, 1], [], []]

/-- C9 witness: the invariant preservation instantiated on a two-node
channel, unsubscribing the bucket head. -/
theorem dll_invariant_preserved_witness :
    Rep chC9 BC9 ∧ (2 : Nat) ≤ 4 ∧
    (∃ B2, Rep (Channel.unsubscribe chC9 fA9).1 B2 ∧
      linkInv (Channel.unsubscribe chC9 fA9).1 ∧
      ∀ e ∈ (Channel.unsubscribe chC9 fA9).1.nodes,
        e.1 ∈ B2.flatten ∨ (e.2.prev = none ∧ e.2.next = none)) :=
  have hrep : Rep chC9 BC9 := ⟨by decide, by decide, by decide, by decide, by decide,
    by decide, by decide, by decide, by decide, by decide, mapId_of_decide _ (by decide)⟩
  ⟨hrep, by decide,
   (dll_invariant_preserved chC9 BC9 fA9 2 0 envPure 5 [] hrep (by decide)).2.1⟩

/-! ## Traces of a publish under structure-preserving handlers -/

/-- The function reference stored at a node id. -/
def refOf (nodes : List (Nat × DLLNode)) (n : Nat) : Nat :=
  match findNd nodes n with
  | some nd => nd.subscription.fn.ref
  | none => 0

/-- Handler bodies that neither mutate the channel lists nor re-publish:
empty, a single throw, or a single `stopPropagation`. -/
def benignCmds : List HCmd → Bool
  | [] => true
  | [HCmd.hthrow _] => true
  | [HCmd.hinterrupt] => true
  | _ => false

/-- Handler bodies that are empty or a single throw. -/
def throwOnlyCmds : List HCmd → Bool
  | [] => true
  | [HCmd.hthrow _] => true
  | _ => false

theorem benignCmds_cases (cmds : List HCmd) (h : benignCmds cmds = true) :
    cmds = [] ∨ (∃ e, cmds = [HCmd.hthrow e]) ∨ cmds = [HCmd.hinterrupt] := by
  match cmds with
  | [] => exact Or.inl rfl
  | [HCmd.hthrow e] => exact Or.inr (Or.inl ⟨e, rfl⟩)
  | [HCmd.hinterrupt] => exact Or.inr (Or.inr rfl)
  | HCmd.hthrow e :: c :: rest => simp [benignCmds] at h
  | HCmd.hinterrupt :: c :: rest => simp [benignCmds] at h
  | HCmd.hsubscribe f p c :: rest => simp [benignCmds] at h
  | HCmd.hunsubscribe f :: rest => simp [benignCmds] at h
  | HCmd.hpublish a :: rest => simp [benignCmds] at h

theorem throwOnly_benign (cmds : List HCmd) (h : throwOnlyCmds cmds = true) :
    benignCmds cmds = true := by
  match cmds with
  | [] => rfl
  | [HCmd.hthrow e] => rfl
  | [HCmd.hinterrupt] => simp [throwOnlyCmds] at h
  | HCmd.hthrow e :: c :: rest => simp [throwOnlyCmds] at h
  | HCmd.hinterrupt :: c :: rest => simp [throwOnlyCmds] at h
  | HCmd.hsubscribe f p c :: rest => simp [throwOnlyCmds] at h
  | HCmd.hunsubscribe f :: rest => simp [throwOnlyCmds] at h
  | HCmd.hpublish a :: rest => simp [throwOnlyCmds] at h

/-- The inner-loop trace specification: events, whether the abort
`return` fired, and whether `SIG_INT` is pending at exit. -/
def walkSpec (env : HandlerEnv) (nodes : List (Nat × DLLNode)) (ns : String)
    (args : List Arg) : Bool → List Nat → List Event × Bool × Bool
  | si, [] => ([], false, si)
  | si, n :: rest =>
    if si then ([], true, false)
    else
      match findNd nodes n with
      | none => ([], false, false)
      | some nd =>
        let r := nd.subscription.fn.ref
        let inv := Event.invoked r (args ++ [Arg.chanRef ns])
        match env r with
        | HCmd.hthrow e :: _ =>
          let w := walkSpec env nodes ns args false rest
          (inv :: Event.errorLogged (Err.user e) r :: w.1, w.2)
        | HCmd.hinterrupt :: _ =>
          let w := walkSpec env nodes ns args true rest
          (inv :: w.1, w.2)
        | _ =>
          let w := walkSpec env nodes ns args false rest
          (inv :: w.1, w.2)

/-- The outer-loop trace: bucket by bucket, stopping at an abort. -/
def bucketsSpec (env : HandlerEnv) (nodes : List (Nat × DLLNode)) (ns : String)
    (args : List Arg) : Bool → List (List Nat) → List Event
  | _, [] => []
  | si, b :: rest =>
    let w := walkSpec env nodes ns args si b
    if w.2.1 then w.1 else w.1 ++ bucketsSpec env nodes ns args w.2.2 rest

theorem runCmds_nil (env : HandlerEnv) (fuel : Nat) (ch : Channel) :
    runCmds env fuel ch [] = (ch, [], none) := by
  cases fuel <;> rfl

theorem runCmds_throw (env : HandlerEnv) (fuel : Nat) (ch : Channel) (e : Nat)
    (h : 1 ≤ fuel) :
    runCmds env fuel ch [HCmd.hthrow e] = (ch, [], some (Err.user e)) := by
  cases fuel with
  | zero => omega
  | succ f => rfl

theorem runCmds_intr (env : HandlerEnv) (fuel : Nat) (ch : Channel)
    (h : 1 ≤ fuel) :
    runCmds env fuel ch [HCmd.hinterrupt] = (Channel.interrupt ch, [], none) := by
  cases fuel with
  | zero => omega
  | succ f =>
    rw [runCmds.eq_def]
    simp only
    exact runCmds_nil env f (Channel.interrupt ch)

/-- The `while` loop of `Channel.publish` under benign handlers follows
`walkSpec`: same events, structure untouched, final mask determined by
the abort and pending-interrupt flags. -/
theorem pubChain_benign (env : HandlerEnv) (args : List Arg) (N : List (Nat × DLLNode))
    (s : String) :
    ∀ (L : List Nat) (si : Bool) (ch : Channel) (pr cur : Option Nat) (fuel : Nat),
      ch.nodes = N → ch.nspace = s → ch.callingNode = none →
      ch.commandMask = (if si then 3 else 2) →
      chainOKb N pr cur L = true →
      (∀ n ∈ L, benignCmds (env (refOf N n)) = true) →
      L.length + 1 ≤ fuel →
      pubChain env fuel ch args cur =
        ({ ch with commandMask :=
            if (walkSpec env N s args si L).2.1 then 0
            else if (walkSpec env N s args si L).2.2 then 3 else 2 },
         (walkSpec env N s args si L).1,
         (walkSpec env N s args si L).2.1) := by
  intro L
  induction L with
  | nil =>
    intro si ch pr cur fuel h1 h2 h3 h4 hch hben hf
    have hcur : cur = none := by
      rw [chainOKb] at hch
      simpa using hch
    subst hcur
    rw [pubChain.eq_def]
    simp only [walkSpec]
    rw [← h4]
    simp
  | cons n rest ih =>
    intro si ch pr cur fuel h1 h2 h3 h4 hch hben hf
    rw [chainOKb, Bool.and_eq_true_iff] at hch
    obtain ⟨hcu, hch2⟩ := hch
    have hcur : cur = some n := by simpa using hcu
    subst hcur
    cases hfd : findNd N n with
    | none =>
      rw [hfd] at hch2
      simp at hch2
    | some nd =>
      rw [hfd, Bool.and_eq_true_iff] at hch2
      obtain ⟨hpr, hch3⟩ := hch2
      have hrof : refOf N n = nd.subscription.fn.ref := by
        unfold refOf
        rw [hfd]
      have hbn := hben n (List.mem_cons_self n rest)
      rw [hrof] at hbn
      have hben2 : ∀ m ∈ rest, benignCmds (env (refOf N m)) = true :=
        fun m hm => hben m (List.mem_cons_of_mem n hm)
      obtain ⟨cns, cmask, cmat, cmap, ccall, cnodes, cnext, cpend⟩ := ch
      simp only at h1 h2 h3 h4
      subst h1
      subst h2
      subst h3
      cases si with
      | true =>
        rw [if_pos rfl] at h4
        subst h4
        rw [pubChain.eq_def]
        simp only [walkSpec, if_pos rfl]
        rw [if_pos (by decide : ((3 : Nat) &&& SIG_INT ≠ 0))]
        simp [CLEAR_BITS]
      | false =>
        rw [if_neg (by simp)] at h4
        subst h4
        rw [pubChain.eq_def]
        simp only
        rw [if_neg (by decide : ¬ ((2 : Nat) &&& SIG_INT ≠ 0))]
        cases fuel with
        | zero => omega
        | succ f =>
          simp only [lookupNode]
          rw [hfd]
          simp only
          have hfle : rest.length + 1 ≤ f := by
            simp only [List.length_cons] at hf
            omega
          rcases benignCmds_cases _ hbn with hb | ⟨e, hb⟩ | hb
          · rw [hb, runCmds_nil]
            simp only [lookupNode, hfd]
            rw [ih false _ (some n) nd.next f rfl rfl rfl rfl hch3 hben2 hfle]
            simp only [walkSpec, hfd]
            rw [hb]
            simp
          · rw [hb, runCmds_throw env f _ e (by omega)]
            simp only [lookupNode, hfd]
            rw [ih false _ (some n) nd.next f rfl rfl rfl rfl hch3 hben2 hfle]
            simp only [walkSpec, hfd]
            rw [hb]
            simp
          · rw [hb, runCmds_intr env f _ (by omega)]
            simp only [Channel.interrupt, lookupNode, hfd]
            rw [ih true _ (some n) nd.next f rfl rfl rfl (by simp [SIG_INT])
              hch3 hben2 hfle]
            simp only [walkSpec, hfd]
            rw [hb]
            simp

/-- The outer-loop spec vanishes on empty buckets. -/
theorem bucketsSpec_all_nil (env : HandlerEnv) (N : List (Nat × DLLNode)) (ns : String)
    (args : List Arg) :
    ∀ (l : List (List Nat)) (si : Bool), (∀ b ∈ l, b = []) →
      bucketsSpec env N ns args si l = [] := by
  intro l
  induction l with
  | nil => intro si _; rfl
  | cons b rest ihl =>
    intro si hall
    rw [show b = [] from hall b (List.mem_cons_self b rest)]
    simp only [bucketsSpec, walkSpec]
    simp only [if_neg (by simp : ¬ (false = true))]
    exact ihl si (fun b2 hb2 => hall b2 (List.mem_cons_of_mem b hb2))

/-- The `for` loop of `Channel.publish` under benign handlers follows
`bucketsSpec` over the remaining buckets, ending with a cleared mask. -/
theorem pubBuckets_benign (env : HandlerEnv) (args : List Arg) (ch0 : Channel)
    (B : List (List Nat)) (hrep : Rep ch0 B) :
    ∀ (k idx : Nat), 5 ≤ idx + k →
      ∀ (si : Bool) (ch : Channel) (fuel : Nat),
        ch.nodes = ch0.nodes → ch.nspace = ch0.nspace →
        ch.priorityMatrix = ch0.priorityMatrix → ch.callingNode = none →
        ch.commandMask = (if si then 3 else 2) →
        (∀ n ∈ B.flatten, benignCmds (env (refOf ch0.nodes n)) = true) →
        B.flatten.length + 7 ≤ fuel + idx →
        pubBuckets env fuel ch args idx =
          ({ ch with commandMask := 0 },
           bucketsSpec env ch0.nodes ch0.nspace args si (B.drop idx)) := by
  intro k
  induction k with
  | zero =>
    intro idx hik si ch fuel h1 h2 h3 h4 h5 hben hf
    rw [pubBuckets.eq_def]
    rw [if_neg (by rw [h3]; have := hrep.lenM; omega)]
    have hdrop : B.drop idx = [] := List.drop_eq_nil_of_le (by rw [hrep.lenB]; omega)
    rw [hdrop]
    simp [bucketsSpec, CLEAR_BITS]
  | succ k ihk =>
    intro idx hik si ch fuel h1 h2 h3 h4 h5 hben hf
    by_cases hlt : idx < ch.priorityMatrix.length
    · rw [pubBuckets.eq_def, if_pos hlt]
      cases fuel with
      | zero =>
        exfalso
        have := hrep.lenM
        rw [h3] at hlt
        omega
      | succ f =>
        simp only
        have hidx5 : idx < 5 := by
          have := hrep.lenM
          rw [h3] at hlt
          omega
        have hidxB : idx < B.length := by rw [hrep.lenB]; omega
        have hch := hrep.chains idx hidx5
        have hmg : matrixGet ch idx = matrixGet ch0 idx := by
          unfold matrixGet
          rw [h3]
        have hblen : (B.getD idx []).length ≤ B.flatten.length :=
          (getD_sublist_flatten B idx).length_le
        have hgd : B.getD idx [] = B[idx] := by
          rw [List.getD_eq_getElem?_getD, List.getElem?_eq_getElem hidxB]
          rfl
        have hdrop : B.drop idx = B.getD idx [] :: B.drop (idx + 1) := by
          rw [List.drop_eq_getElem_cons hidxB, hgd]
        have hchainres := pubChain_benign env args ch0.nodes ch0.nspace (B.getD idx [])
          si ch none (matrixGet ch0 idx) f h1 h2 h4 h5 hch
          (fun n hn => hben n (mem_getD_flatten n B idx hn)) (by omega)
        rcases hws : walkSpec env ch0.nodes ch0.nspace args si (B.getD idx []) with
          ⟨evs, ab, si2⟩
        rw [hws] at hchainres
        rw [hmg, hchainres]
        cases ab with
        | true =>
          simp only
          rw [hdrop]
          simp only [bucketsSpec]
          rw [hws]
          simp
        | false =>
          simp only [Bool.false_eq_true, if_false]
          rw [ihk (idx + 1) (by omega) si2
            { ch with commandMask := if si2 = true then 3 else 2 } f h1 h2 h3 h4 rfl
            hben (by omega)]
          rw [hdrop]
          simp only [bucketsSpec]
          rw [hws]
          simp
    · rw [pubBuckets.eq_def, if_neg hlt]
      rw [bucketsSpec_all_nil env ch0.nodes ch0.nspace args (B.drop idx) si ?_]
      · simp [CLEAR_BITS]
      · intro b hb
        obtain ⟨j, hjlt, hj⟩ := List.mem_iff_getElem.mp hb
        rw [List.getElem_drop] at hj
        have hq5 : idx + j < 5 := by
          have h6 := hjlt
          rw [List.length_drop, hrep.lenB] at h6
          omega
        have hmgq : matrixGet ch0 (idx + j) = none := by
          unfold matrixGet
          apply List.getD_eq_default
          rw [h3] at hlt
          omega
        have hchq := hrep.chains (idx + j) hq5
        rw [hmgq] at hchq
        have hnil := chain_nil ch0.nodes none _ hchq
        have hgd2 : B.getD (idx + j) [] = b := by
          rw [List.getD_eq_getElem?_getD,
            List.getElem?_eq_getElem (by rw [hrep.lenB]; omega : idx + j < B.length)]
          simpa using hj
        rw [← hgd2]
        exact hnil

/-- `Channel.publish` on an idle channel under benign handlers: the
channel is returned unchanged (mask back to idle) and the events follow
`bucketsSpec` from the bucket lists. -/
theorem publish_benign (env : HandlerEnv) (args : List Arg) (ch : Channel)
    (B : List (List Nat)) (fuel : Nat) (hrep : Rep ch B)
    (hidle : ch.commandMask = 0) (hcall : ch.callingNode = none)
    (hben : ∀ n ∈ B.flatten, benignCmds (env (refOf ch.nodes n)) = true)
    (hfuel : B.flatten.length + 8 ≤ fuel) :
    Channel.publish env fuel ch args =
      (ch, bucketsSpec env ch.nodes ch.nspace args false B) := by
  obtain ⟨cns, cmask, cmat, cmap, ccall, cnodes, cnext, cpend⟩ := ch
  simp only at hidle hcall hben ⊢
  subst hidle
  subst hcall
  rw [Channel.publish.eq_def]
  rw [if_neg (by decide : ¬ ((0 : Nat) &&& PUBLISHING ≠ 0))]
  cases fuel with
  | zero => omega
  | succ f =>
    simp only
    rw [pubBuckets_benign env args
      { nspace := cns, commandMask := 0, priorityMatrix := cmat, fnHashMap := cmap,
        callingNode := none, nodes := cnodes, nextId := cnext, pending := cpend } B hrep
      5 0 (by omega) false
      { nspace := cns, commandMask := 0 ||| PUBLISHING, priorityMatrix := cmat,
        fnHashMap := cmap, callingNode := none, nodes := cnodes, nextId := cnext,
        pending := cpend } f rfl rfl rfl rfl (by simp [PUBLISHING]) hben (by omega)]
    simp [List.drop_zero]

theorem throwOnlyCmds_cases (cmds : List HCmd) (h : throwOnlyCmds cmds = true) :
    cmds = [] ∨ ∃ e, cmds = [HCmd.hthrow e] := by
  match cmds with
  | [] => exact Or.inl rfl
  | [HCmd.hthrow e] => exact Or.inr ⟨e, rfl⟩
  | [HCmd.hinterrupt] => simp [throwOnlyCmds] at h
  | HCmd.hthrow e :: c :: rest => simp [throwOnlyCmds] at h
  | HCmd.hinterrupt :: c :: rest => simp [throwOnlyCmds] at h
  | HCmd.hsubscribe f p c :: rest => simp [throwOnlyCmds] at h
  | HCmd.hunsubscribe f :: rest => simp [throwOnlyCmds] at h
  | HCmd.hpublish a :: rest => simp [throwOnlyCmds] at h

/-- A walk over handlers that all do nothing: every node is invoked in
list order, no abort, no pending interrupt. -/
theorem walkSpec_pure (env : HandlerEnv) (N : List (Nat × DLLNode)) (ns : String)
    (args : List Arg) :
    ∀ L, (∀ n ∈ L, ∃ nd, findNd N n = some nd) →
      (∀ n ∈ L, env (refOf N n) = []) →
      walkSpec env N ns args false L =
        (L.map (fun n => Event.invoked (refOf N n) (args ++ [Arg.chanRef ns])),
         false, false) := by
  intro L
  induction L with
  | nil => intro _ _; rfl
  | cons n rest ih =>
    intro hfind hpure
    obtain ⟨nd, hnd⟩ := hfind n (List.mem_cons_self n rest)
    have hrof : refOf N n = nd.subscription.fn.ref := by
      unfold refOf
      rw [hnd]
    have hp := hpure n (List.mem_cons_self n rest)
    rw [hrof] at hp
    simp only [walkSpec, Bool.false_eq_true, if_false, hnd, hp, List.map_cons]
    rw [ih (fun m hm => hfind m (List.mem_cons_of_mem n hm))
      (fun m hm => hpure m (List.mem_cons_of_mem n hm))]
    simp [hrof]

/-- A walk over handlers that at most throw: no abort, no interrupt,
every node still invoked, every thrown error logged. -/
theorem walkSpec_throwOnly (env : HandlerEnv) (N : List (Nat × DLLNode)) (ns : String)
    (args : List Arg) :
    ∀ L, (∀ n ∈ L, ∃ nd, findNd N n = some nd) →
      (∀ n ∈ L, throwOnlyCmds (env (refOf N n)) = true) →
      (walkSpec env N ns args false L).2.1 = false ∧
      (walkSpec env N ns args false L).2.2 = false ∧
      (∀ n ∈ L, Event.invoked (refOf N n) (args ++ [Arg.chanRef ns]) ∈
        (walkSpec env N ns args false L).1) ∧
      (∀ n ∈ L, ∀ e, env (refOf N n) = [HCmd.hthrow e] →
        Event.errorLogged (Err.user e) (refOf N n) ∈
          (walkSpec env N ns args false L).1) := by
  intro L
  induction L with
  | nil =>
    refine fun _ _ => ⟨rfl, rfl, ?_, ?_⟩ <;> intro n hn <;> simp at hn
  | cons n rest ih =>
    intro hfind hto
    obtain ⟨nd, hnd⟩ := hfind n (List.mem_cons_self n rest)
    have hrof : refOf N n = nd.subscription.fn.ref := by
      unfold refOf
      rw [hnd]
    obtain ⟨hab, hsi, hinv, hlog⟩ := ih (fun m hm => hfind m (List.mem_cons_of_mem n hm))
      (fun m hm => hto m (List.mem_cons_of_mem n hm))
    have ht := hto n (List.mem_cons_self n rest)
    rcases throwOnlyCmds_cases _ ht with hb | ⟨e, hb⟩
    · rw [hrof] at hb
      simp only [walkSpec, Bool.false_eq_true, if_false, hnd, hb]
      refine ⟨hab, hsi, ?_, ?_⟩
      · intro m hm
        rcases List.mem_cons.mp hm with h2 | h2
        · subst h2
          simp [hrof]
        · simp only [List.mem_cons]
          exact Or.inr (hinv m h2)
      · intro m hm e2 he2
        rcases List.mem_cons.mp hm with h2 | h2
        · subst h2
          rw [hrof, hb] at he2
          simp at he2
        · simp only [List.mem_cons]
          exact Or.inr (hlog m h2 e2 he2)
    · rw [hrof] at hb
      simp only [walkSpec, Bool.false_eq_true, if_false, hnd, hb]
      refine ⟨hab, hsi, ?_, ?_⟩
      · intro m hm
        rcases List.mem_cons.mp hm with h2 | h2
        · subst h2
          simp [hrof]
        · simp only [List.mem_cons]
          exact Or.inr (Or.inr (hinv m h2))
      · intro m hm e2 he2
        rcases List.mem_cons.mp hm with h2 | h2
        · subst h2
          rw [hrof, hb] at he2
          simp only [List.cons.injEq] at he2
          obtain ⟨he3, -⟩ := he2
          simp only [HCmd.hthrow.injEq] at he3
          subst he3
          simp [hrof]
        · simp only [List.mem_cons]
          exact Or.inr (Or.inr (hlog m h2 e2 he2))

/-- A walk with a pure prefix and then an interrupting handler: the
prefix and the interrupter are invoked and nothing after them; the walk
aborts iff the interrupter was not last. -/
theorem walkSpec_intr (env : HandlerEnv) (N : List (Nat × DLLNode)) (ns : String)
    (args : List Arg) :
    ∀ (L1 : List Nat) (m : Nat) (L2 : List Nat),
      (∀ n ∈ L1, ∃ nd, findNd N n = some nd) →
      (∀ n ∈ L1, env (refOf N n) = []) →
      (∃ nd, findNd N m = some nd) →
      env (refOf N m) = [HCmd.hinterrupt] →
      walkSpec env N ns args false (L1 ++ m :: L2) =
        ((L1 ++ [m]).map (fun n => Event.invoked (refOf N n) (args ++ [Arg.chanRef ns])),
         !L2.isEmpty, L2.isEmpty) := by
  intro L1
  induction L1 with
  | nil =>
    intro m L2 _ _ hfm hintr
    obtain ⟨nd, hnd⟩ := hfm
    have hrof : refOf N m = nd.subscription.fn.ref := by
      unfold refOf
      rw [hnd]
    rw [hrof] at hintr
    simp only [List.nil_append, walkSpec, Bool.false_eq_true, if_false, hnd, hintr]
    cases L2 with
    | nil => simp [walkSpec, hrof]
    | cons x xs => simp [walkSpec, hrof]
  | cons n rest ih =>
    intro m L2 hfind hpure hfm hintr
    obtain ⟨nd, hnd⟩ := hfind n (List.mem_cons_self n rest)
    have hrof : refOf N n = nd.subscription.fn.ref := by
      unfold refOf
      rw [hnd]
    have hp := hpure n (List.mem_cons_self n rest)
    rw [hrof] at hp
    simp only [List.cons_append, walkSpec, Bool.false_eq_true, if_false, hnd, hp,
      List.append_eq]
    rw [ih m L2 (fun a ha => hfind a (List.mem_cons_of_mem n ha))
      (fun a ha => hpure a (List.mem_cons_of_mem n ha)) hfm hintr]
    simp [hrof]

/-- Once an interrupt is pending, no further bucket emits anything. -/
theorem bucketsSpec_si_true (env : HandlerEnv) (N : List (Nat × DLLNode)) (ns : String)
    (args : List Arg) :
    ∀ l, bucketsSpec env N ns args true l = [] := by
  intro l
  induction l with
  | nil => rfl
  | cons b rest ih =>
    cases b with
    | nil =>
      simp only [bucketsSpec, walkSpec, Bool.false_eq_true, if_false]
      exact ih
    | cons x xs =>
      simp [bucketsSpec, walkSpec]

/-- All-pure handlers: the full publish trace is the bucket-order
flattening. -/
theorem bucketsSpec_pure (env : HandlerEnv) (N : List (Nat × DLLNode)) (ns : String)
    (args : List Arg) :
    ∀ (Bs : List (List Nat)),
      (∀ n ∈ Bs.flatten, ∃ nd, findNd N n = some nd) →
      (∀ n ∈ Bs.flatten, env (refOf N n) = []) →
      bucketsSpec env N ns args false Bs =
        Bs.flatten.map (fun n => Event.invoked (refOf N n) (args ++ [Arg.chanRef ns])) := by
  intro Bs
  induction Bs with
  | nil => intro _ _; rfl
  | cons b rest ih =>
    intro hfind hpure
    simp only [List.flatten_cons] at hfind hpure ⊢
    rw [bucketsSpec]
    rw [walkSpec_pure env N ns args b
      (fun n hn => hfind n (List.mem_append.mpr (Or.inl hn)))
      (fun n hn => hpure n (List.mem_append.mpr (Or.inl hn)))]
    simp only [Bool.false_eq_true, if_false]
    rw [ih (fun n hn => hfind n (List.mem_append.mpr (Or.inr hn)))
      (fun n hn => hpure n (List.mem_append.mpr (Or.inr hn)))]
    simp

/-- Throw-only handlers: every node of every bucket is invoked and every
thrown error is logged in the trace. -/
theorem bucketsSpec_throwOnly (env : HandlerEnv) (N : List (Nat × DLLNode)) (ns : String)
    (args : List Arg) :
    ∀ (Bs : List (List Nat)),
      (∀ n ∈ Bs.flatten, ∃ nd, findNd N n = some nd) →
      (∀ n ∈ Bs.flatten, throwOnlyCmds (env (refOf N n)) = true) →
      (∀ n ∈ Bs.flatten, Event.invoked (refOf N n) (args ++ [Arg.chanRef ns]) ∈
        bucketsSpec env N ns args false Bs) ∧
      (∀ n ∈ Bs.flatten, ∀ e, env (refOf N n) = [HCmd.hthrow e] →
        Event.errorLogged (Err.user e) (refOf N n) ∈
          bucketsSpec env N ns args false Bs) := by
  intro Bs
  induction Bs with
  | nil =>
    refine fun _ _ => ⟨?_, ?_⟩ <;> intro n hn <;> simp at hn
  | cons b rest ih =>
    intro hfind hto
    simp only [List.flatten_cons] at hfind hto ⊢
    obtain ⟨hab, hsi, hinv, hlog⟩ := walkSpec_throwOnly env N ns args b
      (fun n hn => hfind n (List.mem_append.mpr (Or.inl hn)))
      (fun n hn => hto n (List.mem_append.mpr (Or.inl hn)))
    obtain ⟨ihinv, ihlog⟩ := ih (fun n hn => hfind n (List.mem_append.mpr (Or.inr hn)))
      (fun n hn => hto n (List.mem_append.mpr (Or.inr hn)))
    rw [bucketsSpec]
    simp only [hab, hsi, Bool.false_eq_true, if_false]
    constructor
    · intro n hn
      rcases List.mem_append.mp hn with h2 | h2
      · exact List.mem_append.mpr (Or.inl (hinv n h2))
      · exact List.mem_append.mpr (Or.inr (ihinv n h2))
    · intro n hn e he
      rcases List.mem_append.mp hn with h2 | h2
      · exact List.mem_append.mpr (Or.inl (hlog n h2 e he))
      · exact List.mem_append.mpr (Or.inr (ihlog n h2 e he))

/-- A pure prefix followed by an interrupting handler, anywhere in the
bucket order: the trace is exactly the prefix plus the interrupter. -/
theorem bucketsSpec_intr (env : HandlerEnv) (N : List (Nat × DLLNode)) (ns : String)
    (args : List Arg) :
    ∀ (Bs : List (List Nat)) (L1 : List Nat) (m : Nat) (L2 : List Nat),
      Bs.flatten = L1 ++ m :: L2 →
      (∀ n ∈ Bs.flatten, ∃ nd, findNd N n = some nd) →
      (∀ n ∈ L1, env (refOf N n) = []) →
      env (refOf N m) = [HCmd.hinterrupt] →
      bucketsSpec env N ns args false Bs =
        (L1 ++ [m]).map (fun n => Event.invoked (refOf N n) (args ++ [Arg.chanRef ns])) := by
  intro Bs
  induction Bs with
  | nil =>
    intro L1 m L2 hsp _ _ _
    simp only [List.flatten_nil] at hsp
    exact absurd hsp.symm (List.append_ne_nil_of_right_ne_nil L1 (by simp))
  | cons b rest ih =>
    intro L1 m L2 hsp hfind hpure hintr
    simp only [List.flatten_cons] at hsp hfind
    rcases List.append_eq_append_iff.mp hsp with ⟨a2, ha1, ha2⟩ | ⟨c2, hc1, hc2⟩
    · -- the whole bucket b is inside the pure prefix L1
      subst ha1
      rw [bucketsSpec]
      rw [walkSpec_pure env N ns args b
        (fun n hn => hfind n (List.mem_append.mpr (Or.inl hn)))
        (fun n hn => hpure n (List.mem_append.mpr (Or.inl hn)))]
      simp only [Bool.false_eq_true, if_false]
      rw [ih a2 m L2 ha2 (fun n hn => hfind n (List.mem_append.mpr (Or.inr hn)))
        (fun n hn => hpure n (List.mem_append.mpr (Or.inr hn))) hintr]
      simp
    · -- the interrupter sits inside b, or b is exactly the prefix
      cases c2 with
      | nil =>
        simp only [List.append_nil] at hc1
        subst hc1
        simp only [List.nil_append] at hc2
        rw [bucketsSpec]
        rw [walkSpec_pure env N ns args b
          (fun n hn => hfind n (List.mem_append.mpr (Or.inl hn))) hpure]
        simp only [Bool.false_eq_true, if_false]
        rw [ih [] m L2 hc2.symm (fun n hn => hfind n (List.mem_append.mpr (Or.inr hn)))
          (fun n hn => by simp at hn) hintr]
        rw [List.nil_append, ← List.map_append]
      | cons m2 c3 =>
        simp only [List.cons_append, List.cons.injEq] at hc2
        obtain ⟨hm2, hL2⟩ := hc2
        subst hm2
        subst hc1
        rw [bucketsSpec]
        rw [walkSpec_intr env N ns args L1 m c3
          (fun n hn => hfind n (List.mem_append.mpr (Or.inl
            (List.mem_append.mpr (Or.inl hn)))))
          hpure
          (hfind m (List.mem_append.mpr (Or.inl (List.mem_append.mpr (Or.inr
            (List.mem_cons_self m c3))))))
          hintr]
        cases c3 with
        | nil =>
          simp only [List.isEmpty_nil, Bool.not_true, Bool.false_eq_true, if_false]
          rw [bucketsSpec_si_true]
          simp
        | cons x xs =>
          simp

/-- C8: when handlers throw during a publish, each exception is caught
and logged (`console.error`) and iteration does not stop: the publish
returns normally with the channel unchanged, every subscribed handler
is still invoked with the published arguments, and each thrown error
appears as a logged event in the same trace — one handler's error never
prevents sibling handlers from running. -/
theorem publish_error_caught_iteration_continues (env : HandlerEnv) (args : List Arg)
    (ch : Channel) (B : List (List Nat)) (fuel : Nat) (hrep : Rep ch B)
    (hidle : ch.commandMask = 0) (hcall : ch.callingNode = none)
    (hto : ∀ n ∈ B.flatten, throwOnlyCmds (env (refOf ch.nodes n)) = true)
    (hfuel : B.flatten.length + 8 ≤ fuel) :
    (Channel.publish env fuel ch args).1 = ch ∧
    (∀ n ∈ B.flatten, Event.invoked (refOf ch.nodes n) (args ++ [Arg.chanRef ch.nspace]) ∈
      (Channel.publish env fuel ch args).2) ∧
    (∀ n ∈ B.flatten, ∀ e, env (refOf ch.nodes n) = [HCmd.hthrow e] →
      Event.errorLogged (Err.user e) (refOf ch.nodes n) ∈
        (Channel.publish env fuel ch args).2) := by
  have hpb := publish_benign env args ch B fuel hrep hidle hcall
    (fun n hn => throwOnly_benign _ (hto n hn)) hfuel
  have hfind : ∀ n ∈ B.flatten, ∃ nd, findNd ch.nodes n = some nd :=
    fun n hn => rep_flatten_find ch B hrep n hn
  obtain ⟨hinv, hlog⟩ := bucketsSpec_throwOnly env ch.nodes ch.nspace args B hfind hto
  rw [hpb]
  exact ⟨rfl, hinv, hlog⟩

def fA8 : Fn := { ref := 21, src := "c" }

def fB8 : Fn := { ref := 22, src := "d" }

/-- A channel with a throwing first subscriber and a normal second. -/
def chC8 : Channel := subscribeResult (subscribeResult (Channel.new "c8") fA8 2 0) fB8 2 0

def BC8 : List (List Nat) := [[], [], [0, 1], [], []]

def envC8 : HandlerEnv := fun r => if r == 21 then [HCmd.hthrow 7] else []

/-- C8 witness: with the first handler throwing, the second handler's
invocation and the logged error are both in the trace and the publish
returns the unchanged channel. -/
theorem publish_error_caught_iteration_continues_witness :
    Rep chC8 BC8 ∧ chC8.commandMask = 0 ∧ chC8.callingNode = none ∧
    (∀ n ∈ BC8.flatten, throwOnlyCmds (envC8 (refOf chC8.nodes n)) = true) ∧
    BC8.flatten.length + 8 ≤ 10 ∧
    ((Channel.publish envC8 10 chC8 []).1 = chC8 ∧
     (∀ n ∈ BC8.flatten, Event.invoked (refOf chC8.nodes n)
       ([] ++ [Arg.chanRef chC8.nspace]) ∈ (Channel.publish envC8 10 chC8 []).2) ∧
     (∀ n ∈ BC8.flatten, ∀ e, envC8 (refOf chC8.nodes n) = [HCmd.hthrow e] →
       Event.errorLogged (Err.user e) (refOf chC8.nodes n) ∈
         (Channel.publish envC8 10 chC8 []).2)) :=
  have hrep : Rep chC8 BC8 := ⟨by decide, by decide, by decide, by decide, by decide,
    by decide, by decide, by decide, by decide, by decide, mapId_of_decide _ (by decide)⟩
  ⟨hrep, by decide, by decide, by decide, by decide,
   publish_error_caught_iteration_continues envC8 [] chC8 BC8 10 hrep (by decide)
     (by decide) (by decide) (by decide)⟩

/-- C5: a handler that calls `interrupt`/`stopPropagation` during a
publish always runs to completion — the flag is checked only before
invoking each next node — after which no handler later in that bucket
or in any later bucket is invoked during that publish call, and the
channel's publishing/interrupted state is reset to idle (the publish
returns the channel exactly as it started, mask included). Handlers
after the interrupter are constrained to benign bodies only so that the
trace is expressible; they are never invoked. -/
theorem publish_interrupt_stops (env : HandlerEnv) (args : List Arg) (ch : Channel)
    (B : List (List Nat)) (fuel : Nat) (L1 : List Nat) (m : Nat) (L2 : List Nat)
    (hrep : Rep ch B) (hidle : ch.commandMask = 0) (hcall : ch.callingNode = none)
    (hsplit : B.flatten = L1 ++ m :: L2)
    (hpure : ∀ n ∈ L1, env (refOf ch.nodes n) = [])
    (hintr : env (refOf ch.nodes m) = [HCmd.hinterrupt])
    (hben2 : ∀ n ∈ L2, benignCmds (env (refOf ch.nodes n)) = true)
    (hfuel : B.flatten.length + 8 ≤ fuel) :
    Channel.publish env fuel ch args =
      (ch, (L1 ++ [m]).map (fun n => Event.invoked (refOf ch.nodes n)
        (args ++ [Arg.chanRef ch.nspace]))) := by
  have hben : ∀ n ∈ B.flatten, benignCmds (env (refOf ch.nodes n)) = true := by
    intro n hn
    rw [hsplit] at hn
    rcases List.mem_append.mp hn with h1 | h1
    · rw [hpure n h1]
      rfl
    · rcases List.mem_cons.mp h1 with h2 | h2
      · rw [h2, hintr]
        rfl
      · exact hben2 n h2
  rw [publish_benign env args ch B fuel hrep hidle hcall hben hfuel]
  rw [bucketsSpec_intr env ch.nodes ch.nspace args B L1 m L2 hsplit
    (fun n hn => rep_flatten_find ch B hrep n hn) hpure hintr]

def fA5 : Fn := { ref := 31, src := "e" }

def fB5 : Fn := { ref := 32, src := "f" }

def fC5 : Fn := { ref := 33, src := "g" }

/-- Three subscribers on one bucket; the middle one interrupts. -/
def chC5 : Channel :=
  subscribeResult (subscribeResult (subscribeResult (Channel.new "c5") fA5 2 0) fB5 2 0)
    fC5 2 0

def BC5 : List (List Nat) := [[], [], [0, 1, 2], [], []]

def envC5 : HandlerEnv := fun r => if r == 32 then [HCmd.hinterrupt] else []

/-- C5 witness: with the middle of three subscribers interrupting, the
publish invokes exactly the first two and returns the channel idle and
unchanged. -/
theorem publish_interrupt_stops_witness :
    Rep chC5 BC5 ∧ BC5.flatten = [0] ++ 1 :: [2] ∧
    envC5 (refOf chC5.nodes 1) = [HCmd.hinterrupt] ∧
    Channel.publish envC5 11 chC5 [] =
      (chC5, ([0] ++ [1]).map (fun n => Event.invoked (refOf chC5.nodes n)
        ([] ++ [Arg.chanRef chC5.nspace]))) :=
  have hrep : Rep chC5 BC5 := ⟨by decide, by decide, by decide, by decide, by decide,
    by decide, by decide, by decide, by decide, by decide, mapId_of_decide _ (by decide)⟩
  ⟨hrep, by decide, by decide,
   publish_interrupt_stops envC5 [] chC5 BC5 11 [0] 1 [2] hrep (by decide) (by decide)
     (by decide) (by decide) (by decide) (by decide) (by decide)⟩

/-! ## Priority and insertion order of a publish (C4) -/

/-- A subscription request against one channel: the handler, the
requested priority and the `this` context. -/
structure SubReq where
  fn : Fn
  priority : Nat
  context : Nat
deriving DecidableEq, Repr

/-- Register a list of requests in order, with the registry's
`Math.max(0, Math.min(priority, 4))` clamp. -/
def subscribeAll : Channel → List SubReq → Except String Channel
  | ch, [] => Except.ok ch
  | ch, r :: rest =>
    match Channel.subscribe ch r.fn (min r.priority 4) r.context with
    | Except.ok ch1 => subscribeAll ch1 rest
    | Except.error e => Except.error e

/-- The clamped priority of the `i`-th request. -/
def reqPrio (reqs : List SubReq) (i : Nat) : Nat :=
  match reqs.get? i with
  | some r => min r.priority 4
  | none => 0

/-- The handler reference of the `i`-th request. -/
def reqRef (reqs : List SubReq) (i : Nat) : Nat :=
  match reqs.get? i with
  | some r => r.fn.ref
  | none => 0

/-- The bucket lists determined by the requests: bucket `p` holds the
request indices of clamped priority `p`, in request order. -/
def bucketsOf (reqs : List SubReq) : List (List Nat) :=
  (List.range 5).map (fun p => (List.range reqs.length).filter (fun i => reqPrio reqs i == p))

/-- Ascending bucket order, insertion order inside each bucket. -/
def orderOf (reqs : List SubReq) : List Nat := (bucketsOf reqs).flatten

/-- The channel state after registering `reqs` on a fresh channel:
representation invariant over `bucketsOf`, one node per request at its
request index, idle. -/
def Represents (reqs : List SubReq) (ch : Channel) : Prop :=
  Rep ch (bucketsOf reqs) ∧ ch.nextId = reqs.length ∧ ch.commandMask = 0 ∧
  ch.callingNode = none ∧
  ∀ i r, reqs.get? i = some r →
    (findNd ch.nodes i).map (fun v => (v.subscription, v.priority)) =
      some (Subscription.make r.fn r.context, min r.priority 4)

theorem mem_bucketsOf_lt (reqs : List SubReq) (i : Nat)
    (h : i ∈ (bucketsOf reqs).flatten) : i < reqs.length := by
  unfold bucketsOf at h
  rw [List.mem_flatten] at h
  obtain ⟨l, hl, hil⟩ := h
  rw [List.mem_map] at hl
  obtain ⟨p, -, hp⟩ := hl
  rw [← hp] at hil
  have h2 := List.mem_of_mem_filter hil
  rwa [List.mem_range] at h2

/-- Appending one request appends its index to the bucket of its
clamped priority. -/
theorem bucketsOf_length (reqs : List SubReq) : (bucketsOf reqs).length = 5 := by
  simp [bucketsOf]

theorem ext_getD_five (l1 l2 : List (List Nat)) (h1 : l1.length = 5) (h2 : l2.length = 5)
    (h : ∀ q, q < 5 → l1.getD q [] = l2.getD q []) : l1 = l2 := by
  apply List.ext_getElem?
  intro i
  by_cases hi : i < 5
  · have h3 := h i hi
    rw [List.getD_eq_getElem?_getD, List.getD_eq_getElem?_getD] at h3
    cases hg1 : l1[i]? with
    | none =>
      rw [List.getElem?_eq_none_iff] at hg1
      omega
    | some a =>
      cases hg2 : l2[i]? with
      | none =>
        rw [List.getElem?_eq_none_iff] at hg2
        omega
      | some b =>
        rw [hg1, hg2] at h3
        simp only [Option.getD_some] at h3
        rw [h3]
  · rw [List.getElem?_eq_none (by omega), List.getElem?_eq_none (by omega)]

theorem bucketsOf_getD (reqs : List SubReq) (p : Nat) (hp : p < 5) :
    (bucketsOf reqs).getD p [] =
      (List.range reqs.length).filter (fun i => reqPrio reqs i == p) := by
  unfold bucketsOf
  rw [List.getD_eq_getElem?_getD, List.getElem?_map, List.getElem?_range hp]
  rfl

theorem bucketsOf_snoc (reqs : List SubReq) (r : SubReq) :
    bucketsOf (reqs ++ [r]) =
      (bucketsOf reqs).set (min r.priority 4)
        ((bucketsOf reqs).getD (min r.priority 4) [] ++ [reqs.length]) := by
  have hm5 : min r.priority 4 < 5 := by omega
  apply ext_getD_five
  · exact bucketsOf_length _
  · rw [List.length_set]
    exact bucketsOf_length _
  · intro q hq5
    rw [bucketsOf_getD (reqs ++ [r]) q hq5]
    rw [getD_set_bucket _ (bucketsOf reqs) (min r.priority 4) q
      (by rw [bucketsOf_length]; exact hm5)]
    have hlen : (reqs ++ [r]).length = reqs.length + 1 := by simp
    rw [hlen, List.range_succ, List.filter_append]
    have hfc : (List.range reqs.length).filter (fun i => reqPrio (reqs ++ [r]) i == q) =
        (List.range reqs.length).filter (fun i => reqPrio reqs i == q) := by
      apply List.filter_congr
      intro i hi
      rw [List.mem_range] at hi
      have h2 : reqPrio (reqs ++ [r]) i = reqPrio reqs i := by
        unfold reqPrio
        rw [List.get?_append hi]
      rw [h2]
    rw [hfc]
    have hlast : reqPrio (reqs ++ [r]) reqs.length = min r.priority 4 := by
      unfold reqPrio
      rw [List.get?_concat_length]
    by_cases hq : q = min r.priority 4
    · rw [if_pos hq]
      rw [bucketsOf_getD reqs (min r.priority 4) hm5, ← hq]
      simp [List.filter, hlast, hq]
    · rw [if_neg hq]
      rw [bucketsOf_getD reqs q hq5]
      have hfilt : ((reqPrio (reqs ++ [r]) reqs.length == q) : Bool) = false := by
        rw [hlast, beq_eq_false_iff_ne]
        exact fun h => hq h.symm
      simp [List.filter, hfilt]

/-- A fresh channel represents the empty request list. -/
theorem represents_nil (ns : String) : Represents [] (Channel.new ns) := by
  have h0 : Rep (Channel.new "x") (bucketsOf []) :=
    ⟨by decide, by decide, by decide, by decide, by decide, by decide, by decide,
     by decide, by decide, by decide, mapId_of_decide _ (by decide)⟩
  refine ⟨rep_frame (Channel.new "x") (Channel.new ns) _ h0 rfl rfl rfl rfl,
    rfl, rfl, rfl, ?_⟩
  intro i r hr
  simp at hr

/-- One successful subscribe extends the represented request list. -/
theorem represents_step (reqs : List SubReq) (ch ch1 : Channel) (r : SubReq)
    (h : Represents reqs ch)
    (hok : Channel.subscribe ch r.fn (min r.priority 4) r.context = Except.ok ch1) :
    Represents (reqs ++ [r]) ch1 := by
  rw [subscribe_char] at hok
  by_cases hdup : subscribeDup ch r.fn = true
  · rw [if_pos hdup] at hok
    simp at hok
  · rw [if_neg hdup] at hok
    simp only [Except.ok.injEq] at hok
    subst hok
    obtain ⟨hrep, hnid, hmask, hcall, hcont⟩ := h
    have hframe := subscribeResult_frame ch r.fn (min r.priority 4) r.context
    refine ⟨?_, ?_, ?_, ?_, ?_⟩
    · have h2 := rep_subscribeResult ch (bucketsOf reqs) r.fn (min r.priority 4)
        r.context hrep (by omega)
      rw [hnid] at h2
      rw [bucketsOf_snoc reqs r]
      exact h2
    · rw [hframe.2.2.2.2, hnid]
      simp
    · rw [hframe.1, hmask]
    · rw [hframe.2.1, hcall]
    · intro i ri hri
      by_cases hi : i < reqs.length
      · rw [List.get?_append hi] at hri
        have hne : i ≠ ch.nextId := by omega
        rw [subscribeResult_old ch r.fn (min r.priority 4) r.context i hne]
        exact hcont i ri hri
      · have hi2 : i = reqs.length := by
          by_contra hgt
          have : reqs.length + 1 ≤ i := by omega
          rw [List.get?_eq_none.mpr (by simp; omega)] at hri
          simp at hri
        subst hi2
        rw [List.get?_concat_length] at hri
        simp only [Option.some.injEq] at hri
        subst hri
        rw [← hnid]
        exact subscribeResult_new ch r.fn (min r.priority 4) r.context
          (rep_fresh_none ch (bucketsOf reqs) hrep)

/-- `subscribeAll` keeps the channel's namespace. -/
theorem subscribeAll_nspace :
    ∀ (todo : List SubReq) (ch ch2 : Channel),
      subscribeAll ch todo = Except.ok ch2 → ch2.nspace = ch.nspace := by
  intro todo
  induction todo with
  | nil =>
    intro ch ch2 hok
    simp only [subscribeAll, Except.ok.injEq] at hok
    rw [← hok]
  | cons r rest ih =>
    intro ch ch2 hok
    rw [subscribeAll] at hok
    cases hs : Channel.subscribe ch r.fn (min r.priority 4) r.context with
    | error e =>
      rw [hs] at hok
      simp at hok
    | ok ch1 =>
      rw [hs] at hok
      simp only at hok
      rw [ih ch1 ch2 hok]
      rw [subscribe_char] at hs
      by_cases hdup : subscribeDup ch r.fn = true
      · rw [if_pos hdup] at hs
        simp at hs
      · rw [if_neg hdup] at hs
        simp only [Except.ok.injEq] at hs
        rw [← hs]
        exact (subscribeResult_frame ch r.fn (min r.priority 4) r.context).2.2.2.1

/-- `subscribeAll` builds the represented state request by request. -/
theorem subscribeAll_represents :
    ∀ (todo reqs : List SubReq) (ch ch2 : Channel),
      Represents reqs ch →
      subscribeAll ch todo = Except.ok ch2 →
      Represents (reqs ++ todo) ch2 := by
  intro todo
  induction todo with
  | nil =>
    intro reqs ch ch2 h hok
    simp only [subscribeAll, Except.ok.injEq] at hok
    rw [← hok, List.append_nil]
    exact h
  | cons r rest ih =>
    intro reqs ch ch2 h hok
    rw [subscribeAll] at hok
    cases hs : Channel.subscribe ch r.fn (min r.priority 4) r.context with
    | error e =>
      rw [hs] at hok
      simp at hok
    | ok ch1 =>
      rw [hs] at hok
      simp only at hok
      have h1 := represents_step reqs ch ch1 r h hs
      have h2 := ih (reqs ++ [r]) ch1 ch2 h1 hok
      rwa [List.append_cons]

/-- C4: a publish on a channel built from a list of subscription
requests invokes the subscribers in ascending priority-bucket order
(bucket 0 first, bucket 4 last) and, within each bucket, in
subscription insertion order (oldest first): the trace is exactly the
invocations listed by `orderOf`, which concatenates, for `p = 0..4`,
the request indices of clamped priority `p` in request order. Handlers
are pure so the order is observable unperturbed. -/
theorem publish_priority_insertion_order (ns : String) (reqs : List SubReq)
    (ch : Channel) (env : HandlerEnv) (args : List Arg) (fuel : Nat)
    (hsub : subscribeAll (Channel.new ns) reqs = Except.ok ch)
    (hpure : ∀ i, i < reqs.length → env (reqRef reqs i) = [])
    (hfuel : reqs.length + 8 ≤ fuel) :
    Channel.publish env fuel ch args =
      (ch, (orderOf reqs).map (fun i => Event.invoked (reqRef reqs i)
        (args ++ [Arg.chanRef ns]))) := by
  have h0 : Represents reqs ch := by
    have h1 := subscribeAll_represents reqs [] (Channel.new ns) ch (represents_nil ns) hsub
    simpa using h1
  obtain ⟨hrep, hnid, hmask, hcall, hcont⟩ := h0
  have hns : ch.nspace = ns := subscribeAll_nspace reqs (Channel.new ns) ch hsub
  have hfind : ∀ n ∈ (bucketsOf reqs).flatten, ∃ nd, findNd ch.nodes n = some nd :=
    fun n hn => rep_flatten_find ch (bucketsOf reqs) hrep n hn
  have hrof : ∀ i, i < reqs.length → refOf ch.nodes i = reqRef reqs i := by
    intro i hi
    obtain ⟨ri, hri⟩ : ∃ ri, reqs.get? i = some ri := by
      cases hg : reqs.get? i with
      | none =>
        rw [List.get?_eq_none] at hg
        omega
      | some x => exact ⟨x, rfl⟩
    have hc := hcont i ri hri
    unfold refOf reqRef
    rw [hri]
    cases hfd : findNd ch.nodes i with
    | none =>
      rw [hfd] at hc
      simp at hc
    | some nd =>
      rw [hfd] at hc
      simp only [Option.map_some', Option.some.injEq, Prod.mk.injEq] at hc
      simp only
      rw [hc.1]
      rfl
  have hflat_lt : ∀ n ∈ (bucketsOf reqs).flatten, n < reqs.length :=
    fun n hn => mem_bucketsOf_lt reqs n hn
  have hflen : (bucketsOf reqs).flatten.length ≤ reqs.length := by
    have hsub2 : (bucketsOf reqs).flatten ⊆ List.range reqs.length := by
      intro n hn
      rw [List.mem_range]
      exact hflat_lt n hn
    have h3 := (List.subperm_of_subset hrep.nodup hsub2).length_le
    simpa using h3
  rw [publish_benign env args ch (bucketsOf reqs) fuel hrep hmask hcall
    (fun n hn => by rw [hrof n (hflat_lt n hn), hpure n (hflat_lt n hn)]; rfl)
    (by omega)]
  rw [bucketsSpec_pure env ch.nodes ch.nspace args (bucketsOf reqs) hfind
    (fun n hn => by rw [hrof n (hflat_lt n hn)]; exact hpure n (hflat_lt n hn))]
  rw [hns]
  simp only [orderOf]
  congr 1
  apply List.map_congr_left
  intro i hi
  rw [hrof i (hflat_lt i hi)]

def reqsC4 : List SubReq :=
  [{ fn := { ref := 41, src := "h" }, priority := 3, context := 0 },
   { fn := { ref := 42, src := "i" }, priority := 1, context := 0 },
   { fn := { ref := 43, src := "j" }, priority := 3, context := 0 }]

/-- The channel built by registering `reqsC4` in order. -/
def chC4 : Channel :=
  subscribeResult (subscribeResult (subscribeResult (Channel.new "c4")
    { ref := 41, src := "h" } 3 0) { ref := 42, src := "i" } 1 0)
    { ref := 43, src := "j" } 3 0

def envC4 : HandlerEnv := fun _ => []

/-- C4 witness: priorities 3, 1, 3 publish in the order second, first,
third — the priority-1 bucket first, then the priority-3 bucket in
insertion order. -/
theorem publish_priority_insertion_order_witness :
    subscribeAll (Channel.new "c4") reqsC4 = Except.ok chC4 ∧
    (∀ i, i < reqsC4.length → envC4 (reqRef reqsC4 i) = []) ∧
    reqsC4.length + 8 ≤ 12 ∧
    orderOf reqsC4 = [1, 0, 2] ∧
    Channel.publish envC4 12 chC4 [] =
      (chC4, (orderOf reqsC4).map (fun i => Event.invoked (reqRef reqsC4 i)
        ([] ++ [Arg.chanRef "c4"]))) :=
  ⟨by rfl, by decide, by decide, by decide,
   publish_priority_insertion_order "c4" reqsC4 chC4 envC4 [] 12 (by rfl) (by decide)
     (by decide)⟩

end Publicious
